import Mathlib

/-!
# dnd-dice: a shallow embedding of `dnd.cc`

The interpreter tokenizes a dice expression, validates its structure and evaluates it by
rewriting a token vector in place.  This file embeds those functions and proves properties of
the embedding.

Modelling conventions.

* A value of type `int` is an `Int` within `[INT_MIN, INT_MAX]`, 32 bits wide.  A sum, a
  difference or a product that leaves this range is reduced to 32 bits two's complement by
  `wrap`, as the machine does; so is the running sum of the dice.  The division instruction
  raises the signal SIGFPE for `INT_MIN / -1` and `INT_MIN % -1`, which ends the process:
  this is the outcome `Err.division_trap`.  `std::stoi` refuses a digit run above `INT_MAX`.
* Exceptions are values of `Except Err`.  `Err.recoverable` tells whether the exception derives
  from `std::runtime_error`, the class caught by `main` for every input.
* The generator `rng` is a stream `r : Nat → Nat` of raw outputs together with the number `p` of
  outputs consumed so far; functions that roll dice receive `p` and return the new count.
  A `std::uniform_int_distribution<int>(1, sides)` draw maps the next raw output into
  `[1, sides]`.
* A `std::vector<token>` is a `List token`.  A vector together with an iterator `it` into it is
  the pair of the tokens before `it`, most recent first, and the tokens from `it` on.
* Loops whose iterator is moved by `erase` carry a step budget; the budget handed over by
  `evaluate_subtok` is the length of the vector and is shown never to run out.
-/

namespace DndDice

/-! ## Data model -/

/-- The enumeration `token_t`. -/
inductive token_t
  | number | x | mul | div | mod | add | sub | dice | lparen | rparen | choose
  deriving DecidableEq

/-- The struct `token`. -/
structure token where
  type : token_t
  value : Int
  deriving DecidableEq

/-- The exceptions of the program, one constructor for each `throw` site message, together with
the exception of `std::stoi`, the use of an iterator outside its vector, and the exhaustion of
the step budget of the embedding. -/
inductive Err
  /-- `std::runtime_error("not a valid operation")` -/
  | not_a_valid_operation
  /-- `std::runtime_error("dice number must be at least 1")` -/
  | dice_number_at_least_1
  /-- `std::runtime_error("cannot divide by zero")` -/
  | cannot_divide_by_zero
  /-- `std::runtime_error("cannot mod by zero")` -/
  | cannot_mod_by_zero
  /-- `std::logic_error("not a binary operation on integers")` -/
  | not_a_binary_operation
  /-- `std::runtime_error("cannot choose more dice than rolled")` -/
  | cannot_choose_more
  /-- `std::logic_error("operator arguments must be numbers")` -/
  | arguments_must_be_numbers
  /-- `std::logic_error("unbalanced paretheses")` -/
  | unbalanced_parentheses
  /-- `std::runtime_error("choose without dice")` -/
  | choose_without_dice
  /-- `std::runtime_error("could not fully reduce expression")` -/
  | could_not_reduce
  /-- `std::runtime_error("bad expression string")` -/
  | bad_expression_string
  /-- `std::out_of_range` thrown by `std::stoi`; it derives from `std::logic_error` -/
  | stoi_out_of_range
  /-- an iterator moved or dereferenced outside the vector (undefined behaviour) -/
  | iterator_out_of_range
  /-- no exception: the signal SIGFPE of the division instruction for `INT_MIN / -1` and
  `INT_MIN % -1`, whose quotient is no `int`; the process ends -/
  | division_trap
  /-- the step budget of the embedding ran out -/
  | out_of_fuel
  deriving DecidableEq

/-- The exception derives from `std::runtime_error`, so `catch (const std::runtime_error&)` in
`main` handles it and the run goes on with the next input. -/
def Err.recoverable : Err → Bool
  | .not_a_valid_operation => true
  | .dice_number_at_least_1 => true
  | .cannot_divide_by_zero => true
  | .cannot_mod_by_zero => true
  | .cannot_choose_more => true
  | .choose_without_dice => true
  | .could_not_reduce => true
  | .bad_expression_string => true
  | .not_a_binary_operation => false
  | .arguments_must_be_numbers => false
  | .unbalanced_parentheses => false
  | .stoi_out_of_range => false
  | .iterator_out_of_range => false
  | .division_trap => false
  | .out_of_fuel => false

/-- The largest value of `int`. -/
def INT_MAX : Int := 2147483647

/-- The smallest value of `int`. -/
def INT_MIN : Int := -2147483648

/-- The `int` that 32-bit two's complement arithmetic leaves for the exact result `v`: the
value in `[INT_MIN, INT_MAX]` that differs from `v` by a multiple of `2^32`. -/
def wrap (v : Int) : Int :=
  (v + 2147483648) % 4294967296 - 2147483648

/-! ## Character mapping -/

/-- The function `c_to_op`. -/
def c_to_op (arg : Char) : Except Err token_t :=
  if arg = '*' then .ok .mul
  else if arg = '/' then .ok .div
  else if arg = '%' then .ok .mod
  else if arg = '+' then .ok .add
  else if arg = '-' then .ok .sub
  else if arg = 'd' then .ok .dice
  else if arg = ':' then .ok .choose
  else if arg = 'x' then .ok .x
  else if arg = '(' then .ok .lparen
  else if arg = ')' then .ok .rparen
  else .error .not_a_valid_operation

/-! ## Dice primitives -/

/-- One draw `die(rng)` of `std::uniform_int_distribution<int> die(1, sides)`: the raw output
number `p` of the generator is mapped into `[1, sides]`. -/
def die (r : Nat → Nat) (sides : Int) (p : Nat) : Int :=
  1 + ((r p % sides.toNat : Nat) : Int)

/-- The loop `for (int i = 0; i < arg1; ++i) sum += die(rng);` with `n` iterations left. -/
def sum_rolls (r : Nat → Nat) (sides : Int) : Nat → Int → Nat → Int × Nat
  | 0, sum, p => (sum, p)
  | n + 1, sum, p => sum_rolls r sides n (wrap (sum + die r sides p)) (p + 1)

/-- The function `do_binary_op`.  The operators `*`, `+` and `-` on `int` give the result
reduced to 32 bits; `/` and `%` truncate, and behind the guard for a zero divisor they raise
SIGFPE for `INT_MIN` and `-1`. -/
def do_binary_op (r : Nat → Nat) (op : token_t) (arg1 arg2 : Int) (p : Nat) :
    Except Err (Int × Nat) :=
  match op with
  | .dice =>
    if arg2 < 1 then .error .dice_number_at_least_1
    else .ok (sum_rolls r arg2 arg1.toNat 0 p)
  | .mul => .ok (wrap (arg1 * arg2), p)
  | .div =>
    if arg2 = 0 then .error .cannot_divide_by_zero
    else if arg1 = INT_MIN ∧ arg2 = -1 then .error .division_trap
    else .ok (Int.tdiv arg1 arg2, p)
  | .mod =>
    if arg2 = 0 then .error .cannot_mod_by_zero
    else if arg1 = INT_MIN ∧ arg2 = -1 then .error .division_trap
    else .ok (Int.tmod arg1 arg2, p)
  | .add => .ok (wrap (arg1 + arg2), p)
  | .sub => .ok (wrap (arg1 - arg2), p)
  | _ => .error .not_a_binary_operation

/-- The call `rolls.insert(v)` on a `std::multiset<int>`, kept as an ascending list: the new
element goes behind the elements that are not greater. -/
def multiset_insert (v : Int) : List Int → List Int
  | [] => [v]
  | a :: l => if v < a then v :: a :: l else a :: multiset_insert v l

/-- The loop `for (int i = 0; i < arg1; ++i) rolls.insert(die(rng));` with `n` iterations
left. -/
def insert_rolls (r : Nat → Nat) (sides : Int) : Nat → List Int → Nat → List Int × Nat
  | 0, rolls, p => (rolls, p)
  | n + 1, rolls, p => insert_rolls r sides n (multiset_insert (die r sides p) rolls) (p + 1)

/-- The function `roll_choose`.  The second loop walks the multiset from `rbegin()`, that is the
ascending list backwards, for `arg3` steps; the guard `arg3 > arg1` keeps it inside the
multiset. -/
def roll_choose (r : Nat → Nat) (arg1 arg2 arg3 : Int) (p : Nat) : Except Err (Int × Nat) :=
  if arg2 < 1 then .error .dice_number_at_least_1
  else if arg3 > arg1 then .error .cannot_choose_more
  else
    let rolls := insert_rolls r arg2 arg1.toNat [] p
    .ok ((rolls.1.reverse.take arg3.toNat).foldl (fun sum v => wrap (sum + v)) 0, rolls.2)

/-! ## The class `expression` -/

namespace expression

/-- The function `is_digit`. -/
def is_digit (c : Char) : Bool :=
  decide ('0' ≤ c) && decide (c ≤ '9')

/-- The call `std::stoi(tok)` on a non-empty run of decimal digits: the value of the run, or
`std::out_of_range` when it does not fit an `int`. -/
def stoi (tok : List Char) : Except Err Int :=
  let v : Nat := tok.foldl (fun acc c => 10 * acc + (c.toNat - 48)) 0
  if (v : Int) ≤ INT_MAX then .ok (v : Int) else .error .stoi_out_of_range

/-- The check and the loop body of `balanced_parens`, from a given `depth` and `found_x`. -/
def balanced_loop : List token → Int → Bool → Bool
  | [], depth, _ => decide (depth = 0)
  | t :: rest, depth, found_x =>
    let d1 := if t.type = .lparen then depth + 1 else depth
    let d2 := if t.type = .rparen then d1 - 1 else d1
    if d2 < 0 then false
    else if t.type = .x then
      if !found_x && decide (d2 = 0) then balanced_loop rest d2 true else false
    else balanced_loop rest d2 found_x

/-- The function `balanced_parens`. -/
def balanced_parens (toks : List token) : Bool :=
  balanced_loop toks 0 false

/-- The second loop of `valid_ops`, from a given `expecting_num`. -/
def ops_loop : List token → Bool → Bool
  | [], expecting_num => !expecting_num
  | t :: rest, expecting_num =>
    if expecting_num then
      if t.type = .number then ops_loop rest false
      else if t.type = .lparen then ops_loop rest true
      else false
    else
      if t.type = .number ∨ t.type = .lparen then false
      else if t.type = .rparen then ops_loop rest false
      else ops_loop rest true

/-- The function `valid_ops`. -/
def valid_ops (toks : List token) : Bool :=
  if !balanced_parens toks then false
  else ops_loop toks true

/-- The function `apply_operator`.  The vector is `pre.reverse ++ suf` and `it` is at the head
of `suf`; the result is the vector after the `erase`, split at the returned iterator, and the
new state of the generator. -/
def apply_operator (r : Nat → Nat) (pre suf : List token) (p : Nat) :
    Except Err (List token × List token × Nat) :=
  match pre, suf with
  | _, [] => .error .iterator_out_of_range
  | [], _ :: _ => .error .iterator_out_of_range
  | arg1 :: before, it :: rest =>
    if arg1.type ≠ .number then .error .arguments_must_be_numbers
    else
      match rest with
      | [] => .error .iterator_out_of_range
      | arg2 :: rest2 =>
        if arg2.type ≠ .number then .error .arguments_must_be_numbers
        else
          match rest2 with
          | [] =>
            match do_binary_op r it.type arg1.value arg2.value p with
            | .error e => .error e
            | .ok (v, p1) => .ok ({ arg1 with value := v } :: before, [], p1)
          | choose :: rest3 =>
            if it.type = .dice ∧ choose.type = .choose then
              match rest3 with
              | [] => .error .iterator_out_of_range
              | arg3 :: rest4 =>
                match roll_choose r arg1.value arg2.value arg3.value p with
                | .error e => .error e
                | .ok (v, p1) => .ok ({ arg1 with value := v } :: before, rest4, p1)
            else
              match do_binary_op r it.type arg1.value arg2.value p with
              | .error e => .error e
              | .ok (v, p1) => .ok ({ arg1 with value := v } :: before, choose :: rest3, p1)

/-- The inner loop of `evaluate_subtok` that looks for the `rparen` matching the `lparen` at
`it`: it scans from a given `depth` and returns the tokens passed over and the tokens behind
`pair`, or `none` when it reaches `sub.end()`. -/
def find_pair : Int → List token → Option (List token × List token)
  | _, [] => none
  | depth, t :: rest =>
    let d1 := if t.type = .lparen then depth + 1 else depth
    if t.type = .rparen then
      if d1 - 1 = 0 then some ([], rest)
      else
        match find_pair (d1 - 1) rest with
        | none => none
        | some (inner, after) => some (t :: inner, after)
    else
      match find_pair d1 rest with
      | none => none
      | some (inner, after) => some (t :: inner, after)

/-- The first loop of `evaluate_subtok`, from `it` on: every `lparen` met is replaced by the
number that `ev` returns for the tokens up to its matching `rparen`.  The result is the rest of
the vector after the loop. -/
def paren_loop (ev : List token → Nat → Except Err (Int × Nat)) :
    Nat → List token → Nat → Except Err (List token × Nat)
  | _, [], p => .ok ([], p)
  | 0, _ :: _, _ => .error .out_of_fuel
  | n + 1, it :: rest, p =>
    if it.type = .lparen then
      match find_pair 0 (it :: rest) with
      | some (_ :: subsub, after) =>
        match ev subsub p with
        | .error e => .error e
        | .ok (v, p1) =>
          match paren_loop ev n after p1 with
          | .error e => .error e
          | .ok (out, p2) => .ok ({ type := .number, value := v } :: out, p2)
      | _ => .error .unbalanced_parentheses
    else
      match paren_loop ev n rest p with
      | .error e => .error e
      | .ok (out, p1) => .ok (it :: out, p1)

/-- One of the three operator loops of `evaluate_subtok`: `sel` is the test of the tokens
handed to `apply_operator` and `thr` the test of the tokens that throw "choose without dice"
(only the first loop has that branch). -/
def tier_loop (r : Nat → Nat) (sel thr : token_t → Bool) :
    Nat → List token → List token → Nat → Except Err (List token × Nat)
  | _, pre, [], p => .ok (pre.reverse, p)
  | 0, _, _ :: _, _ => .error .out_of_fuel
  | n + 1, pre, it :: rest, p =>
    if sel it.type then
      match apply_operator r pre (it :: rest) p with
      | .error e => .error e
      | .ok (pre1, suf1, p1) => tier_loop r sel thr n pre1 suf1 p1
    else if thr it.type then .error .choose_without_dice
    else tier_loop r sel thr n (it :: pre) rest p

/-- The test `it->type == token_t::dice`. -/
def is_dice (t : token_t) : Bool := decide (t = .dice)

/-- The test `it->type == token_t::choose`. -/
def is_choose (t : token_t) : Bool := decide (t = .choose)

/-- The test `it->type == mul || it->type == div || it->type == mod`. -/
def is_mul (t : token_t) : Bool := decide (t = .mul ∨ t = .div ∨ t = .mod)

/-- The test `it->type == add || it->type == sub`. -/
def is_add (t : token_t) : Bool := decide (t = .add ∨ t = .sub)

/-- No token throws in the second and third operator loop. -/
def no_throw (_ : token_t) : Bool := false

/-- The final check and the return of `evaluate_subtok`. -/
def front_value (sub : List token) (p : Nat) : Except Err (Int × Nat) :=
  match sub with
  | [t] => if t.type ≠ .number then .error .could_not_reduce else .ok (t.value, p)
  | _ => .error .could_not_reduce

/-- The function `evaluate_subtok` with a budget for the nesting of the recursive calls. -/
def evaluate_fuel (r : Nat → Nat) : Nat → List token → Nat → Except Err (Int × Nat)
  | 0, _, _ => .error .out_of_fuel
  | n + 1, sub, p =>
    match paren_loop (evaluate_fuel r n) sub.length sub p with
    | .error e => .error e
    | .ok (s1, p1) =>
      match tier_loop r is_dice is_choose s1.length [] s1 p1 with
      | .error e => .error e
      | .ok (s2, p2) =>
        match tier_loop r is_mul no_throw s2.length [] s2 p2 with
        | .error e => .error e
        | .ok (s3, p3) =>
          match tier_loop r is_add no_throw s3.length [] s3 p3 with
          | .error e => .error e
          | .ok (s4, p4) => front_value s4 p4

/-- The function `evaluate_subtok`. -/
def evaluate_subtok (r : Nat → Nat) (sub : List token) (p : Nat) : Except Err (Int × Nat) :=
  evaluate_fuel r (sub.length + 1) sub p

/-- The state of the loop of `tokenize`. -/
structure tokenize_state where
  on_digit : Bool
  tok : List Char
  toks : List token

/-- The body of the loop of `tokenize` for the character `c`. -/
def tokenize_step (s : tokenize_state) (c : Char) : Except Err tokenize_state :=
  if is_digit c then
    if !s.on_digit then .ok { on_digit := true, tok := [c], toks := s.toks }
    else .ok { s with tok := s.tok ++ [c] }
  else
    let flushed : Except Err (List token) :=
      if s.on_digit then
        if s.tok ≠ [] then
          match stoi s.tok with
          | .error e => .error e
          | .ok v => .ok (s.toks ++ [{ type := .number, value := v }])
        else .ok s.toks
      else .ok s.toks
    match flushed with
    | .error e => .error e
    | .ok toks1 =>
      let tok1 := if s.on_digit then [] else s.tok
      let toks2 :=
        if c = 'd' ∧ (toks1 = [] ∨ ∃ t ∈ toks1.getLast?, t.type ≠ .number ∧ t.type ≠ .rparen)
        then toks1 ++ [{ type := .number, value := 1 }]
        else toks1
      if c ≠ ' ' then
        match c_to_op c with
        | .error e => .error e
        | .ok op => .ok { on_digit := false, tok := tok1, toks := toks2 ++ [{ type := op, value := 0 }] }
      else .ok { on_digit := false, tok := tok1, toks := toks2 }

/-- The loop of `tokenize` over the characters of `input`. -/
def tokenize_loop : List Char → tokenize_state → Except Err tokenize_state
  | [], s => .ok s
  | c :: cs, s =>
    match tokenize_step s c with
    | .error e => .error e
    | .ok s1 => tokenize_loop cs s1

/-- The function `tokenize`; the result is the member `toks`. -/
def tokenize (input : List Char) : Except Err (List token) :=
  match tokenize_loop input { on_digit := true, tok := [], toks := [] } with
  | .error e => .error e
  | .ok s =>
    if s.on_digit ∧ s.tok ≠ [] then
      match stoi s.tok with
      | .error e => .error e
      | .ok v => .ok (s.toks ++ [{ type := .number, value := v }])
    else .ok s.toks

/-- The constructor `expression(std::string arg)`; the result is the member `toks`. -/
def construct (arg : List Char) : Except Err (List token) :=
  match tokenize arg with
  | .error e => .error e
  | .ok toks => if !valid_ops toks then .error .bad_expression_string else .ok toks

/-- The call `std::find_if` of `operator()`: the tokens before the first `x` and the tokens
behind it, or `none` when there is no `x`. -/
def find_x : List token → Option (List token × List token)
  | [] => none
  | t :: rest =>
    if t.type = .x then some ([], rest)
    else
      match find_x rest with
      | none => none
      | some (before, after) => some (t :: before, after)

/-- The loop `for (int i = 0; i < rep; ++i)` of `operator()` with `n` iterations left. -/
def rep_loop (r : Nat → Nat) (body : List token) : Nat → List Int → Nat → Except Err (List Int × Nat)
  | 0, ret, p => .ok (ret, p)
  | n + 1, ret, p =>
    match evaluate_subtok r body p with
    | .error e => .error e
    | .ok (v, p1) => rep_loop r body n (ret ++ [v]) p1

/-- The function `operator()`. -/
def call (r : Nat → Nat) (toks : List token) (p : Nat) : Except Err (List Int × Nat) :=
  match find_x toks with
  | none => rep_loop r toks (1 : Int).toNat [] p
  | some (rep_subtok, body) =>
    match evaluate_subtok r rep_subtok p with
    | .error e => .error e
    | .ok (rep, p1) => rep_loop r body rep.toNat [] p1

end expression

/-- The body of the `try` block of `main` for one argument: construct the expression and call
it. -/
def run (r : Nat → Nat) (arg : List Char) (p : Nat) : Except Err (List Int × Nat) :=
  match expression.construct arg with
  | .error e => .error e
  | .ok toks => expression.call r toks p


open expression

/-! ## Reference evaluator and auxiliary definitions

The reference evaluator follows the grammar of the input language restricted to numbers,
the five arithmetic operators and parentheses:
`body := term (('+'|'-') term)*`, `term := atom (('*'|'/'|'%') atom)*`,
`atom := number | '(' body ')'`.  The remaining definitions name the intermediate states of
`evaluate_subtok` and the invariants used in the proofs. -/

/-- Reference: the value of `a op b` in the arithmetic of the C type `int`: a product, a sum
and a difference are reduced to 32 bits two's complement; the quotient and the remainder are
those of C, truncated towards zero, and C gives them no value for a zero divisor and for
`INT_MIN` and `-1`, where the quotient is no `int`. -/
def ref_apply (op : token_t) (a b : Int) : Option Int :=
  match op with
  | .mul => some (wrap (a * b))
  | .div => if b = 0 ∨ (a = INT_MIN ∧ b = -1) then none else some (Int.tdiv a b)
  | .mod => if b = 0 ∨ (a = INT_MIN ∧ b = -1) then none else some (Int.tmod a b)
  | .add => some (wrap (a + b))
  | .sub => some (wrap (a - b))
  | _ => none

/-- Reference: `atom := number | '(' body ')'`; returns the value and the unread tokens. -/
def ref_atom (body : List token → Option (Int × List token)) :
    List token → Option (Int × List token)
  | [] => none
  | t :: rest =>
    if t.type = .number then some (t.value, rest)
    else if t.type = .lparen then
      match body rest with
      | some (v, c :: rest1) => if c.type = .rparen then some (v, rest1) else none
      | _ => none
    else none

/-- Reference: the repetition `(op operand)*` behind a first operand of value `acc`, applied
from left to right; the first argument bounds the number of repetitions. -/
def ref_loop (sel : token_t → Bool) (operand : List token → Option (Int × List token)) :
    Nat → Int → List token → Option (Int × List token)
  | _, acc, [] => some (acc, [])
  | 0, _, _ :: _ => none
  | n + 1, acc, t :: rest =>
    if sel t.type then
      match operand rest with
      | none => none
      | some (b, rest1) =>
        match ref_apply t.type acc b with
        | none => none
        | some acc1 => ref_loop sel operand n acc1 rest1
    else some (acc, t :: rest)

/-- Reference: `term := atom (('*'|'/'|'%') atom)*`. -/
def ref_term (body : List token → Option (Int × List token)) (toks : List token) :
    Option (Int × List token) :=
  match ref_atom body toks with
  | none => none
  | some (a, rest) => ref_loop is_mul (ref_atom body) rest.length a rest

/-- Reference: `term (('+'|'-') term)*`. -/
def ref_sum (body : List token → Option (Int × List token)) (toks : List token) :
    Option (Int × List token) :=
  match ref_term body toks with
  | none => none
  | some (a, rest) => ref_loop is_add (ref_term body) rest.length a rest

/-- Reference: `body`, with a bound on the nesting of parentheses. -/
def ref_body : Nat → List token → Option (Int × List token)
  | 0, _ => none
  | n + 1, toks => ref_sum (ref_body n) toks

/-- Reference evaluator: the value of a token sequence that is a `body` as a whole. -/
def ref_eval (toks : List token) : Option Int :=
  match ref_body toks.length toks with
  | some (v, []) => some v
  | _ => none

/-- The token sequence has no dice, choose or repeat-marker token. -/
def no_random (toks : List token) : Prop :=
  ∀ t ∈ toks, t.type ≠ .dice ∧ t.type ≠ .choose ∧ t.type ≠ .x

instance (toks : List token) : Decidable (no_random toks) := by
  unfold no_random
  exact inferInstance

/-- The values drawn by `n` consecutive draws of a die with `sides` sides, from generator
state `p`. -/
def draws (r : Nat → Nat) (sides : Int) (p : Nat) (n : Nat) : List Int :=
  (List.range n).map fun i => die r sides (p + i)

/-- An operator loop of `evaluate_subtok`, with the budget that `evaluate_subtok` gives it. -/
def tier (r : Nat → Nat) (sel thr : token_t → Bool) (pre suf : List token) (p : Nat) :
    Except Err (List token × Nat) :=
  tier_loop r sel thr suf.length pre suf p

/-- The rest of `evaluate_subtok` behind its first loop. -/
def after_parens (r : Nat → Nat) (s1 : List token) (p1 : Nat) : Except Err (Int × Nat) :=
  match tier r is_dice is_choose [] s1 p1 with
  | .error e => .error e
  | .ok (s2, p2) =>
    match tier r is_mul no_throw [] s2 p2 with
    | .error e => .error e
    | .ok (s3, p3) =>
      match tier r is_add no_throw [] s3 p3 with
      | .error e => .error e
      | .ok (s4, p4) => front_value s4 p4

/-- The first loop of `evaluate_subtok`, from `it` on, with the recursive call and the budget
that `evaluate_subtok` gives it. -/
def parens (r : Nat → Nat) (toks : List token) (p : Nat) : Except Err (List token × Nat) :=
  paren_loop (evaluate_subtok r) toks.length toks p

/-- Reference: `a op b` for operands whose evaluation may have failed. -/
def opt_apply (op : token_t) (v w : Option Int) : Option Int :=
  match v, w with
  | some a, some b => ref_apply op a b
  | _, _ => none

/-- The token sequences derived by the grammar of pure arithmetic, with their values:
`Sem 0` is `atom`, `Sem 1` is `term` and `Sem 2` is `body`; products and sums are nested to the
left.  The value is `none` when a division or remainder by zero occurs. -/
inductive Sem : Nat → List token → Option Int → Prop
  | num (t : token) : t.type = .number → Sem 0 [t] (some t.value)
  | grp (l c : token) (inner : List token) (v : Option Int) :
      l.type = .lparen → c.type = .rparen → Sem 2 inner v → Sem 0 (l :: (inner ++ [c])) v
  | term_of_atom (ts : List token) (v : Option Int) : Sem 0 ts v → Sem 1 ts v
  | mul (o : token) (ts us : List token) (v w : Option Int) :
      is_mul o.type = true → Sem 1 ts v → Sem 0 us w →
      Sem 1 (ts ++ o :: us) (opt_apply o.type v w)
  | body_of_term (ts : List token) (v : Option Int) : Sem 1 ts v → Sem 2 ts v
  | add (o : token) (ts us : List token) (v w : Option Int) :
      is_add o.type = true → Sem 2 ts v → Sem 1 us w →
      Sem 2 (ts ++ o :: us) (opt_apply o.type v w)

/-- The sequence has no parenthesis token. -/
def flat (ts : List token) : Prop :=
  ∀ t ∈ ts, t.type ≠ .lparen ∧ t.type ≠ .rparen

/-- The computation `lhs` goes on as `k a` when the value is `a`, and throws when there is no
value. -/
def Continues {α : Type} (lhs : Except Err α) (v : Option Int) (k : Int → Except Err α) :
    Prop :=
  match v with
  | some a => lhs = k a
  | none => ∃ e, lhs = .error e

/-- A sequence of numbers separated by additive operators, with its value summed from the
left. -/
inductive AddList : List token → Int → Prop
  | one (a : Int) : AddList [{ type := .number, value := a }] a
  | snoc (L : List token) (a b x : Int) (o : token) :
      AddList L a → is_add o.type = true → ref_apply o.type a b = some x →
      AddList (L ++ [o, { type := .number, value := b }]) x

/-- The multiplicative loop goes on with the numbers of the terms of a body in place of the
body, or throws when the body has no value. -/
def MulTierBody (r : Nat → Nat) (ts : List token) (v : Option Int) : Prop :=
  ∀ (pre rest : List token) (p : Nat),
    match v with
    | some a => ∃ L, AddList L a ∧
        tier r is_mul no_throw pre (ts ++ rest) p
          = tier r is_mul no_throw (L.reverse ++ pre) rest p
    | none => ∃ e, tier r is_mul no_throw pre (ts ++ rest) p = .error e

/-- The outcome `res` of an evaluation is the value `v`, with the generator state `p` left as
it was, or it is an exception when there is no value. -/
def Agrees (res : Except Err (Int × Nat)) (v : Option Int) (p : Nat) : Prop :=
  match v with
  | some a => res = .ok (a, p)
  | none => ∃ e, res = .error e

/-- The parenthesis loop replaces a derived sequence by a derived sequence `F` without
parentheses and of the same value, leaving the generator alone, or it throws, and then there is
no value. -/
def ParenPass (r : Nat → Nat) (k : Nat) (ts : List token) (v : Option Int) : Prop :=
  (∃ F, Sem k F v ∧ flat F ∧ ∀ (rest : List token) (p : Nat),
      parens r (ts ++ rest) p =
        match parens r rest p with
        | .error e => .error e
        | .ok (out, p1) => .ok (F ++ out, p1)) ∨
  (v = none ∧ ∀ (rest : List token) (p : Nat), ∃ e, parens r (ts ++ rest) p = .error e)

/-- The reader `f` returns unread tokens that are no longer than its input. -/
def Shrinks (f : List token → Option (Int × List token)) : Prop :=
  ∀ (ts : List token) (b : Int) (rest : List token), f ts = some (b, rest) →
    rest.length ≤ ts.length

/-- Reference: the repetition `(op operand)*` with the bound that `ref_term` and `ref_sum`
give it. -/
def ref_rep (sel : token_t → Bool) (operand : List token → Option (Int × List token))
    (acc : Int) (rest : List token) : Option (Int × List token) :=
  ref_loop sel operand rest.length acc rest

/-- The reference readers on a derived sequence followed by more tokens: the atom reader
returns the value, the term and body readers go on with their repetition behind it. -/
def RefReads (k : Nat) (ts : List token) (v : Option Int) : Prop :=
  ∀ (n : Nat) (rest : List token), ts.length ≤ n + 1 →
    (k = 0 → ref_atom (ref_body n) (ts ++ rest) = v.map fun a => (a, rest)) ∧
    (k ≤ 1 → ref_term (ref_body n) (ts ++ rest)
      = v.bind fun a => ref_rep is_mul (ref_atom (ref_body n)) a rest) ∧
    ((∀ t ∈ rest.head?, is_mul t.type = false) → ref_sum (ref_body n) (ts ++ rest)
      = v.bind fun a => ref_rep is_add (ref_term (ref_body n)) a rest)

/-- Both loops of the validator accept `ts` from nesting depth `d` and the flags `f`
(`found_x`) and `e` (`expecting_num`). -/
def Scans (ts : List token) (d : Int) (f e : Bool) : Prop :=
  balanced_loop ts d f = true ∧ ops_loop ts e = true

/-- The grammar reads a prefix of every accepted sequence at level `k`, and the validator
accepts the rest as the continuation behind a value; `stop` holds of the rest. -/
def Reads (k : Nat) (stop : List token → Prop) (ts : List token) : Prop :=
  ∀ (d : Int) (f : Bool), 0 ≤ d → no_random ts → Scans ts d f true →
    ∃ (a rest : List token) (v : Option Int),
      ts = a ++ rest ∧ Sem k a v ∧ Scans rest d f false ∧ stop rest

/-- The stop condition of a term: no multiplicative operator follows. -/
def stop_term (rest : List token) : Prop := ∀ t ∈ rest.head?, is_mul t.type = false

/-- The stop condition of a body: no arithmetic operator follows. -/
def stop_body (rest : List token) : Prop :=
  ∀ t ∈ rest.head?, is_mul t.type = false ∧ is_add t.type = false

/-- The tokens of `(2+3)*4`. -/
def sample_tokens : List token :=
  [⟨.lparen, 0⟩, ⟨.number, 2⟩, ⟨.add, 0⟩, ⟨.number, 3⟩, ⟨.rparen, 0⟩, ⟨.mul, 0⟩, ⟨.number, 4⟩]

/-! ## Definitions for the validator, the tokenizer and the evaluation with dice -/

/-- The change of the nesting depth made by one token: up at a left parenthesis, down at a
right parenthesis. -/
def depth_step (t : token) : Int :=
  if t.type = .lparen then 1 else if t.type = .rparen then -1 else 0

/-- The nesting depth behind a token sequence: the number of its left parentheses minus the
number of its right parentheses. -/
def nesting_depth (ts : List token) : Int :=
  (ts.map depth_step).sum

/-- The number of repeat-marker tokens of a sequence. -/
def count_x (ts : List token) : Nat :=
  ts.countP fun t => decide (t.type = .x)

/-- The token sequence with all parenthesis tokens removed. -/
def strip_parens (ts : List token) : List token :=
  ts.filter fun t => decide (t.type ≠ .lparen ∧ t.type ≠ .rparen)

/-- The part of `tokenize` behind its loop, on the final state of the loop. -/
def tokenize_finish (s : tokenize_state) : Except Err (List token) :=
  if s.on_digit ∧ s.tok ≠ [] then
    match stoi s.tok with
    | .error e => .error e
    | .ok v => .ok (s.toks ++ [{ type := .number, value := v }])
  else .ok s.toks

/-- The function `tokenize` from a state `s` of its loop on the unread characters `cs`. -/
def tokenize_from (s : tokenize_state) (cs : List Char) : Except Err (List token) :=
  match tokenize_loop cs s with
  | .error e => .error e
  | .ok s1 => tokenize_finish s1

/-- The state in which the loop of `tokenize` starts. -/
def tokenize_init : tokenize_state :=
  { on_digit := true, tok := [], toks := [] }

/-- What holds of every state of the loop of `tokenize`: outside a digit run the run buffer is
empty, and an empty buffer inside a run occurs only before the first character. -/
def TokInv (s : tokenize_state) : Prop :=
  (s.on_digit = false → s.tok = []) ∧ (s.on_digit = true → s.tok = [] → s.toks = [])

/-- Every dice token of the sequence stands directly behind a number or a right
parenthesis. -/
def DicePreceded (toks : List token) : Prop :=
  ∀ (pre : List token) (m : token) (post : List token), toks = pre ++ m :: post →
    m.type = .dice → ∃ u ∈ pre.getLast?, u.type = .number ∨ u.type = .rparen

/-- The tokens in the vector once a pending digit run has been closed. -/
def flush (s : tokenize_state) : Except Err (List token) :=
  if s.on_digit ∧ s.tok ≠ [] then
    match stoi s.tok with
    | .error e => .error e
    | .ok v => .ok (s.toks ++ [{ type := .number, value := v }])
  else .ok s.toks

/-- The tokens in the vector once the implicit `1` in front of a `d` has been added. -/
def with_implicit_one (c : Char) (toks1 : List token) : List token :=
  if c = 'd' ∧ (toks1 = [] ∨ ∃ t ∈ toks1.getLast?, t.type ≠ .number ∧ t.type ≠ .rparen)
  then toks1 ++ [{ type := .number, value := 1 }]
  else toks1

/-- The part of the loop body behind the closing of a digit run, for a character `c` that is
no digit: the implicit `1`, and the operator token unless `c` is a space. -/
def push_char (c : Char) (tok : List Char) (toks1 : List token) : Except Err tokenize_state :=
  if c ≠ ' ' then
    match c_to_op c with
    | .error e => .error e
    | .ok op =>
      .ok { on_digit := false, tok := tok,
            toks := with_implicit_one c toks1 ++ [{ type := op, value := 0 }] }
  else .ok { on_digit := false, tok := tok, toks := with_implicit_one c toks1 }

/-- The characters that `tokenize` accepts: decimal digits, the space and the ten operator
characters of `c_to_op`. -/
def valid_char (c : Char) : Prop :=
  is_digit c = true ∨ c = ' ' ∨ c = '*' ∨ c = '/' ∨ c = '%' ∨ c = '+' ∨ c = '-' ∨ c = 'd' ∨
    c = ':' ∨ c = 'x' ∨ c = '(' ∨ c = ')'

/-- The kinds of the tokens of a sequence that are no numbers, in order. -/
def operator_kinds (toks : List token) : List token_t :=
  (toks.filter fun t => decide (t.type ≠ .number)).map fun t => t.type

/-- The token kinds that `c_to_op` gives for the characters of a string that are neither digits
nor spaces, in order. -/
def operator_chars (cs : List Char) : List token_t :=
  cs.filterMap fun c =>
    if is_digit c = true ∨ c = ' ' then none
    else
      match c_to_op c with
      | .error _ => none
      | .ok op => some op

/-- The token sequences derived by the input grammar of the language, with the left operand of
every dice operator written out: level 0 is `atom`, 1 is `factor`, 2 is `term`, 3 is `body` and
4 is `expr`; the repetition count in front of the marker is a `body`. -/
inductive Gram : Nat → List token → Prop
  | num (t : token) : t.type = .number → Gram 0 [t]
  | paren (l c : token) (b : List token) :
      l.type = .lparen → c.type = .rparen → Gram 3 b → Gram 0 (l :: (b ++ [c]))
  | factor_of_atom (a : List token) : Gram 0 a → Gram 1 a
  | dice (d : token) (a b : List token) :
      d.type = .dice → Gram 0 a → Gram 0 b → Gram 1 (a ++ d :: b)
  | dice_choose (d c : token) (a b k : List token) :
      d.type = .dice → c.type = .choose → Gram 0 a → Gram 0 b → Gram 0 k →
      Gram 1 (a ++ d :: (b ++ c :: k))
  | term_of_factor (f : List token) : Gram 1 f → Gram 2 f
  | mul (o : token) (t f : List token) :
      is_mul o.type = true → Gram 2 t → Gram 1 f → Gram 2 (t ++ o :: f)
  | body_of_term (t : List token) : Gram 2 t → Gram 3 t
  | add (o : token) (b t : List token) :
      is_add o.type = true → Gram 3 b → Gram 2 t → Gram 3 (b ++ o :: t)
  | expr_of_body (b : List token) : Gram 3 b → Gram 4 b
  | rep (m : token) (count b : List token) :
      m.type = .x → Gram 3 count → Gram 3 b → Gram 4 (count ++ m :: b)

/-- A token that the validator takes for a binary operator and that leaves the nesting depth
and the marker flag alone. -/
def plain_operator (t : token) : Prop :=
  t.type ≠ .number ∧ t.type ≠ .lparen ∧ t.type ≠ .rparen ∧ t.type ≠ .x

/-- Both loops of the validator pass over the sequence `ts` as over one value. -/
def PassesAsValue (ts : List token) : Prop :=
  (∀ rest : List token, ops_loop (ts ++ rest) true = ops_loop rest false) ∧
  (∀ (rest : List token) (d : Int) (f : Bool), 0 ≤ d →
    balanced_loop (ts ++ rest) d f = balanced_loop rest d f)

/-- The second loop of `valid_ops` accepts the token `t` in the state `e` of the flag
`expecting_num`. -/
def ops_ok (t : token) (e : Bool) : Prop :=
  if e then t.type = .number ∨ t.type = .lparen else t.type ≠ .number ∧ t.type ≠ .lparen

/-- The flag `expecting_num` of the second loop of `valid_ops` behind an accepted token `t`. -/
def ops_next (t : token) : Bool :=
  decide (t.type ≠ .number ∧ t.type ≠ .rparen)

/-- The flag `expecting_num` behind the accepted tokens `X`, from the flag `e`. -/
def state_after (X : List token) (e : Bool) : Bool :=
  match X.getLast? with
  | none => e
  | some a => ops_next a

/-- The exceptions thrown for the operands of an operator: a die with fewer than one side, a
keep count above the roll count, a division or remainder by zero, a choose without dice. -/
def operand_error (e : Err) : Bool :=
  match e with
  | .dice_number_at_least_1 => true
  | .cannot_choose_more => true
  | .cannot_divide_by_zero => true
  | .cannot_mod_by_zero => true
  | .choose_without_dice => true
  | _ => false

/-- The outcomes other than a value that the operations have on number operands: the operand
exceptions and the signal of the division of `INT_MIN` by `-1`. -/
def operand_failure (e : Err) : Bool :=
  match e with
  | .division_trap => true
  | e => operand_error e

/-- The exceptions that the first operator loop of `evaluate_subtok` throws for operands. -/
def dice_error (e : Err) : Bool :=
  match e with
  | .dice_number_at_least_1 => true
  | .cannot_choose_more => true
  | .choose_without_dice => true
  | _ => false

/-- The computation returns a value or throws an exception of the class `E`. -/
def Throws {α : Type} (E : Err → Bool) (res : Except Err α) : Prop :=
  ∀ e, res = .error e → E e = true

/-- A token sequence as `operator()` hands it to `evaluate_subtok`: accepted by both loops of
the validator and without a repeat-marker. -/
def Handed (s : List token) : Prop :=
  balanced_loop s 0 true = true ∧ ops_loop s true = true

/-- The sequence has no parenthesis and no repeat-marker token. -/
def plain (ts : List token) : Prop :=
  ∀ t ∈ ts, t.type ≠ .lparen ∧ t.type ≠ .rparen ∧ t.type ≠ .x

/-- The call `evaluate_subtok(sub)` passes all four loops, is left with exactly one number
token and returns its value. -/
def Reduces (r : Nat → Nat) (sub : List token) (p : Nat) : Prop :=
  ∃ (s1 : List token) (p1 : Nat) (s2 : List token) (p2 : Nat) (s3 : List token) (p3 : Nat)
    (t : token) (p4 : Nat),
    parens r sub p = .ok (s1, p1) ∧ tier r is_dice is_choose [] s1 p1 = .ok (s2, p2) ∧
    tier r is_mul no_throw [] s2 p2 = .ok (s3, p3) ∧
    tier r is_add no_throw [] s3 p3 = .ok ([t], p4) ∧ t.type = .number ∧
    evaluate_subtok r sub p = .ok (t.value, p4)

/-- The three operator loops of `evaluate_subtok` leave exactly one number token, whose value
is returned. -/
def ReducesFlat (r : Nat → Nat) (s1 : List token) (p1 : Nat) : Prop :=
  ∃ (s2 : List token) (p2 : Nat) (s3 : List token) (p3 : Nat) (t : token) (p4 : Nat),
    tier r is_dice is_choose [] s1 p1 = .ok (s2, p2) ∧
    tier r is_mul no_throw [] s2 p2 = .ok (s3, p3) ∧
    tier r is_add no_throw [] s3 p3 = .ok ([t], p4) ∧ t.type = .number ∧
    after_parens r s1 p1 = .ok (t.value, p4)

/-- Reference: the dice operation `count d sides`, the sum of `count` draws from the stream
of die values, as an `int`; it has no value when the die has fewer than one side. -/
def ref_roll (r : Nat → Nat) (count sides : Int) (p : Nat) : Option (Int × Nat) :=
  if sides < 1 then none else some (wrap (draws r sides p count.toNat).sum, p + count.toNat)

/-- Reference: `a op b` for the dice operator and the five arithmetic operators, with the
position in the stream of die values. -/
def ref_binary (r : Nat → Nat) (op : token_t) (a b : Int) (p : Nat) : Option (Int × Nat) :=
  if op = .dice then ref_roll r a b p else (ref_apply op a b).map fun v => (v, p)

/-- The split of a sequence at its last token of a kind selected by `sel`. -/
def split_last (sel : token_t → Bool) : List token → Option (List token × token × List token)
  | [] => none
  | t :: rest =>
    match split_last sel rest with
    | some (L, o, R) => some (t :: L, o, R)
    | none => if sel t.type then some ([], t, rest) else none

/-- Reference: the operator of a sequence that is applied last, with the operands to its
left and right: the rightmost additive operator; without additive operator the rightmost
multiplicative operator; without both the rightmost dice operator. -/
def split_root (toks : List token) : Option (List token × token × List token) :=
  match split_last is_add toks with
  | some s => some s
  | none =>
    match split_last is_mul toks with
    | some s => some s
    | none => split_last is_dice toks

/-- Reference evaluator for sequences with dice and without parentheses: the left operand
of the operator applied last is evaluated first, then the right operand, then the operator
is applied; the first argument bounds the depth of the recursion. -/
def ref_dice_fuel (r : Nat → Nat) : Nat → List token → Nat → Option (Int × Nat)
  | 0, _, _ => none
  | n + 1, toks, p =>
    match split_root toks with
    | some (L, o, R) =>
      match ref_dice_fuel r n L p with
      | none => none
      | some (a, p1) =>
        match ref_dice_fuel r n R p1 with
        | none => none
        | some (b, p2) => ref_binary r o.type a b p2
    | none =>
      match toks with
      | [t] => if t.type = .number then some (t.value, p) else none
      | _ => none

/-- Reference evaluator for sequences with dice and without parentheses: the value and the
position in the stream of die values behind the evaluation. -/
def ref_eval_dice (r : Nat → Nat) (toks : List token) (p : Nat) : Option (Int × Nat) :=
  ref_dice_fuel r toks.length toks p

/-- The sequences `number (dice number)*` with their value from position `p` of the stream,
the dice operators applied from left to right. -/
inductive Rolls (r : Nat → Nat) : List token → Nat → Option (Int × Nat) → Prop
  | num (t : token) (p : Nat) : t.type = .number → Rolls r [t] p (some (t.value, p))
  | roll (o u : token) (ts : List token) (p : Nat) (res : Option (Int × Nat)) :
      o.type = .dice → u.type = .number → Rolls r ts p res →
      Rolls r (ts ++ [o, u]) p (res.bind fun x => ref_roll r x.1 u.value x.2)

/-- The terms (level 1) and bodies (level 2) made of dice rolls, from position `p` of the
stream: when every roll has a value, the sequence of numbers and arithmetic operators left
by the rolls, the position behind them and the value of that sequence. -/
inductive DSem (r : Nat → Nat) :
    Nat → List token → Nat → Option (List token × Nat × Option Int) → Prop
  | rolls (ts : List token) (p : Nat) (res : Option (Int × Nat)) : Rolls r ts p res →
      DSem r 1 ts p (res.map fun x => ([⟨.number, x.1⟩], x.2, some x.1))
  | mul (o : token) (ts us : List token) (p : Nat) (F1 : List token) (p1 : Nat)
      (v1 : Option Int) (res : Option (Int × Nat)) :
      is_mul o.type = true → DSem r 1 ts p (some (F1, p1, v1)) → Rolls r us p1 res →
      DSem r 1 (ts ++ o :: us) p
        (res.map fun x => (F1 ++ o :: [⟨.number, x.1⟩], x.2, opt_apply o.type v1 (some x.1)))
  | mul_fail (o : token) (ts us : List token) (p : Nat) :
      is_mul o.type = true → DSem r 1 ts p none →
      (∀ t ∈ us, is_mul t.type = false ∧ is_add t.type = false) →
      DSem r 1 (ts ++ o :: us) p none
  | body (ts : List token) (p : Nat) (d : Option (List token × Nat × Option Int)) :
      DSem r 1 ts p d → DSem r 2 ts p d
  | add (o : token) (ts us : List token) (p : Nat) (F1 : List token) (p1 : Nat)
      (v1 : Option Int) (d2 : Option (List token × Nat × Option Int)) :
      is_add o.type = true → DSem r 2 ts p (some (F1, p1, v1)) → DSem r 1 us p1 d2 →
      DSem r 2 (ts ++ o :: us) p
        (d2.map fun x => (F1 ++ o :: x.1, x.2.1, opt_apply o.type v1 x.2.2))
  | add_fail (o : token) (ts us : List token) (p : Nat) :
      is_add o.type = true → DSem r 2 ts p none → (∀ t ∈ us, is_add t.type = false) →
      DSem r 2 (ts ++ o :: us) p none

/-- The computation `lhs` goes on as `k b` when the rolls have the outcome `b`, and throws
the exception of a die with fewer than one side when they have none. -/
def Goes {α β : Type} (lhs : Except Err α) (res : Option β) (k : β → Except Err α) : Prop :=
  match res with
  | some b => lhs = k b
  | none => lhs = .error .dice_number_at_least_1

/-- What `balanced_loop` accepts from a depth `d` that is not negative. -/
def BalancedFrom (toks : List token) (d : Int) (f : Bool) : Prop :=
  (∀ pre post : List token, toks = pre ++ post → 0 ≤ d + nesting_depth pre) ∧
  d + nesting_depth toks = 0 ∧
  count_x toks + (if f then 1 else 0) ≤ 1 ∧
  ∀ (pre : List token) (m : token) (post : List token),
    toks = pre ++ m :: post → m.type = .x → d + nesting_depth pre = 0

/-! ## The dice primitives -/

theorem die_ge_one (r : Nat → Nat) (sides : Int) (p : Nat) : 1 ≤ die r sides p := by
  unfold die
  omega

theorem die_le_sides (r : Nat → Nat) (sides : Int) (p : Nat) (h : 1 ≤ sides) :
    die r sides p ≤ sides := by
  unfold die
  have h1 : 0 < sides.toNat := by omega
  have h2 := Nat.mod_lt (r p) h1
  omega

theorem draws_succ (r : Nat → Nat) (sides : Int) (p n : Nat) :
    draws r sides p (n + 1) = die r sides p :: draws r sides (p + 1) n := by
  unfold draws
  rw [List.range_succ_eq_map]
  simp only [List.map_cons, List.map_map, Nat.add_zero]
  congr 1
  apply List.map_congr_left
  intro i _
  simp only [Function.comp, Nat.succ_eq_add_one]
  congr 1
  omega

theorem draws_length (r : Nat → Nat) (sides : Int) (p n : Nat) :
    (draws r sides p n).length = n := by
  simp [draws]

theorem wrap_wrap_add (a b : Int) : wrap (wrap a + b) = wrap (a + b) := by
  unfold wrap
  omega

/-- A value of the range of `int` is left as it is. -/
theorem wrap_of_range (v : Int) (h1 : INT_MIN ≤ v) (h2 : v ≤ INT_MAX) : wrap v = v := by
  unfold INT_MIN at h1
  unfold INT_MAX at h2
  unfold wrap
  omega

theorem wrap_range (v : Int) : INT_MIN ≤ wrap v ∧ wrap v ≤ INT_MAX := by
  unfold INT_MIN INT_MAX wrap
  omega

theorem wrap_zero : wrap 0 = 0 := by decide

theorem sum_rolls_wrap (r : Nat → Nat) (sides : Int) (n : Nat) :
    ∀ (sum : Int) (p : Nat),
      sum_rolls r sides n (wrap sum) p = (wrap (sum + (draws r sides p n).sum), p + n) := by
  induction n with
  | zero => intro sum p; simp [sum_rolls, draws]
  | succ n ih =>
    intro sum p
    rw [sum_rolls, wrap_wrap_add, ih, draws_succ]
    simp only [List.sum_cons, Prod.mk.injEq]
    constructor
    · congr 1
      omega
    · omega

/-- The loop of the dice operation returns the sum of the drawn values as an `int`. -/
theorem sum_rolls_eq (r : Nat → Nat) (sides : Int) (n : Nat) (p : Nat) :
    sum_rolls r sides n 0 p = (wrap (draws r sides p n).sum, p + n) := by
  have h := sum_rolls_wrap r sides n 0 p
  rw [wrap_zero, Int.zero_add] at h
  exact h

theorem draws_sum_bounds (r : Nat → Nat) (sides : Int) (h : 1 ≤ sides) (n : Nat) :
    ∀ p : Nat, (n : Int) ≤ (draws r sides p n).sum ∧ (draws r sides p n).sum ≤ n * sides := by
  induction n with
  | zero => intro p; simp [draws]
  | succ n ih =>
    intro p
    rw [draws_succ, List.sum_cons]
    have h1 := die_ge_one r sides p
    have h2 := die_le_sides r sides p h
    have h3 := ih (p + 1)
    push_cast
    constructor
    · omega
    · nlinarith [h3.2]

theorem multiset_insert_perm (v : Int) (l : List Int) : (multiset_insert v l).Perm (v :: l) := by
  induction l with
  | nil => simp [multiset_insert]
  | cons a l ih =>
    unfold multiset_insert
    split
    · exact List.Perm.refl _
    · exact (List.Perm.cons a ih).trans (List.Perm.swap v a l)

theorem multiset_insert_sorted (v : Int) (l : List Int) (h : l.Sorted (· ≤ ·)) :
    (multiset_insert v l).Sorted (· ≤ ·) := by
  induction l with
  | nil => simp [multiset_insert]
  | cons a l ih =>
    unfold multiset_insert
    split
    · rename_i hlt
      refine List.sorted_cons.2 ⟨?_, h⟩
      intro b hb
      rcases List.mem_cons.1 hb with rfl | hb
      · omega
      · have := List.rel_of_sorted_cons h b hb
        omega
    · rename_i hge
      have hl := List.Sorted.of_cons h
      refine List.sorted_cons.2 ⟨?_, ih hl⟩
      intro b hb
      have hb2 := (multiset_insert_perm v l).mem_iff.1 hb
      rcases List.mem_cons.1 hb2 with rfl | hb2
      · omega
      · exact List.rel_of_sorted_cons h b hb2

theorem insert_rolls_eq (r : Nat → Nat) (sides : Int) (n : Nat) :
    ∀ (rolls : List Int) (p : Nat), rolls.Sorted (· ≤ ·) →
      (insert_rolls r sides n rolls p).2 = p + n ∧
      (insert_rolls r sides n rolls p).1.Sorted (· ≤ ·) ∧
      (insert_rolls r sides n rolls p).1.Perm (draws r sides p n ++ rolls) := by
  induction n with
  | zero => intro rolls p h; simp [insert_rolls, draws, h]
  | succ n ih =>
    intro rolls p h
    rw [insert_rolls, draws_succ]
    obtain ⟨h1, h2, h3⟩ := ih (multiset_insert (die r sides p) rolls) (p + 1)
      (multiset_insert_sorted _ _ h)
    refine ⟨by omega, h2, h3.trans ?_⟩
    have h4 := multiset_insert_perm (die r sides p) rolls
    refine (List.Perm.append_left _ h4).trans ?_
    simp only [List.cons_append]
    exact List.perm_middle

theorem foldl_add_eq_sum (l : List Int) : ∀ s : Int,
    l.foldl (fun sum v => wrap (sum + v)) (wrap s) = wrap (s + l.sum) := by
  induction l with
  | nil => intro s; simp
  | cons a l ih =>
    intro s
    simp only [List.foldl_cons, wrap_wrap_add, ih, List.sum_cons]
    congr 1
    omega

/-- What `roll_choose` returns when neither guard throws. -/
theorem roll_choose_ok (r : Nat → Nat) (count sides keep : Int) (p : Nat)
    (hs : 1 ≤ sides) (hk : keep ≤ count) :
    ∃ sorted : List Int,
      sorted.Perm (draws r sides p count.toNat) ∧ sorted.Sorted (· ≥ ·) ∧
      roll_choose r count sides keep p
        = .ok (wrap (sorted.take keep.toNat).sum, p + count.toNat) := by
  obtain ⟨h1, h2, h3⟩ := insert_rolls_eq r sides count.toNat [] p (List.sorted_nil)
  refine ⟨(insert_rolls r sides count.toNat [] p).1.reverse, ?_, ?_, ?_⟩
  · simpa using (List.reverse_perm _).trans h3
  · unfold List.Sorted at h2 ⊢
    rw [List.pairwise_reverse]
    exact h2
  · unfold roll_choose
    rw [if_neg (by omega), if_neg (by omega)]
    have h0 := foldl_add_eq_sum
      ((insert_rolls r sides count.toNat [] p).1.reverse.take keep.toNat) 0
    rw [wrap_zero, Int.zero_add] at h0
    simp only [h0, h1]

/-! ## The step budgets never run out -/

theorem apply_operator_length (r : Nat → Nat) (pre suf : List token) (p : Nat)
    (pre1 suf1 : List token) (p1 : Nat)
    (h : apply_operator r pre suf p = .ok (pre1, suf1, p1)) : suf1.length + 2 ≤ suf.length := by
  unfold apply_operator at h
  split at h
  · cases h
  · cases h
  · rename_i arg1 before it rest
    split at h
    · cases h
    · split at h
      · cases h
      · rename_i arg2 rest2
        split at h
        · cases h
        · split at h
          · split at h
            · cases h
            · rename_i v q heq
              cases h
              simp
          · rename_i c rest3
            split at h
            · split at h
              · cases h
              · rename_i arg3 rest4
                split at h
                · cases h
                · cases h
                  simp
            · split at h
              · cases h
              · cases h
                simp

/-- An operator loop gives the same result for every budget that is at least the number of
tokens from `it` on. -/
theorem tier_loop_fuel (r : Nat → Nat) (sel thr : token_t → Bool) :
    ∀ (n m : Nat) (pre suf : List token) (p : Nat), suf.length ≤ n → suf.length ≤ m →
      tier_loop r sel thr n pre suf p = tier_loop r sel thr m pre suf p := by
  intro n
  induction n with
  | zero =>
    intro m pre suf p hn _
    have : suf = [] := List.length_eq_zero.1 (by omega)
    subst this
    cases m <;> simp [tier_loop]
  | succ n ih =>
    intro m pre suf p hn hm
    cases suf with
    | nil => cases m <;> simp [tier_loop]
    | cons it rest =>
      cases m with
      | zero => simp at hm
      | succ m =>
        simp only [List.length_cons] at hn hm
        simp only [tier_loop]
        split
        · cases hap : apply_operator r pre (it :: rest) p with
          | error e => rfl
          | ok res =>
            obtain ⟨pre1, suf1, p1⟩ := res
            have hl := apply_operator_length r pre (it :: rest) p pre1 suf1 p1 hap
            simp only [List.length_cons] at hl
            exact ih m pre1 suf1 p1 (by omega) (by omega)
        · split
          · rfl
          · exact ih m (it :: pre) rest p (by omega) (by omega)

theorem tier_nil (r : Nat → Nat) (sel thr : token_t → Bool) (pre : List token) (p : Nat) :
    tier r sel thr pre [] p = .ok (pre.reverse, p) := by
  simp [tier, tier_loop]

theorem tier_skip (r : Nat → Nat) (sel thr : token_t → Bool) (pre : List token) (it : token)
    (rest : List token) (p : Nat) (h1 : sel it.type = false) (h2 : thr it.type = false) :
    tier r sel thr pre (it :: rest) p = tier r sel thr (it :: pre) rest p := by
  simp [tier, tier_loop, h1, h2]

theorem tier_apply (r : Nat → Nat) (sel thr : token_t → Bool) (pre : List token) (it : token)
    (rest : List token) (p : Nat) (h1 : sel it.type = true) :
    tier r sel thr pre (it :: rest) p =
      match apply_operator r pre (it :: rest) p with
      | .error e => .error e
      | .ok (pre1, suf1, p1) => tier r sel thr pre1 suf1 p1 := by
  simp only [tier, List.length_cons, tier_loop, h1, if_true]
  cases hap : apply_operator r pre (it :: rest) p with
  | error e => rfl
  | ok res =>
    obtain ⟨pre1, suf1, p1⟩ := res
    have hl := apply_operator_length r pre (it :: rest) p pre1 suf1 p1 hap
    simp only [List.length_cons] at hl
    exact tier_loop_fuel r sel thr _ _ pre1 suf1 p1 (by omega) (le_refl _)

theorem tier_throw (r : Nat → Nat) (sel thr : token_t → Bool) (pre : List token) (it : token)
    (rest : List token) (p : Nat) (h1 : sel it.type = false) (h2 : thr it.type = true) :
    tier r sel thr pre (it :: rest) p = .error .choose_without_dice := by
  simp [tier, tier_loop, h1, h2]

theorem find_pair_cons (d : Int) (t : token) (rest : List token) :
    find_pair d (t :: rest) =
      if t.type = .rparen then
        if (if t.type = .lparen then d + 1 else d) - 1 = 0 then some ([], rest)
        else
          match find_pair ((if t.type = .lparen then d + 1 else d) - 1) rest with
          | none => none
          | some (inner, after) => some (t :: inner, after)
      else
        match find_pair (if t.type = .lparen then d + 1 else d) rest with
        | none => none
        | some (inner, after) => some (t :: inner, after) := by
  simp only [find_pair]

theorem find_pair_length : ∀ (toks : List token) (d : Int) (inner after : List token),
    find_pair d toks = some (inner, after) → inner.length + after.length + 1 = toks.length := by
  intro toks
  induction toks with
  | nil => intro d inner after h; simp [find_pair] at h
  | cons t rest ih =>
    intro d inner after h
    rw [find_pair_cons] at h
    generalize (if t.type = .lparen then d + 1 else d) = d1 at h
    split at h
    · split at h
      · cases h
        simp
      · cases hfp : find_pair (d1 - 1) rest with
        | none => rw [hfp] at h; cases h
        | some res =>
          obtain ⟨i, a⟩ := res
          rw [hfp] at h
          cases h
          have := ih _ _ _ hfp
          simp only [List.length_cons]
          omega
    · cases hfp : find_pair d1 rest with
      | none => rw [hfp] at h; cases h
      | some res =>
        obtain ⟨i, a⟩ := res
        rw [hfp] at h
        cases h
        have := ih _ _ _ hfp
        simp only [List.length_cons]
        omega

/-- The parenthesis loop gives the same result for every budget that is at least the number of
tokens from `it` on. -/
theorem paren_loop_fuel (ev : List token → Nat → Except Err (Int × Nat)) :
    ∀ (n m : Nat) (toks : List token) (p : Nat), toks.length ≤ n → toks.length ≤ m →
      paren_loop ev n toks p = paren_loop ev m toks p := by
  intro n
  induction n with
  | zero =>
    intro m toks p hn _
    have : toks = [] := List.length_eq_zero.1 (by omega)
    subst this
    cases m <;> simp [paren_loop]
  | succ n ih =>
    intro m toks p hn hm
    cases toks with
    | nil => cases m <;> simp [paren_loop]
    | cons it rest =>
      cases m with
      | zero => simp at hm
      | succ m =>
        simp only [List.length_cons] at hn hm
        simp only [paren_loop]
        split
        · cases hfp : find_pair 0 (it :: rest) with
          | none => rfl
          | some res =>
            obtain ⟨inner, after⟩ := res
            cases inner with
            | nil => rfl
            | cons i0 subsub =>
              have hl := find_pair_length _ _ _ _ hfp
              simp only [List.length_cons] at hl
              simp only []
              cases ev subsub p with
              | error e => rfl
              | ok res1 =>
                obtain ⟨v, p1⟩ := res1
                simp only []
                rw [ih m after p1 (by omega) (by omega)]
        · rw [ih m rest p (by omega) (by omega)]

/-- The parenthesis loop only calls `ev` on sequences at least two tokens shorter than the
vector. -/
theorem paren_loop_congr (ev1 ev2 : List token → Nat → Except Err (Int × Nat)) (L : Nat)
    (hev : ∀ (ts : List token) (p : Nat), ts.length + 2 ≤ L → ev1 ts p = ev2 ts p) :
    ∀ (n : Nat) (toks : List token) (p : Nat), toks.length ≤ L →
      paren_loop ev1 n toks p = paren_loop ev2 n toks p := by
  intro n
  induction n with
  | zero =>
    intro toks p _
    cases toks <;> simp [paren_loop]
  | succ n ih =>
    intro toks p hL
    cases toks with
    | nil => simp [paren_loop]
    | cons it rest =>
      simp only [List.length_cons] at hL
      simp only [paren_loop]
      split
      · cases hfp : find_pair 0 (it :: rest) with
        | none => rfl
        | some res =>
          obtain ⟨inner, after⟩ := res
          cases inner with
          | nil => rfl
          | cons i0 subsub =>
            have hl := find_pair_length _ _ _ _ hfp
            simp only [List.length_cons] at hl
            simp only []
            rw [hev subsub p (by omega)]
            cases ev2 subsub p with
            | error e => rfl
            | ok res1 =>
              obtain ⟨v, p1⟩ := res1
              simp only []
              rw [ih after p1 (by omega)]
      · rw [ih rest p (by omega)]

theorem evaluate_fuel_succ (r : Nat → Nat) (n : Nat) (sub : List token) (p : Nat) :
    evaluate_fuel r (n + 1) sub p =
      match paren_loop (evaluate_fuel r n) sub.length sub p with
      | .error e => .error e
      | .ok (s1, p1) => after_parens r s1 p1 := by
  simp only [evaluate_fuel, after_parens, tier]

/-- The function `evaluate_subtok` gives the same result for every budget above the length of
the vector. -/
theorem evaluate_fuel_stable (r : Nat → Nat) :
    ∀ (n m : Nat) (sub : List token) (p : Nat), sub.length < n → sub.length < m →
      evaluate_fuel r n sub p = evaluate_fuel r m sub p := by
  intro n
  induction n with
  | zero => intro m sub p hn _; omega
  | succ n ih =>
    intro m sub p hn hm
    cases m with
    | zero => omega
    | succ m =>
      rw [evaluate_fuel_succ, evaluate_fuel_succ]
      rw [paren_loop_congr (evaluate_fuel r n) (evaluate_fuel r m) sub.length
        (fun ts q hts => ih m ts q (by omega) (by omega)) sub.length sub p (le_refl _)]

/-- The body of `evaluate_subtok`: the parenthesis loop, the three operator loops and the
final check. -/
theorem evaluate_subtok_eq (r : Nat → Nat) (sub : List token) (p : Nat) :
    evaluate_subtok r sub p =
      match parens r sub p with
      | .error e => .error e
      | .ok (s1, p1) => after_parens r s1 p1 := by
  unfold evaluate_subtok parens
  rw [evaluate_fuel_succ]
  rw [paren_loop_congr (evaluate_fuel r sub.length) (evaluate_subtok r) sub.length
    (fun ts q hts => evaluate_fuel_stable r _ _ ts q (by omega) (by omega)) sub.length sub p
    (le_refl _)]

theorem parens_nil (r : Nat → Nat) (p : Nat) : parens r [] p = .ok ([], p) := by
  simp [parens, paren_loop]

theorem parens_skip (r : Nat → Nat) (it : token) (rest : List token) (p : Nat)
    (h : it.type ≠ .lparen) :
    parens r (it :: rest) p =
      match parens r rest p with
      | .error e => .error e
      | .ok (out, p1) => .ok (it :: out, p1) := by
  simp [parens, paren_loop, h]

theorem parens_group (r : Nat → Nat) (it : token) (rest : List token) (p : Nat)
    (i0 : token) (subsub after : List token)
    (h : it.type = .lparen) (hfp : find_pair 0 (it :: rest) = some (i0 :: subsub, after)) :
    parens r (it :: rest) p =
      match evaluate_subtok r subsub p with
      | .error e => .error e
      | .ok (v, p1) =>
        match parens r after p1 with
        | .error e => .error e
        | .ok (out, p2) => .ok ({ type := .number, value := v } :: out, p2) := by
  have hl := find_pair_length _ _ _ _ hfp
  simp only [List.length_cons] at hl
  simp only [parens, List.length_cons, paren_loop, h, if_true, hfp]
  cases evaluate_subtok r subsub p with
  | error e => rfl
  | ok res1 =>
    obtain ⟨v, p1⟩ := res1
    simp only []
    rw [paren_loop_fuel (evaluate_subtok r) rest.length after.length after p1 (by omega)
      (le_refl _)]

theorem do_binary_op_fuel (r : Nat → Nat) (op : token_t) (a b : Int) (p : Nat) :
    do_binary_op r op a b p ≠ .error .out_of_fuel := by
  cases op <;> simp only [do_binary_op] <;> (repeat' split) <;> simp

theorem roll_choose_fuel (r : Nat → Nat) (a b c : Int) (p : Nat) :
    roll_choose r a b c p ≠ .error .out_of_fuel := by
  unfold roll_choose
  split
  · simp
  · split <;> simp

theorem apply_operator_fuel (r : Nat → Nat) (pre suf : List token) (p : Nat) :
    apply_operator r pre suf p ≠ .error .out_of_fuel := by
  intro h
  unfold apply_operator at h
  split at h
  · cases h
  · cases h
  · rename_i arg1 before it rest
    split at h
    · cases h
    · split at h
      · cases h
      · rename_i arg2 rest2
        split at h
        · cases h
        · split at h
          · split at h
            · rename_i e heq
              cases h
              exact do_binary_op_fuel r _ _ _ _ heq
            · cases h
          · rename_i c rest3
            split at h
            · split at h
              · cases h
              · rename_i arg3 rest4
                split at h
                · rename_i e heq
                  cases h
                  exact roll_choose_fuel r _ _ _ _ heq
                · cases h
            · split at h
              · rename_i e heq
                cases h
                exact do_binary_op_fuel r _ _ _ _ heq
              · cases h

theorem tier_loop_no_fuel (r : Nat → Nat) (sel thr : token_t → Bool) :
    ∀ (n : Nat) (pre suf : List token) (p : Nat), suf.length ≤ n →
      tier_loop r sel thr n pre suf p ≠ .error .out_of_fuel := by
  intro n
  induction n with
  | zero =>
    intro pre suf p hn
    have : suf = [] := List.length_eq_zero.1 (by omega)
    subst this
    simp [tier_loop]
  | succ n ih =>
    intro pre suf p hn
    cases suf with
    | nil => simp [tier_loop]
    | cons it rest =>
      simp only [List.length_cons] at hn
      simp only [tier_loop]
      split
      · cases hap : apply_operator r pre (it :: rest) p with
        | error e =>
          intro h
          cases h
          exact apply_operator_fuel r _ _ _ hap
        | ok res =>
          obtain ⟨pre1, suf1, p1⟩ := res
          have hl := apply_operator_length r pre (it :: rest) p pre1 suf1 p1 hap
          simp only [List.length_cons] at hl
          exact ih pre1 suf1 p1 (by omega)
      · split
        · simp
        · exact ih (it :: pre) rest p (by omega)

theorem paren_loop_no_fuel (ev : List token → Nat → Except Err (Int × Nat)) (L : Nat)
    (hev : ∀ (ts : List token) (p : Nat), ts.length + 2 ≤ L → ev ts p ≠ .error .out_of_fuel) :
    ∀ (n : Nat) (toks : List token) (p : Nat), toks.length ≤ n → toks.length ≤ L →
      paren_loop ev n toks p ≠ .error .out_of_fuel := by
  intro n
  induction n with
  | zero =>
    intro toks p hn _
    have : toks = [] := List.length_eq_zero.1 (by omega)
    subst this
    simp [paren_loop]
  | succ n ih =>
    intro toks p hn hL
    cases toks with
    | nil => simp [paren_loop]
    | cons it rest =>
      simp only [List.length_cons] at hn hL
      simp only [paren_loop]
      split
      · cases hfp : find_pair 0 (it :: rest) with
        | none => simp
        | some res =>
          obtain ⟨inner, after⟩ := res
          cases inner with
          | nil => simp
          | cons i0 subsub =>
            have hl := find_pair_length _ _ _ _ hfp
            simp only [List.length_cons] at hl
            simp only []
            cases hs : ev subsub p with
            | error e =>
              intro h
              cases h
              exact hev subsub p (by omega) hs
            | ok res1 =>
              obtain ⟨v, p1⟩ := res1
              simp only []
              cases hp : paren_loop ev n after p1 with
              | error e =>
                intro h
                cases h
                exact ih after p1 (by omega) (by omega) hp
              | ok res2 => simp
      · cases hp : paren_loop ev n rest p with
        | error e =>
          intro h
          cases h
          exact ih rest p (by omega) (by omega) hp
        | ok res2 => simp

theorem front_value_fuel (sub : List token) (p : Nat) :
    front_value sub p ≠ .error .out_of_fuel := by
  unfold front_value
  split
  · split <;> simp
  · simp

theorem after_parens_fuel (r : Nat → Nat) (s1 : List token) (p1 : Nat) :
    after_parens r s1 p1 ≠ .error .out_of_fuel := by
  unfold after_parens
  cases h2 : tier r is_dice is_choose [] s1 p1 with
  | error e =>
    intro h
    cases h
    exact tier_loop_no_fuel r _ _ _ _ _ _ (le_refl _) h2
  | ok res2 =>
    obtain ⟨s2, p2⟩ := res2
    simp only []
    cases h3 : tier r is_mul no_throw [] s2 p2 with
    | error e =>
      intro h
      cases h
      exact tier_loop_no_fuel r _ _ _ _ _ _ (le_refl _) h3
    | ok res3 =>
      obtain ⟨s3, p3⟩ := res3
      simp only []
      cases h4 : tier r is_add no_throw [] s3 p3 with
      | error e =>
        intro h
        cases h
        exact tier_loop_no_fuel r _ _ _ _ _ _ (le_refl _) h4
      | ok res4 =>
        obtain ⟨s4, p4⟩ := res4
        exact front_value_fuel s4 p4

theorem evaluate_fuel_no_fuel (r : Nat → Nat) :
    ∀ (n : Nat) (sub : List token) (p : Nat), sub.length < n →
      evaluate_fuel r n sub p ≠ .error .out_of_fuel := by
  intro n
  induction n with
  | zero => intro sub p hn; omega
  | succ n ih =>
    intro sub p hn
    rw [evaluate_fuel_succ]
    cases hp : paren_loop (evaluate_fuel r n) sub.length sub p with
    | error e =>
      intro h
      cases h
      exact paren_loop_no_fuel (evaluate_fuel r n) sub.length
        (fun ts q hts => ih ts q (by omega)) sub.length sub p (le_refl _) (le_refl _) hp
    | ok res =>
      obtain ⟨s1, p1⟩ := res
      exact after_parens_fuel r s1 p1

/-- The budget that `evaluate_subtok` hands to its loops and recursive calls never runs out:
the function always returns a value or throws one of the exceptions of the program. -/
theorem evaluate_subtok_total (r : Nat → Nat) (sub : List token) (p : Nat) :
    evaluate_subtok r sub p ≠ .error .out_of_fuel :=
  evaluate_fuel_no_fuel r _ sub p (Nat.lt_succ_self _)

/-! ## The grammar of pure arithmetic -/

theorem flat_append {ts us : List token} : flat (ts ++ us) ↔ flat ts ∧ flat us := by
  simp only [flat, List.mem_append]
  constructor
  · intro h
    exact ⟨fun t ht => h t (Or.inl ht), fun t ht => h t (Or.inr ht)⟩
  · rintro ⟨h1, h2⟩ t (ht | ht)
    · exact h1 t ht
    · exact h2 t ht

theorem flat_cons {t : token} {us : List token} :
    flat (t :: us) ↔ (t.type ≠ .lparen ∧ t.type ≠ .rparen) ∧ flat us := by
  simp only [flat, List.mem_cons]
  constructor
  · intro h
    exact ⟨h t (Or.inl rfl), fun u hu => h u (Or.inr hu)⟩
  · rintro ⟨h1, h2⟩ u (hu | hu)
    · rw [hu]; exact h1
    · exact h2 u hu

theorem is_mul_cases {t : token_t} (h : is_mul t = true) : t = .mul ∨ t = .div ∨ t = .mod := by
  simpa [is_mul] using h

theorem is_add_cases {t : token_t} (h : is_add t = true) : t = .add ∨ t = .sub := by
  simpa [is_add] using h

/-- The tokens of a derived sequence are numbers, parentheses and arithmetic operators. -/
theorem sem_types {k : Nat} {ts : List token} {v : Option Int} (h : Sem k ts v) :
    ∀ t ∈ ts, t.type = .number ∨ t.type = .lparen ∨ t.type = .rparen ∨
      is_mul t.type = true ∨ is_add t.type = true := by
  induction h with
  | num t ht => intro u hu; simp at hu; subst hu; exact Or.inl ht
  | grp l c inner v hl hc _ ih =>
    intro u hu
    simp only [List.mem_cons, List.mem_append, List.not_mem_nil, or_false] at hu
    rcases hu with hu | hu | hu
    · subst hu; exact Or.inr (Or.inl hl)
    · exact ih u hu
    · rw [hu]; exact Or.inr (Or.inr (Or.inl hc))
  | term_of_atom ts v _ ih => exact ih
  | mul o ts us v w ho _ _ ih1 ih2 =>
    intro u hu
    simp only [List.mem_cons, List.mem_append] at hu
    rcases hu with hu | hu | hu
    · exact ih1 u hu
    · subst hu; exact Or.inr (Or.inr (Or.inr (Or.inl ho)))
    · exact ih2 u hu
  | body_of_term ts v _ ih => exact ih
  | add o ts us v w ho _ _ ih1 ih2 =>
    intro u hu
    simp only [List.mem_cons, List.mem_append] at hu
    rcases hu with hu | hu | hu
    · exact ih1 u hu
    · subst hu; exact Or.inr (Or.inr (Or.inr (Or.inr ho)))
    · exact ih2 u hu

theorem sem_ne_nil {k : Nat} {ts : List token} {v : Option Int} (h : Sem k ts v) : ts ≠ [] := by
  induction h with
  | num t ht => simp
  | grp l c inner v hl hc _ ih => simp
  | term_of_atom ts v _ ih => exact ih
  | mul o ts us v w ho _ _ ih1 ih2 => simp
  | body_of_term ts v _ ih => exact ih
  | add o ts us v w ho _ _ ih1 ih2 => simp

theorem sem_le_two {k : Nat} {ts : List token} {v : Option Int} (h : Sem k ts v) : k ≤ 2 := by
  cases h <;> omega

/-- A derived sequence can be read at every higher level of the grammar. -/
theorem sem_body {k : Nat} {ts : List token} {v : Option Int} (h : Sem k ts v) : Sem 2 ts v := by
  have hk := sem_le_two h
  match k, h with
  | 0, h => exact Sem.body_of_term _ _ (Sem.term_of_atom _ _ h)
  | 1, h => exact Sem.body_of_term _ _ h
  | 2, h => exact h

/-- The scan for the matching `rparen` passes over a derived sequence. -/
theorem find_pair_sem {k : Nat} {ts : List token} {v : Option Int} (h : Sem k ts v) :
    ∀ (d : Int) (rest : List token), 1 ≤ d →
      find_pair d (ts ++ rest) =
        match find_pair d rest with
        | none => none
        | some (inner, after) => some (ts ++ inner, after) := by
  induction h with
  | num t ht =>
    intro d rest _
    simp only [List.singleton_append, find_pair_cons, ht]
    simp
  | grp l c inner v hl hc _ ih =>
    intro d rest hd
    have h1 : l :: (inner ++ [c]) ++ rest = l :: (inner ++ (c :: rest)) := by simp
    rw [h1, find_pair_cons, ih (if l.type = .lparen then d + 1 else d) (c :: rest)
      (by rw [if_pos hl]; omega)]
    rw [find_pair_cons]
    have h2 : ¬ (d = 0) := by omega
    have h3 : d + 1 - 1 = d := by omega
    have hl2 : c.type ≠ .lparen := by rw [hc]; decide
    have hl3 : l.type ≠ .rparen := by rw [hl]; decide
    simp only [if_pos hl, if_pos hc, if_neg hl2, if_neg hl3, h3, if_neg h2]
    cases find_pair d rest with
    | none => rfl
    | some res => simp
  | term_of_atom ts v _ ih => exact ih
  | mul o ts us v w ho _ _ ih1 ih2 =>
    intro d rest hd
    have h1 : ts ++ o :: us ++ rest = ts ++ (o :: (us ++ rest)) := by simp
    rw [h1, ih1 d _ hd, find_pair_cons]
    have ho1 : o.type ≠ .rparen := by
      rcases is_mul_cases ho with h | h | h <;> rw [h] <;> decide
    have ho2 : o.type ≠ .lparen := by
      rcases is_mul_cases ho with h | h | h <;> rw [h] <;> decide
    simp only [ho1, ho2, if_false]
    rw [ih2 d rest hd]
    cases find_pair d rest with
    | none => rfl
    | some res => simp
  | body_of_term ts v _ ih => exact ih
  | add o ts us v w ho _ _ ih1 ih2 =>
    intro d rest hd
    have h1 : ts ++ o :: us ++ rest = ts ++ (o :: (us ++ rest)) := by simp
    rw [h1, ih1 d _ hd, find_pair_cons]
    have ho1 : o.type ≠ .rparen := by
      rcases is_add_cases ho with h | h <;> rw [h] <;> decide
    have ho2 : o.type ≠ .lparen := by
      rcases is_add_cases ho with h | h <;> rw [h] <;> decide
    simp only [ho1, ho2, if_false]
    rw [ih2 d rest hd]
    cases find_pair d rest with
    | none => rfl
    | some res => simp

/-! ## The operator loops on a sequence without parentheses -/

/-- The arithmetic operations of `do_binary_op` compute `ref_apply` and leave the generator
alone. -/
theorem do_binary_op_arith (r : Nat → Nat) (op : token_t) (a b : Int) (p : Nat)
    (hop : is_mul op = true ∨ is_add op = true) :
    match ref_apply op a b with
    | some x => do_binary_op r op a b p = .ok (x, p)
    | none => ∃ e, do_binary_op r op a b p = .error e := by
  have h : op = .mul ∨ op = .div ∨ op = .mod ∨ op = .add ∨ op = .sub := by
    rcases hop with h | h
    · rcases is_mul_cases h with h | h | h <;> simp [h]
    · rcases is_add_cases h with h | h <;> simp [h]
  rcases h with h | h | h | h | h <;> subst h <;> simp only [ref_apply, do_binary_op]
  · by_cases hb : b = 0
    · simp [hb]
    · by_cases ht : a = INT_MIN ∧ b = -1 <;> simp [hb, ht]
  · by_cases hb : b = 0
    · simp [hb]
    · by_cases ht : a = INT_MIN ∧ b = -1 <;> simp [hb, ht]

/-- On an arithmetic operator between two numbers `apply_operator` calls `do_binary_op` and
erases the operator and its right operand. -/
theorem apply_operator_arith (r : Nat → Nat) (a : Int) (before : List token) (it arg2 : token)
    (rest : List token) (p : Nat) (h2 : arg2.type = .number) (hit : it.type ≠ .dice) :
    apply_operator r ({ type := .number, value := a } :: before) (it :: arg2 :: rest) p =
      match do_binary_op r it.type a arg2.value p with
      | .error e => .error e
      | .ok (v, p1) => .ok ({ type := .number, value := v } :: before, rest, p1) := by
  unfold apply_operator
  simp only [ne_eq, not_true_eq_false, if_false, h2]
  cases rest with
  | nil => rfl
  | cons c rest3 =>
    simp only [hit, false_and, if_false]

theorem is_mul_not_dice {t : token_t} (h : is_mul t = true) : t ≠ .dice := by
  rcases is_mul_cases h with h | h | h <;> rw [h] <;> decide

theorem is_add_not_dice {t : token_t} (h : is_add t = true) : t ≠ .dice := by
  rcases is_add_cases h with h | h <;> rw [h] <;> decide

theorem is_add_not_mul {t : token_t} (h : is_add t = true) : is_mul t = false := by
  rcases is_add_cases h with h | h <;> rw [h] <;> decide

theorem is_mul_not_add {t : token_t} (h : is_mul t = true) : is_add t = false := by
  rcases is_mul_cases h with h | h | h <;> rw [h] <;> decide

theorem number_token (t : token) (h : t.type = .number) :
    t = { type := .number, value := t.value } := by
  cases t
  simp at h
  simp [h]

/-- An operator loop passes over tokens that it neither selects nor rejects. -/
theorem tier_pass (r : Nat → Nat) (sel thr : token_t → Bool) :
    ∀ (suf pre : List token) (p : Nat),
      (∀ t ∈ suf, sel t.type = false ∧ thr t.type = false) →
      tier r sel thr pre suf p = .ok (pre.reverse ++ suf, p) := by
  intro suf
  induction suf with
  | nil => intro pre p _; simp [tier_nil]
  | cons t rest ih =>
    intro pre p h
    have ht := h t (List.mem_cons_self _ _)
    rw [tier_skip r sel thr pre t rest p ht.1 ht.2,
      ih (t :: pre) p (fun u hu => h u (List.mem_cons_of_mem _ hu))]
    simp

/-- One step of an operator loop on a selected arithmetic operator between two numbers. -/
theorem tier_arith (r : Nat → Nat) (sel thr : token_t → Bool) (a : Int) (before : List token)
    (it arg2 : token) (rest : List token) (p : Nat) (hsel : sel it.type = true)
    (hop : is_mul it.type = true ∨ is_add it.type = true) (h2 : arg2.type = .number) :
    match ref_apply it.type a arg2.value with
    | some x =>
      tier r sel thr ({ type := .number, value := a } :: before) (it :: arg2 :: rest) p
        = tier r sel thr ({ type := .number, value := x } :: before) rest p
    | none =>
      ∃ e, tier r sel thr ({ type := .number, value := a } :: before) (it :: arg2 :: rest) p
        = .error e := by
  have hd : it.type ≠ .dice := by
    rcases hop with h | h
    · exact is_mul_not_dice h
    · exact is_add_not_dice h
  have h1 := do_binary_op_arith r it.type a arg2.value p hop
  rw [tier_apply r sel thr _ it _ p hsel, apply_operator_arith r a before it arg2 rest p h2 hd]
  cases hra : ref_apply it.type a arg2.value with
  | none =>
    rw [hra] at h1
    obtain ⟨e, he⟩ := h1
    exact ⟨e, by rw [he]⟩
  | some x =>
    rw [hra] at h1
    simp only [h1]

/-- The multiplicative loop turns a term without parentheses into the number of its value. -/
theorem mul_tier_term (r : Nat → Nat) {k : Nat} {ts : List token} {v : Option Int}
    (h : Sem k ts v) (hk : k ≤ 1) (hf : flat ts) :
    ∀ (pre rest : List token) (p : Nat),
      Continues (tier r is_mul no_throw pre (ts ++ rest) p) v
        (fun a => tier r is_mul no_throw ({ type := .number, value := a } :: pre) rest p) := by
  induction h with
  | num t ht =>
    intro pre rest p
    simp only [List.singleton_append, Continues]
    rw [tier_skip r is_mul no_throw pre t rest p (by rw [ht]; decide) rfl, ← number_token t ht]
  | grp l c inner v hl hc _ ih =>
    exact absurd hl (hf l (List.mem_cons_self _ _)).1
  | term_of_atom ts v _ ih => exact ih (by omega) hf
  | mul o ts us v w ho hts hus ih1 ih2 =>
    intro pre rest p
    have hf1 := (flat_append.1 hf).1
    have hf2 := (flat_cons.1 (flat_append.1 hf).2).2
    have h1 : ts ++ o :: us ++ rest = ts ++ (o :: (us ++ rest)) := by simp
    rw [h1]
    have i1 := ih1 hk hf1 pre (o :: (us ++ rest)) p
    cases hus with
    | grp l c inner w hl hc _ => exact absurd hl (hf2 l (List.mem_cons_self _ _)).1
    | num u hu =>
      cases v with
      | none => exact i1
      | some a =>
        simp only [Continues, List.singleton_append] at i1
        simp only [opt_apply, List.singleton_append]
        rw [i1]
        exact tier_arith r is_mul no_throw a pre o u rest p ho (Or.inl ho) hu
  | body_of_term ts v _ ih => omega
  | add o ts us v w ho _ _ ih1 ih2 => omega

theorem ref_apply_add_some {op : token_t} (h : is_add op = true) (a b : Int) :
    ∃ x, ref_apply op a b = some x := by
  rcases is_add_cases h with h | h <;> subst h <;> simp [ref_apply]

theorem mul_tier_body_of_term (r : Nat → Nat) {k : Nat} {ts : List token} {v : Option Int}
    (h : Sem k ts v) (hk : k ≤ 1) (hf : flat ts) : MulTierBody r ts v := by
  intro pre rest p
  have h1 := mul_tier_term r h hk hf pre rest p
  cases v with
  | none => exact h1
  | some a => exact ⟨_, AddList.one a, by simpa [Continues] using h1⟩

/-- The multiplicative loop turns a body without parentheses into the numbers of its terms,
separated by the additive operators. -/
theorem mul_tier_body (r : Nat → Nat) {k : Nat} {ts : List token} {v : Option Int}
    (h : Sem k ts v) (hf : flat ts) : MulTierBody r ts v := by
  induction h with
  | num t ht => exact mul_tier_body_of_term r (Sem.num t ht) (by omega) hf
  | grp l c inner v hl hc _ ih => exact absurd hl (hf l (List.mem_cons_self _ _)).1
  | term_of_atom ts v h0 ih =>
    exact mul_tier_body_of_term r (Sem.term_of_atom ts v h0) (by omega) hf
  | mul o ts us v w ho hts hus ih1 ih2 =>
    exact mul_tier_body_of_term r (Sem.mul o ts us v w ho hts hus) (by omega) hf
  | body_of_term ts v h1 ih => exact ih hf
  | add o ts us v w ho hts hus ih1 ih2 =>
    intro pre rest p
    have hf1 := (flat_append.1 hf).1
    have hf2 := (flat_cons.1 (flat_append.1 hf).2).2
    have h1 : ts ++ o :: us ++ rest = ts ++ (o :: (us ++ rest)) := by simp
    rw [h1]
    have i1 := ih1 hf1 pre (o :: (us ++ rest)) p
    cases v with
    | none => exact i1
    | some a =>
      obtain ⟨L, hL, i1⟩ := i1
      rw [i1, tier_skip r is_mul no_throw _ o _ p (is_add_not_mul ho) rfl]
      have i2 := mul_tier_term r hus (by omega) hf2 (o :: (L.reverse ++ pre)) rest p
      cases w with
      | none => exact i2
      | some b =>
        obtain ⟨x, hx⟩ := ref_apply_add_some ho a b
        simp only [Continues] at i2
        simp only [opt_apply, hx]
        refine ⟨L ++ [o, { type := .number, value := b }], AddList.snoc L a b x o hL ho hx, ?_⟩
        rw [i2]
        simp

/-- The additive loop turns numbers separated by additive operators into the number of their
sum. -/
theorem add_tier_list (r : Nat → Nat) {L : List token} {a : Int} (h : AddList L a) :
    ∀ (pre rest : List token) (p : Nat),
      tier r is_add no_throw pre (L ++ rest) p
        = tier r is_add no_throw ({ type := .number, value := a } :: pre) rest p := by
  induction h with
  | one a =>
    intro pre rest p
    simp only [List.singleton_append]
    rw [tier_skip r is_add no_throw pre { type := .number, value := a } rest p rfl rfl]
  | snoc L a b x o _ ho hx ih =>
    intro pre rest p
    have h1 : L ++ [o, { type := .number, value := b }] ++ rest
        = L ++ (o :: { type := .number, value := b } :: rest) := by simp
    rw [h1, ih]
    have h2 := tier_arith r is_add no_throw a pre o { type := .number, value := b } rest p ho
      (Or.inr ho) rfl
    simp only [hx] at h2
    exact h2

/-- The operator loops and the final check on a body without parentheses. -/
theorem after_parens_sem (r : Nat → Nat) {k : Nat} {F : List token} {v : Option Int}
    (h : Sem k F v) (hf : flat F) (p : Nat) : Agrees (after_parens r F p) v p := by
  have h1 : tier r is_dice is_choose [] F p = .ok (F, p) := by
    rw [tier_pass r is_dice is_choose F [] p]
    · simp
    · intro t ht
      rcases sem_types h t ht with h | h | h | h | h
      · rw [h]; decide
      · rw [h]; decide
      · rw [h]; decide
      · rcases is_mul_cases h with h | h | h <;> rw [h] <;> decide
      · rcases is_add_cases h with h | h <;> rw [h] <;> decide
  have h2 := mul_tier_body r h hf [] [] p
  unfold after_parens
  rw [h1]
  simp only [List.append_nil] at h2
  cases v with
  | none =>
    obtain ⟨e, he⟩ := h2
    simp only [he]
    exact ⟨e, rfl⟩
  | some a =>
    obtain ⟨L, hL, h2⟩ := h2
    rw [tier_nil] at h2
    simp only [List.reverse_reverse] at h2
    have h3 := add_tier_list r hL [] [] p
    rw [tier_nil] at h3
    simp only [List.append_nil, List.reverse_cons, List.reverse_nil, List.nil_append] at h3
    simp only [h2, h3, front_value]
    simp [Agrees]

/-! ## The parenthesis loop on a derived sequence -/

theorem find_pair_group {inner : List token} {v : Option Int} (h : Sem 2 inner v)
    (l c : token) (rest : List token) (hl : l.type = .lparen) (hc : c.type = .rparen) :
    find_pair 0 (l :: (inner ++ c :: rest)) = some (l :: inner, rest) := by
  have hl2 : c.type ≠ .lparen := by rw [hc]; decide
  have hl3 : l.type ≠ .rparen := by rw [hl]; decide
  rw [find_pair_cons, if_neg hl3, if_pos hl, find_pair_sem h (0 + 1) (c :: rest) (by omega),
    find_pair_cons, if_pos hc, if_neg hl2]
  simp

theorem opt_apply_none_right (op : token_t) (v : Option Int) : opt_apply op v none = none := by
  cases v <;> rfl

theorem agrees_evaluate_of_parens (r : Nat → Nat) {k : Nat} {ts F : List token}
    {v : Option Int} (hF : Sem k F v) (hf : flat F) (p : Nat)
    (hp : parens r ts p = .ok (F, p)) : Agrees (evaluate_subtok r ts p) v p := by
  rw [evaluate_subtok_eq, hp]
  exact after_parens_sem r hF hf p

theorem paren_pass_binary (r : Nat → Nat) (k : Nat) (o : token) (ts us : List token)
    (v w : Option Int) (ho : o.type ≠ .lparen ∧ o.type ≠ .rparen)
    (hmk : ∀ F1 F2, Sem k F1 v → Sem (k - 1) F2 w → Sem k (F1 ++ o :: F2) (opt_apply o.type v w))
    (h1 : ParenPass r k ts v) (h2 : ParenPass r (k - 1) us w) :
    ParenPass r k (ts ++ o :: us) (opt_apply o.type v w) := by
  have happ : ∀ rest : List token, ts ++ o :: us ++ rest = ts ++ (o :: (us ++ rest)) := by
    intro rest; simp
  rcases h1 with ⟨F1, hS1, hf1, e1⟩ | ⟨hv, e1⟩
  · rcases h2 with ⟨F2, hS2, hf2, e2⟩ | ⟨hw, e2⟩
    · refine Or.inl ⟨F1 ++ o :: F2, hmk F1 F2 hS1 hS2, ?_, ?_⟩
      · exact flat_append.2 ⟨hf1, flat_cons.2 ⟨ho, hf2⟩⟩
      · intro rest p
        rw [happ, e1, parens_skip r o _ p ho.1, e2]
        cases parens r rest p with
        | error e => rfl
        | ok res => simp
    · refine Or.inr ⟨by rw [hw, opt_apply_none_right], ?_⟩
      intro rest p
      obtain ⟨e, he⟩ := e2 rest p
      rw [happ, e1, parens_skip r o _ p ho.1, he]
      exact ⟨e, rfl⟩
  · refine Or.inr ⟨by rw [hv]; rfl, ?_⟩
    intro rest p
    rw [happ]
    exact e1 _ p

theorem paren_pass (r : Nat → Nat) {k : Nat} {ts : List token} {v : Option Int}
    (h : Sem k ts v) : ParenPass r k ts v := by
  induction h with
  | num t ht =>
    refine Or.inl ⟨[t], Sem.num t ht, ?_, ?_⟩
    · intro u hu
      simp only [List.mem_singleton] at hu
      rw [hu, ht]
      exact ⟨by decide, by decide⟩
    · intro rest p
      simp only [List.singleton_append]
      rw [parens_skip r t rest p (by rw [ht]; decide)]
  | grp l c inner v hl hc hin ih =>
    have hgrp : ∀ (rest : List token) (p : Nat),
        parens r (l :: (inner ++ [c]) ++ rest) p =
          match evaluate_subtok r inner p with
          | .error e => .error e
          | .ok (a, p1) =>
            match parens r rest p1 with
            | .error e => .error e
            | .ok (out, p2) => .ok ({ type := .number, value := a } :: out, p2) := by
      intro rest p
      have h1 : l :: (inner ++ [c]) ++ rest = l :: (inner ++ c :: rest) := by simp
      rw [h1]
      exact parens_group r l _ p l inner rest hl (find_pair_group hin l c rest hl hc)
    have hev : ∀ p : Nat, Agrees (evaluate_subtok r inner p) v p := by
      intro p
      rcases ih with ⟨F, hS, hf, e1⟩ | ⟨hv, e1⟩
      · have h2 := e1 [] p
        rw [parens_nil, List.append_nil] at h2
        simp only [List.append_nil] at h2
        exact agrees_evaluate_of_parens r hS hf p h2
      · obtain ⟨e, he⟩ := e1 [] p
        rw [List.append_nil] at he
        rw [hv, evaluate_subtok_eq, he]
        exact ⟨e, rfl⟩
    cases v with
    | none =>
      refine Or.inr ⟨rfl, ?_⟩
      intro rest p
      obtain ⟨e, he⟩ := hev p
      rw [hgrp, he]
      exact ⟨e, rfl⟩
    | some a =>
      refine Or.inl ⟨[{ type := .number, value := a }],
        Sem.num { type := .number, value := a } rfl, ?_, ?_⟩
      · intro u hu
        simp only [List.mem_singleton] at hu
        rw [hu]
        exact ⟨by simp, by simp⟩
      · intro rest p
        have he : evaluate_subtok r inner p = .ok (a, p) := hev p
        rw [hgrp, he]
        rfl
  | term_of_atom ts v _ ih =>
    rcases ih with ⟨F, hS, hf, e1⟩ | ⟨hv, e1⟩
    · exact Or.inl ⟨F, Sem.term_of_atom F v hS, hf, e1⟩
    · exact Or.inr ⟨hv, e1⟩
  | mul o ts us v w ho _ _ ih1 ih2 =>
    refine paren_pass_binary r 1 o ts us v w ?_ ?_ ih1 ih2
    · rcases is_mul_cases ho with h | h | h <;> rw [h] <;> exact ⟨by decide, by decide⟩
    · intro F1 F2 h1 h2
      exact Sem.mul o F1 F2 v w ho h1 h2
  | body_of_term ts v _ ih =>
    rcases ih with ⟨F, hS, hf, e1⟩ | ⟨hv, e1⟩
    · exact Or.inl ⟨F, Sem.body_of_term F v hS, hf, e1⟩
    · exact Or.inr ⟨hv, e1⟩
  | add o ts us v w ho _ _ ih1 ih2 =>
    refine paren_pass_binary r 2 o ts us v w ?_ ?_ ih1 ih2
    · rcases is_add_cases ho with h | h <;> rw [h] <;> exact ⟨by decide, by decide⟩
    · intro F1 F2 h1 h2
      exact Sem.add o F1 F2 v w ho h1 h2

/-- The function `evaluate_subtok` on a derived sequence returns the value of the sequence,
with the generator left as it was, or throws when there is no value. -/
theorem evaluate_subtok_sem (r : Nat → Nat) {k : Nat} {ts : List token} {v : Option Int}
    (h : Sem k ts v) (p : Nat) : Agrees (evaluate_subtok r ts p) v p := by
  rcases paren_pass r h with ⟨F, hS, hf, e1⟩ | ⟨hv, e1⟩
  · have h2 := e1 [] p
    rw [parens_nil, List.append_nil] at h2
    simp only [List.append_nil] at h2
    exact agrees_evaluate_of_parens r hS hf p h2
  · obtain ⟨e, he⟩ := e1 [] p
    rw [List.append_nil] at he
    rw [hv, evaluate_subtok_eq, he]
    exact ⟨e, rfl⟩

/-! ## The reference evaluator on a derived sequence -/

theorem ref_loop_fuel (sel : token_t → Bool) (operand : List token → Option (Int × List token))
    (hop : Shrinks operand) :
    ∀ (n m : Nat) (acc : Int) (ts : List token), ts.length ≤ n → ts.length ≤ m →
      ref_loop sel operand n acc ts = ref_loop sel operand m acc ts := by
  intro n
  induction n with
  | zero =>
    intro m acc ts hn _
    have : ts = [] := List.length_eq_zero.1 (by omega)
    subst this
    cases m <;> simp [ref_loop]
  | succ n ih =>
    intro m acc ts hn hm
    cases ts with
    | nil => cases m <;> simp [ref_loop]
    | cons t rest =>
      cases m with
      | zero => simp at hm
      | succ m =>
        simp only [List.length_cons] at hn hm
        simp only [ref_loop]
        split
        · cases hor : operand rest with
          | none => rfl
          | some res =>
            obtain ⟨b, rest1⟩ := res
            have hl := hop rest b rest1 hor
            simp only []
            cases ref_apply t.type acc b with
            | none => rfl
            | some acc1 => exact ih m acc1 rest1 (by omega) (by omega)
        · rfl

theorem ref_loop_shrinks (sel : token_t → Bool)
    (operand : List token → Option (Int × List token)) (hop : Shrinks operand) :
    ∀ (n : Nat) (acc : Int) (ts : List token) (b : Int) (rest : List token),
      ref_loop sel operand n acc ts = some (b, rest) → rest.length ≤ ts.length := by
  intro n
  induction n with
  | zero =>
    intro acc ts b rest h
    cases ts with
    | nil => simp [ref_loop] at h; rw [h.2]
    | cons t ts => simp [ref_loop] at h
  | succ n ih =>
    intro acc ts b rest h
    cases ts with
    | nil => simp [ref_loop] at h; rw [h.2]
    | cons t ts =>
      simp only [ref_loop] at h
      split at h
      · cases hor : operand ts with
        | none => rw [hor] at h; cases h
        | some res =>
          obtain ⟨b1, rest1⟩ := res
          have hl := hop ts b1 rest1 hor
          rw [hor] at h
          simp only [] at h
          cases hra : ref_apply t.type acc b1 with
          | none => rw [hra] at h; cases h
          | some acc1 =>
            rw [hra] at h
            have := ih acc1 rest1 b rest h
            simp only [List.length_cons]
            omega
      · cases h
        exact le_refl _

theorem ref_atom_shrinks (body : List token → Option (Int × List token)) (hb : Shrinks body) :
    Shrinks (ref_atom body) := by
  intro ts b rest h
  cases ts with
  | nil => simp [ref_atom] at h
  | cons t ts =>
    simp only [ref_atom] at h
    split at h
    · cases h
      simp
    · split at h
      · cases hbody : body ts with
        | none => rw [hbody] at h; cases h
        | some res =>
          obtain ⟨v, rest1⟩ := res
          have hl := hb ts v rest1 hbody
          rw [hbody] at h
          cases rest1 with
          | nil => cases h
          | cons c rest2 =>
            simp only [] at h
            split at h
            · cases h
              simp only [List.length_cons] at hl ⊢
              omega
            · cases h
      · cases h

theorem ref_term_shrinks (body : List token → Option (Int × List token)) (hb : Shrinks body) :
    Shrinks (ref_term body) := by
  intro ts b rest h
  unfold ref_term at h
  cases hat : ref_atom body ts with
  | none => rw [hat] at h; cases h
  | some res =>
    obtain ⟨a, rest1⟩ := res
    rw [hat] at h
    have h1 := ref_atom_shrinks body hb ts a rest1 hat
    have h2 := ref_loop_shrinks is_mul (ref_atom body) (ref_atom_shrinks body hb) _ _ _ _ _ h
    omega

theorem ref_sum_shrinks (body : List token → Option (Int × List token)) (hb : Shrinks body) :
    Shrinks (ref_sum body) := by
  intro ts b rest h
  unfold ref_sum at h
  cases hat : ref_term body ts with
  | none => rw [hat] at h; cases h
  | some res =>
    obtain ⟨a, rest1⟩ := res
    rw [hat] at h
    have h1 := ref_term_shrinks body hb ts a rest1 hat
    have h2 := ref_loop_shrinks is_add (ref_term body) (ref_term_shrinks body hb) _ _ _ _ _ h
    omega

theorem ref_body_shrinks : ∀ n : Nat, Shrinks (ref_body n) := by
  intro n
  induction n with
  | zero => intro ts b rest h; simp [ref_body] at h
  | succ n ih => exact ref_sum_shrinks (ref_body n) ih

theorem ref_rep_stop (sel : token_t → Bool) (operand : List token → Option (Int × List token))
    (acc : Int) (rest : List token) (h : ∀ t ∈ rest.head?, sel t.type = false) :
    ref_rep sel operand acc rest = some (acc, rest) := by
  cases rest with
  | nil => simp [ref_rep, ref_loop]
  | cons t rest =>
    have ht := h t (by simp)
    simp [ref_rep, ref_loop, ht]

theorem ref_rep_step (sel : token_t → Bool) (operand : List token → Option (Int × List token))
    (hop : Shrinks operand) (acc : Int) (t : token) (rest : List token)
    (h : sel t.type = true) :
    ref_rep sel operand acc (t :: rest) =
      match operand rest with
      | none => none
      | some (b, rest1) =>
        match ref_apply t.type acc b with
        | none => none
        | some acc1 => ref_rep sel operand acc1 rest1 := by
  simp only [ref_rep, List.length_cons, ref_loop, h, if_true]
  cases hor : operand rest with
  | none => rfl
  | some res =>
    obtain ⟨b, rest1⟩ := res
    have hl := hop rest b rest1 hor
    simp only []
    cases ref_apply t.type acc b with
    | none => rfl
    | some acc1 => exact ref_loop_fuel sel operand hop _ _ acc1 rest1 hl (le_refl _)

theorem ref_term_of_atom (body : List token → Option (Int × List token)) (ts rest : List token)
    (v : Option Int) (h : ref_atom body (ts ++ rest) = v.map fun a => (a, rest)) :
    ref_term body (ts ++ rest) = v.bind fun a => ref_rep is_mul (ref_atom body) a rest := by
  unfold ref_term
  rw [h]
  cases v <;> rfl

theorem ref_sum_of_term (body : List token → Option (Int × List token)) (ts rest : List token)
    (v : Option Int)
    (h : ref_term body (ts ++ rest) = v.bind fun a => ref_rep is_mul (ref_atom body) a rest)
    (hrest : ∀ t ∈ rest.head?, is_mul t.type = false) :
    ref_sum body (ts ++ rest) = v.bind fun a => ref_rep is_add (ref_term body) a rest := by
  unfold ref_sum
  rw [h]
  cases v with
  | none => rfl
  | some a =>
    simp only [Option.some_bind]
    rw [ref_rep_stop is_mul _ a rest hrest]
    rfl

theorem opt_apply_bind (op : token_t) (v w : Option Int) (k : Int → Option (Int × List token)) :
    (opt_apply op v w).bind k =
      v.bind fun a => w.bind fun b => (ref_apply op a b).bind k := by
  cases v <;> cases w <;> rfl

theorem ref_reads {k : Nat} {ts : List token} {v : Option Int} (h : Sem k ts v) :
    RefReads k ts v := by
  induction h with
  | num t ht =>
    intro n rest _
    have h0 : ref_atom (ref_body n) ([t] ++ rest) = (some t.value).map fun a => (a, rest) := by
      simp [ref_atom, ht]
    have h1 := ref_term_of_atom _ _ _ _ h0
    exact ⟨fun _ => h0, fun _ => h1, fun hr => ref_sum_of_term _ _ _ _ h1 hr⟩
  | grp l c inner v hl hc _ ih =>
    intro n rest hn
    simp only [List.length_cons, List.length_append, List.length_singleton] at hn
    obtain ⟨m, rfl⟩ : ∃ m, n = m + 1 := ⟨n - 1, by omega⟩
    have hc1 : is_mul c.type = false := by rw [hc]; decide
    have hc2 : is_add c.type = false := by rw [hc]; decide
    have hl1 : l.type ≠ .number := by rw [hl]; decide
    have i1 := (ih m (c :: rest) (by omega)).2.2 (by simp [hc1])
    have h0 : ref_atom (ref_body (m + 1)) (l :: (inner ++ [c]) ++ rest)
        = v.map fun a => (a, rest) := by
      have h1 : l :: (inner ++ [c]) ++ rest = l :: (inner ++ c :: rest) := by simp
      rw [h1]
      simp only [ref_atom, if_neg hl1, if_pos hl, ref_body]
      rw [i1]
      cases v with
      | none => rfl
      | some a =>
        simp only [Option.some_bind]
        rw [ref_rep_stop is_add _ a (c :: rest) (by simp [hc2])]
        simp [hc]
    have h1 := ref_term_of_atom _ _ _ _ h0
    exact ⟨fun _ => h0, fun _ => h1, fun hr => ref_sum_of_term _ _ _ _ h1 hr⟩
  | term_of_atom ts v _ ih =>
    intro n rest hn
    have i := ih n rest hn
    exact ⟨fun hk => by omega, fun _ => i.2.1 (by omega), i.2.2⟩
  | mul o ts us v w ho _ _ ih1 ih2 =>
    intro n rest hn
    simp only [List.length_cons, List.length_append] at hn
    have happ : ts ++ o :: us ++ rest = ts ++ (o :: (us ++ rest)) := by simp
    have i1 := (ih1 n (o :: (us ++ rest)) (by omega)).2.1 (le_refl _)
    have i2 := (ih2 n rest (by omega)).1 rfl
    have h1 : ref_term (ref_body n) (ts ++ o :: us ++ rest)
        = (opt_apply o.type v w).bind
            fun a => ref_rep is_mul (ref_atom (ref_body n)) a rest := by
      rw [happ, i1, opt_apply_bind]
      cases v with
      | none => rfl
      | some a =>
        simp only [Option.some_bind]
        rw [ref_rep_step is_mul _ (ref_atom_shrinks _ (ref_body_shrinks n)) a o _ ho, i2]
        cases w with
        | none => rfl
        | some b =>
          simp only [Option.map_some', Option.some_bind]
          cases ref_apply o.type a b <;> rfl
    exact ⟨fun hk => by omega, fun _ => h1, fun hr => ref_sum_of_term _ _ _ _ h1 hr⟩
  | body_of_term ts v _ ih =>
    intro n rest hn
    have i := ih n rest hn
    exact ⟨fun hk => by omega, fun hk => by omega, i.2.2⟩
  | add o ts us v w ho _ _ ih1 ih2 =>
    intro n rest hn
    simp only [List.length_cons, List.length_append] at hn
    have happ : ts ++ o :: us ++ rest = ts ++ (o :: (us ++ rest)) := by simp
    have hom : is_mul o.type = false := is_add_not_mul ho
    have i1 := (ih1 n (o :: (us ++ rest)) (by omega)).2.2 (by simp [hom])
    refine ⟨fun hk => by omega, fun hk => by omega, fun hr => ?_⟩
    have i2 := (ih2 n rest (by omega)).2.1 (le_refl _)
    rw [happ, i1, opt_apply_bind]
    cases v with
    | none => rfl
    | some a =>
      simp only [Option.some_bind]
      rw [ref_rep_step is_add _ (ref_term_shrinks _ (ref_body_shrinks n)) a o _ ho, i2]
      cases w with
      | none => rfl
      | some b =>
        simp only [Option.some_bind]
        rw [ref_rep_stop is_mul _ b rest hr]
        simp only []
        cases ref_apply o.type a b <;> rfl

/-- The reference evaluator returns the value of a derived sequence. -/
theorem ref_eval_sem {k : Nat} {ts : List token} {v : Option Int} (h : Sem k ts v) :
    ref_eval ts = v := by
  have hne := sem_ne_nil h
  obtain ⟨n, hn⟩ : ∃ n, ts.length = n + 1 :=
    ⟨ts.length - 1, by have := List.length_pos.2 hne; omega⟩
  have h1 := (ref_reads h n [] (by omega)).2.2 (by simp)
  rw [List.append_nil] at h1
  unfold ref_eval
  rw [hn]
  simp only [ref_body]
  rw [h1]
  cases v with
  | none => rfl
  | some a => simp [ref_rep, ref_loop]

/-! ## Every validated sequence of pure arithmetic is derived by the grammar -/

theorem no_random_cons {t : token} {ts : List token} (h : no_random (t :: ts)) :
    (t.type ≠ .dice ∧ t.type ≠ .choose ∧ t.type ≠ .x) ∧ no_random ts :=
  ⟨h t (List.mem_cons_self _ _), fun u hu => h u (List.mem_cons_of_mem _ hu)⟩

theorem no_random_append {ts us : List token} (h : no_random (ts ++ us)) :
    no_random ts ∧ no_random us :=
  ⟨fun u hu => h u (List.mem_append_left _ hu), fun u hu => h u (List.mem_append_right _ hu)⟩

theorem scans_nil_true (d : Int) (f : Bool) : ¬ Scans [] d f true := by
  simp [Scans, ops_loop]

theorem scans_nil_false {d : Int} {f : Bool} (h : Scans [] d f false) : d = 0 := by
  simpa [Scans, balanced_loop, ops_loop] using h

theorem scans_value {t : token} {rest : List token} {d : Int} {f : Bool}
    (h : Scans (t :: rest) d f true) : t.type = .number ∨ t.type = .lparen := by
  by_contra hc
  push_neg at hc
  have h2 := h.2
  simp [ops_loop, hc.1, hc.2] at h2

theorem scans_number {t : token} {rest : List token} {d : Int} {f : Bool}
    (h : Scans (t :: rest) d f true) (ht : t.type = .number) : Scans rest d f false := by
  obtain ⟨h1, h2⟩ := h
  constructor
  · simp only [balanced_loop, ht, reduceCtorEq, if_false] at h1
    split at h1
    · cases h1
    · exact h1
  · simpa [ops_loop, ht] using h2

theorem scans_lparen {t : token} {rest : List token} {d : Int} {f : Bool}
    (h : Scans (t :: rest) d f true) (ht : t.type = .lparen) : Scans rest (d + 1) f true := by
  obtain ⟨h1, h2⟩ := h
  constructor
  · simp only [balanced_loop, ht, reduceCtorEq, if_false, if_true] at h1
    split at h1
    · cases h1
    · exact h1
  · simpa [ops_loop, ht] using h2

theorem scans_rparen {t : token} {rest : List token} {d : Int} {f : Bool}
    (h : Scans (t :: rest) d f false) (ht : t.type = .rparen) :
    Scans rest (d - 1) f false ∧ 0 ≤ d - 1 := by
  obtain ⟨h1, h2⟩ := h
  simp only [balanced_loop, ht, reduceCtorEq, if_false, if_true] at h1
  split at h1
  · cases h1
  · rename_i hd
    refine ⟨⟨h1, ?_⟩, by omega⟩
    simpa [ops_loop, ht] using h2

theorem scans_operator {t : token} {rest : List token} {d : Int} {f : Bool}
    (h : Scans (t :: rest) d f false) (ht : is_mul t.type = true ∨ is_add t.type = true) :
    Scans rest d f true := by
  have hty : t.type ≠ .number ∧ t.type ≠ .lparen ∧ t.type ≠ .rparen ∧ t.type ≠ .x := by
    rcases ht with ht | ht
    · rcases is_mul_cases ht with h | h | h <;> rw [h] <;> decide
    · rcases is_add_cases ht with h | h <;> rw [h] <;> decide
  obtain ⟨h1, h2⟩ := h
  constructor
  · simp only [balanced_loop, hty.2.1, hty.2.2.1, hty.2.2.2, if_false] at h1
    split at h1
    · cases h1
    · exact h1
  · simpa [ops_loop, hty.1, hty.2.1, hty.2.2.1] using h2

/-- Behind a value the validator accepts, of the tokens of pure arithmetic, only an operator
or a right parenthesis. -/
theorem scans_after_value {t : token} {rest : List token} {d : Int} {f : Bool}
    (h : Scans (t :: rest) d f false)
    (hr : t.type ≠ .dice ∧ t.type ≠ .choose ∧ t.type ≠ .x)
    (hm : is_mul t.type = false) (ha : is_add t.type = false) : t.type = .rparen := by
  have h2 := h.2
  have h3 : t.type ≠ .number ∧ t.type ≠ .lparen := by
    constructor
    · intro hc
      simp [ops_loop, hc] at h2
    · intro hc
      simp [ops_loop, hc] at h2
  revert hr hm ha h3
  cases t.type <;> simp [is_mul, is_add]

/-- The repetition `(op operand)*` behind a sequence of level `k`. -/
theorem reads_loop (k : Nat) (sel : token_t → Bool) (stop0 : List token → Prop)
    (hsel : ∀ t : token_t, sel t = true → is_mul t = true ∨ is_add t = true)
    (hmk : ∀ (o : token) (a b : List token) (v w : Option Int), sel o.type = true →
      Sem k a v → Sem (k - 1) b w → ∃ x, Sem k (a ++ o :: b) x) :
    ∀ (m : Nat) (rest : List token), rest.length ≤ m →
      (∀ us : List token, us.length < rest.length → Reads (k - 1) stop0 us) →
      ∀ (a : List token) (v : Option Int) (d : Int) (f : Bool), 0 ≤ d → Sem k a v →
        no_random rest → Scans rest d f false → stop0 rest →
        ∃ (a1 rest1 : List token) (v1 : Option Int),
          a ++ rest = a1 ++ rest1 ∧ Sem k a1 v1 ∧ Scans rest1 d f false ∧ stop0 rest1 ∧
            ∀ t ∈ rest1.head?, sel t.type = false := by
  intro m
  induction m with
  | zero =>
    intro rest hm _ a v d f _ ha _ hs hst
    have : rest = [] := List.length_eq_zero.1 (by omega)
    subst this
    exact ⟨a, [], v, rfl, ha, hs, hst, by simp⟩
  | succ m ih =>
    intro rest hm hop a v d f hd ha hnr hs hst
    cases rest with
    | nil => exact ⟨a, [], v, rfl, ha, hs, hst, by simp⟩
    | cons t rest =>
      by_cases ht : sel t.type = true
      · have hs1 := scans_operator hs (hsel _ ht)
        obtain ⟨b, rest2, w, hb, hSb, hs2, hst2⟩ :=
          hop rest (by simp) d f hd (no_random_cons hnr).2 hs1
        obtain ⟨x, hx⟩ := hmk t a b v w ht ha hSb
        have hbne := sem_ne_nil hSb
        have hlen : rest2.length < rest.length := by
          have := List.length_pos.2 hbne
          rw [hb, List.length_append]
          omega
        simp only [List.length_cons] at hm
        obtain ⟨a1, rest1, v1, e1, hS1, hs3, hst3, hh⟩ :=
          ih rest2 (by omega)
            (fun us hus => hop us (by simp only [List.length_cons]; omega))
            (a ++ t :: b) x d f hd hx
            (no_random_append (hb ▸ (no_random_cons hnr).2)).2 hs2 hst2
        refine ⟨a1, rest1, v1, ?_, hS1, hs3, hst3, hh⟩
        rw [← e1, hb]
        simp
      · refine ⟨a, t :: rest, v, rfl, ha, hs, hst, ?_⟩
        intro u hu
        simp only [List.head?_cons, Option.mem_def, Option.some.injEq] at hu
        rw [← hu]
        simpa using ht

theorem reads_atom (ts : List token)
    (hbody : ∀ us : List token, us.length < ts.length → Reads 2 stop_body us) :
    Reads 0 (fun _ => True) ts := by
  intro d f hd hnr hs
  cases ts with
  | nil => exact absurd hs (scans_nil_true d f)
  | cons t rest =>
    rcases scans_value hs with ht | ht
    · exact ⟨[t], rest, some t.value, rfl, Sem.num t ht, scans_number hs ht, trivial⟩
    · obtain ⟨b, rest1, v, hb, hSb, hs1, hst1⟩ :=
        hbody rest (by simp) (d + 1) f (by omega) (no_random_cons hnr).2 (scans_lparen hs ht)
      cases rest1 with
      | nil =>
        have := scans_nil_false hs1
        omega
      | cons c rest2 =>
        have hc1 := hst1 c (by simp)
        have hnr2 := (no_random_append (hb ▸ (no_random_cons hnr).2)).2
        have hc := scans_after_value hs1 (no_random_cons hnr2).1 hc1.1 hc1.2
        have hs2 := (scans_rparen hs1 hc).1
        have hd1 : d + 1 - 1 = d := by omega
        rw [hd1] at hs2
        refine ⟨t :: (b ++ [c]), rest2, v, ?_, Sem.grp t c b v ht hc hSb, hs2, trivial⟩
        rw [hb]
        simp

theorem reads_rest_length {k : Nat} {a rest ts : List token} {v : Option Int}
    (h : ts = a ++ rest) (hS : Sem k a v) : rest.length < ts.length := by
  have := List.length_pos.2 (sem_ne_nil hS)
  rw [h, List.length_append]
  omega

theorem reads_term (ts : List token) (hatom : ∀ us : List token, us.length ≤ ts.length →
    Reads 0 (fun _ => True) us) : Reads 1 stop_term ts := by
  intro d f hd hnr hs
  obtain ⟨a, rest, v, ha, hSa, hs1, _⟩ := hatom ts (le_refl _) d f hd hnr hs
  have hlen := reads_rest_length ha hSa
  obtain ⟨a1, rest1, v1, e1, hS1, hs2, _, hh⟩ :=
    reads_loop 1 is_mul (fun _ => True) (fun t ht => Or.inl ht)
      (fun o a b v w ho h1 h2 => ⟨_, Sem.mul o a b v w ho h1 h2⟩)
      rest.length rest (le_refl _) (fun us hus => hatom us (by omega))
      a v d f hd (Sem.term_of_atom a v hSa) (no_random_append (ha ▸ hnr)).2 hs1 trivial
  exact ⟨a1, rest1, v1, by rw [ha, e1], hS1, hs2, hh⟩

theorem reads_body (ts : List token) (hterm : ∀ us : List token, us.length ≤ ts.length →
    Reads 1 stop_term us) : Reads 2 stop_body ts := by
  intro d f hd hnr hs
  obtain ⟨a, rest, v, ha, hSa, hs1, hst⟩ := hterm ts (le_refl _) d f hd hnr hs
  have hlen := reads_rest_length ha hSa
  obtain ⟨a1, rest1, v1, e1, hS1, hs2, hst1, hh⟩ :=
    reads_loop 2 is_add stop_term (fun t ht => Or.inr ht)
      (fun o a b v w ho h1 h2 => ⟨_, Sem.add o a b v w ho h1 h2⟩)
      rest.length rest (le_refl _) (fun us hus => hterm us (by omega))
      a v d f hd (Sem.body_of_term a v hSa) (no_random_append (ha ▸ hnr)).2 hs1 hst
  exact ⟨a1, rest1, v1, by rw [ha, e1], hS1, hs2, fun t ht => ⟨hst1 t ht, hh t ht⟩⟩

theorem reads_all : ∀ (n : Nat) (ts : List token), ts.length ≤ n →
    Reads 0 (fun _ => True) ts ∧ Reads 1 stop_term ts ∧ Reads 2 stop_body ts := by
  intro n
  induction n with
  | zero =>
    intro ts hn
    have : ts = [] := List.length_eq_zero.1 (by omega)
    subst this
    refine ⟨?_, ?_, ?_⟩ <;> intro d f _ _ hs <;> exact absurd hs (scans_nil_true d f)
  | succ n ih =>
    have hA : ∀ ts : List token, ts.length ≤ n + 1 → Reads 0 (fun _ => True) ts := by
      intro ts hts
      exact reads_atom ts (fun us hus => (ih us (by omega)).2.2)
    have hT : ∀ ts : List token, ts.length ≤ n + 1 → Reads 1 stop_term ts := by
      intro ts hts
      exact reads_term ts (fun us hus => hA us (by omega))
    intro ts hn
    exact ⟨hA ts hn, hT ts hn, reads_body ts (fun us hus => hT us (by omega))⟩

/-- Every sequence of pure arithmetic that passes `valid_ops` is a `body` of the grammar. -/
theorem valid_ops_sem (ts : List token) (hv : valid_ops ts = true) (hnr : no_random ts) :
    ∃ v, Sem 2 ts v := by
  have hs : Scans ts 0 false true := by
    unfold valid_ops at hv
    split at hv
    · cases hv
    · rename_i hb
      exact ⟨by simpa [balanced_parens] using hb, hv⟩
  obtain ⟨a, rest, v, ha, hSa, hs1, hst⟩ :=
    (reads_all ts.length ts (le_refl _)).2.2 0 false (le_refl _) hnr hs
  cases rest with
  | nil =>
    rw [List.append_nil] at ha
    exact ⟨v, ha ▸ hSa⟩
  | cons c rest2 =>
    have hc1 := hst c (by simp)
    have hnr2 := (no_random_append (ha ▸ hnr)).2
    have hc := scans_after_value hs1 (no_random_cons hnr2).1 hc1.1 hc1.2
    have := (scans_rparen hs1 hc).2
    omega

/-! ## Theorems for the claims -/

theorem find_x_none (toks : List token) (h : ∀ t ∈ toks, t.type ≠ .x) : find_x toks = none := by
  induction toks with
  | nil => rfl
  | cons t rest ih =>
    have ht := h t (List.mem_cons_self _ _)
    simp only [find_x, if_neg ht, ih (fun u hu => h u (List.mem_cons_of_mem _ hu))]

theorem find_x_some (before : List token) (m : token) (after : List token)
    (hm : m.type = .x) (h : ∀ t ∈ before, t.type ≠ .x) :
    find_x (before ++ m :: after) = some (before, after) := by
  induction before with
  | nil => simp [find_x, hm]
  | cons t rest ih =>
    have ht := h t (List.mem_cons_self _ _)
    have i := ih (fun u hu => h u (List.mem_cons_of_mem _ hu))
    rw [List.cons_append]
    simp only [find_x, if_neg ht]
    rw [i]

/-- The loop of `operator()` returns `res` exactly when `res` extends `ret` by the values of
`n` evaluations of the body, each from the generator state left by the one before. -/
theorem rep_loop_iff (r : Nat → Nat) (body : List token) :
    ∀ (n : Nat) (ret : List Int) (p : Nat) (res : List Int) (q : Nat),
      rep_loop r body n ret p = .ok (res, q) ↔
        ∃ (vs : List Int) (st : Nat → Nat), res = ret ++ vs ∧ vs.length = n ∧ st 0 = p ∧
          st n = q ∧
          ∀ (i : Nat) (h : i < vs.length),
            evaluate_subtok r body (st i) = .ok (vs[i], st (i + 1)) := by
  intro n
  induction n with
  | zero =>
    intro ret p res q
    simp only [rep_loop, Except.ok.injEq, Prod.mk.injEq]
    constructor
    · rintro ⟨h1, h2⟩
      exact ⟨[], fun _ => p, by simp [h1], rfl, rfl, h2, by simp⟩
    · rintro ⟨vs, st, h1, h2, h3, h4, _⟩
      have : vs = [] := List.length_eq_zero.1 h2
      subst this
      exact ⟨by simp [h1], by rw [← h3, h4]⟩
  | succ n ih =>
    intro ret p res q
    simp only [rep_loop]
    constructor
    · intro h
      cases hev : evaluate_subtok r body p with
      | error e => rw [hev] at h; cases h
      | ok res1 =>
        obtain ⟨v, p1⟩ := res1
        rw [hev] at h
        obtain ⟨vs, st, h1, h2, h3, h4, h5⟩ := (ih (ret ++ [v]) p1 res q).1 h
        refine ⟨v :: vs, fun i => match i with | 0 => p | j + 1 => st j, by simp [h1],
          by simp [h2], rfl, h4, ?_⟩
        intro i hi
        cases i with
        | zero =>
          simp only [List.getElem_cons_zero, zero_add]
          rw [hev, h3]
        | succ j =>
          simp only [List.getElem_cons_succ]
          exact h5 j (by simpa using hi)
    · rintro ⟨vs, st, h1, h2, h3, h4, h5⟩
      cases vs with
      | nil => simp at h2
      | cons v vs =>
        have h0 := h5 0 (by simp)
        simp only [List.getElem_cons_zero, zero_add] at h0
        rw [h3] at h0
        rw [h0]
        refine (ih (ret ++ [v]) (st 1) res q).2
          ⟨vs, fun i => st (i + 1), by simp [h1], by simpa using h2, by simp, h4, ?_⟩
        intro i hi
        have := h5 (i + 1) (by simpa using hi)
        simpa using this

/-- C2 fails on the input `2147483648`: `tokenize` hands the digits to `std::stoi`, which throws
`std::out_of_range`; that exception is a `std::logic_error`, not a `std::runtime_error`, so the
`catch` of `main` does not handle it and the run ends.  The six malformed inputs named by the
claim do fail with a `std::runtime_error`. -/
theorem C2_number_out_of_range_escapes (r : Nat → Nat) (p : Nat) :
    run r "2147483648".toList p = .error .stoi_out_of_range ∧
    Err.recoverable .stoi_out_of_range = false ∧
    run r "2147483647".toList p = .ok ([2147483647], p) ∧
    (∃ e, run r "1+".toList p = .error e ∧ e.recoverable = true) ∧
    (∃ e, run r "(1+2".toList p = .error e ∧ e.recoverable = true) ∧
    (∃ e, run r "1d0".toList p = .error e ∧ e.recoverable = true) ∧
    (∃ e, run r "5d6:6".toList p = .error e ∧ e.recoverable = true) ∧
    (∃ e, run r "1/0".toList p = .error e ∧ e.recoverable = true) ∧
    (∃ e, run r "1%0".toList p = .error e ∧ e.recoverable = true) :=
  ⟨rfl, rfl, rfl, ⟨.bad_expression_string, rfl, rfl⟩, ⟨.bad_expression_string, rfl, rfl⟩,
    ⟨.dice_number_at_least_1, rfl, rfl⟩, ⟨.cannot_choose_more, rfl, rfl⟩,
    ⟨.cannot_divide_by_zero, rfl, rfl⟩, ⟨.cannot_mod_by_zero, rfl, rfl⟩⟩

/-- C3: `operator()` returns a result list exactly in these cases.  Without a repeat-marker
the list is the one value of `evaluate_subtok` on the whole sequence.  With a repeat-marker the
tokens before the first marker are evaluated once to `rep`, the list has `max rep 0` elements,
and element `i` is the value of an evaluation of the tokens behind the marker, each evaluation
starting from the generator state `st i` left by the one before; when the body evaluates to
the same value `v` from every state the list is `rep` copies of `v`.  The input `3x1d1` gives
`[1, 1, 1]`. -/
theorem C3_result_list (r : Nat → Nat) (toks : List token) (p : Nat) :
    ((∀ t ∈ toks, t.type ≠ .x) → ∀ (res : List Int) (q : Nat),
      call r toks p = .ok (res, q) ↔
        ∃ v, evaluate_subtok r toks p = .ok (v, q) ∧ res = [v]) ∧
    (∀ (before : List token) (m : token) (after : List token),
      toks = before ++ m :: after → m.type = .x → (∀ t ∈ before, t.type ≠ .x) →
      (∀ (res : List Int) (q : Nat),
        call r toks p = .ok (res, q) ↔
          ∃ (rep : Int) (st : Nat → Nat),
            evaluate_subtok r before p = .ok (rep, st 0) ∧
            (res.length : Int) = max rep 0 ∧ st res.length = q ∧
            ∀ (i : Nat) (h : i < res.length),
              evaluate_subtok r after (st i) = .ok (res[i], st (i + 1))) ∧
      (∀ (rep v : Int) (p1 : Nat), evaluate_subtok r before p = .ok (rep, p1) →
        (∀ q, evaluate_subtok r after q = .ok (v, q)) →
        call r toks p = .ok (List.replicate rep.toNat v, p1)) ∧
      (valid_ops after = true → no_random after →
        ∀ (rep v : Int) (p1 : Nat), evaluate_subtok r before p = .ok (rep, p1) →
          ref_eval after = some v →
          call r toks p = .ok (List.replicate rep.toNat v, p1))) ∧
    run r "3x1d1".toList p = .ok ([1, 1, 1], p + 3) := by
  refine ⟨?_, ?_, ?_⟩
  · intro hx res q
    simp only [call, find_x_none toks hx]
    have h1 : (1 : Int).toNat = 1 := rfl
    rw [h1]
    simp only [rep_loop]
    cases evaluate_subtok r toks p with
    | error e => simp
    | ok res1 =>
      obtain ⟨v, p1⟩ := res1
      simp only [List.nil_append, Except.ok.injEq, Prod.mk.injEq]
      constructor
      · rintro ⟨h2, h3⟩
        exact ⟨v, ⟨rfl, h3⟩, h2.symm⟩
      · rintro ⟨w, ⟨h2, h3⟩, h4⟩
        subst h2
        exact ⟨h4.symm, h3⟩
  · intro before m after htoks hm hbefore
    have hfx : find_x toks = some (before, after) := by
      rw [htoks]
      exact find_x_some before m after hm hbefore
    have hiff : ∀ (res : List Int) (q : Nat),
        call r toks p = .ok (res, q) ↔
          ∃ (rep : Int) (st : Nat → Nat),
            evaluate_subtok r before p = .ok (rep, st 0) ∧
            (res.length : Int) = max rep 0 ∧ st res.length = q ∧
            ∀ (i : Nat) (h : i < res.length),
              evaluate_subtok r after (st i) = .ok (res[i], st (i + 1)) := by
      intro res q
      unfold call
      rw [hfx]
      dsimp only
      constructor
      · intro h
        cases hev : evaluate_subtok r before p with
        | error e => rw [hev] at h; cases h
        | ok res1 =>
          obtain ⟨rep, p1⟩ := res1
          rw [hev] at h
          obtain ⟨vs, st, h1, h2, h3, h4, h5⟩ := (rep_loop_iff r after _ _ _ _ _).1 h
          simp only [List.nil_append] at h1
          subst h1
          refine ⟨rep, st, by rw [h3], ?_, by rw [h2]; exact h4, h5⟩
          rw [h2]
          omega
      · rintro ⟨rep, st, h1, h2, h3, h4⟩
        rw [h1]
        exact (rep_loop_iff r after _ _ _ _ _).2
          ⟨res, st, by simp, by omega, rfl, by
            have : rep.toNat = res.length := by omega
            rw [this]; exact h3, h4⟩
    have hrepl : ∀ (rep v : Int) (p1 : Nat), evaluate_subtok r before p = .ok (rep, p1) →
        (∀ q, evaluate_subtok r after q = .ok (v, q)) →
        call r toks p = .ok (List.replicate rep.toNat v, p1) := by
      intro rep v p1 hrep hbody
      refine (hiff _ _).2 ⟨rep, fun _ => p1, hrep, by simp, rfl, ?_⟩
      intro i hi
      simp only [List.getElem_replicate]
      exact hbody p1
    refine ⟨hiff, hrepl, ?_⟩
    intro hv hnr rep v p1 hrep href
    obtain ⟨w, hS⟩ := valid_ops_sem after hv hnr
    have hw : w = some v := by rw [← ref_eval_sem hS, href]
    subst hw
    exact hrepl rep v p1 hrep (fun q => evaluate_subtok_sem r hS q)
  · have h : run r "3x1d1".toList p
        = .ok ([wrap (0 + (1 + ((r p % 1 : Nat) : Int))),
            wrap (0 + (1 + ((r (p + 1) % 1 : Nat) : Int))),
            wrap (0 + (1 + ((r (p + 1 + 1) % 1 : Nat) : Int)))], p + 1 + 1 + 1) := rfl
    rw [h]
    simp only [Nat.mod_one]
    rfl

theorem C3_result_list_witness :
    (∃ v, evaluate_subtok (fun i => i) [⟨.number, 7⟩] 0 = .ok (v, 0) ∧ [(7 : Int)] = [v]) ∧
    call (fun i => i) [⟨.number, 3⟩, ⟨.x, 0⟩, ⟨.number, 7⟩] 0 = .ok ([7, 7, 7], 0) ∧
    call (fun i => i) [⟨.number, 0⟩, ⟨.x, 0⟩, ⟨.number, 7⟩] 0 = .ok ([], 0) :=
  ⟨((C3_result_list (fun i => i) [⟨.number, 7⟩] 0).1 (by decide) [7] 0).1 rfl,
    ((C3_result_list (fun i => i) [⟨.number, 3⟩, ⟨.x, 0⟩, ⟨.number, 7⟩] 0).2.1
      [⟨.number, 3⟩] ⟨.x, 0⟩ [⟨.number, 7⟩] rfl rfl (by decide)).2.1 3 7 0 rfl (fun _ => rfl),
    ((C3_result_list (fun i => i) [⟨.number, 0⟩, ⟨.x, 0⟩, ⟨.number, 7⟩] 0).2.1
      [⟨.number, 0⟩] ⟨.x, 0⟩ [⟨.number, 7⟩] rfl rfl (by decide)).2.2 (by decide) (by decide)
      0 7 0 rfl (by decide)⟩

/-- Every list of die values within `[1, sides]` is drawn by some generator. -/
theorem draws_surjective (sides : Int) (p : Nat) (ds : List Int)
    (h : ∀ d ∈ ds, 1 ≤ d ∧ d ≤ sides) : ∃ r : Nat → Nat, draws r sides p ds.length = ds := by
  refine ⟨fun i => (ds.getD (i - p) 1 - 1).toNat, ?_⟩
  apply List.ext_getElem
  · simp [draws]
  · intro i h1 h2
    have hd := h ds[i] (List.getElem_mem h2)
    simp only [draws, List.getElem_map, List.getElem_range, die, Nat.add_sub_cancel_left]
    rw [List.getD_eq_getElem _ _ h2]
    have h3 : (ds[i] - 1).toNat < sides.toNat := by omega
    rw [Nat.mod_eq_of_lt h3]
    omega

/-- C4 fails as stated: for the count 2 and 2147483647 sides, with both draws at 2147483647,
the dice operation returns `-2`, which is below the count: the sum 4294967294 of the draws is
no `int`. -/
theorem C4_counterexample :
    do_binary_op (fun _ => 2147483646) .dice 2 2147483647 0 = .ok (-2, 2) ∧
    draws (fun _ => 2147483646) 2147483647 0 2 = [2147483647, 2147483647] ∧
    ¬ ∀ (r : Nat → Nat) (N S : Int) (p : Nat), 1 ≤ N → 1 ≤ S →
      ∃ v : Int, do_binary_op r .dice N S p = .ok (v, p + N.toNat) ∧ N ≤ v ∧ v ≤ N * S := by
  have h1 : do_binary_op (fun _ => 2147483646) .dice 2 2147483647 0 = .ok (-2, 2) := rfl
  refine ⟨h1, by decide, ?_⟩
  intro h
  obtain ⟨v, hv, h2, _⟩ := h (fun _ => 2147483646) 2 2147483647 0 (by decide) (by decide)
  rw [h1] at hv
  have h3 := Except.ok.inj hv
  simp only [Prod.mk.injEq] at h3
  omega

/-- C4, amended: for a count `N ≥ 1` and `S ≥ 1` sides with `N * S` within the range of `int`,
the dice operation of `do_binary_op` returns the sum `v` of the `N` drawn values, with
`N ≤ v ≤ N * S`, whatever the generator does; without the bound on `N * S` it returns that sum
reduced to 32 bits; every sequence of values within `[1, S]` is the sequence drawn by some
generator; and the input `1d1` evaluates to `1` on every run. -/
theorem C4_dice_sum_range (r : Nat → Nat) (p : Nat) :
    (∀ N S : Int, 1 ≤ N → 1 ≤ S → N * S ≤ INT_MAX →
      ∃ v : Int, do_binary_op r .dice N S p = .ok (v, p + N.toNat) ∧
        v = (draws r S p N.toNat).sum ∧ N ≤ v ∧ v ≤ N * S) ∧
    (∀ N S : Int, 1 ≤ S →
      do_binary_op r .dice N S p = .ok (wrap (draws r S p N.toNat).sum, p + N.toNat)) ∧
    (∀ (S : Int) (ds : List Int), (∀ d ∈ ds, 1 ≤ d ∧ d ≤ S) →
      ∃ r1 : Nat → Nat, draws r1 S p ds.length = ds) ∧
    run r "1d1".toList p = .ok ([1], p + 1) := by
  have hw : ∀ N S : Int, 1 ≤ S →
      do_binary_op r .dice N S p = .ok (wrap (draws r S p N.toNat).sum, p + N.toNat) := by
    intro N S hS
    simp only [do_binary_op]
    rw [if_neg (by omega), sum_rolls_eq]
  refine ⟨?_, hw, ?_, ?_⟩
  · intro N S hN hS hNS
    have h := draws_sum_bounds r S hS N.toNat p
    have h1 : ((N.toNat : Nat) : Int) = N := Int.toNat_of_nonneg (by omega)
    rw [h1] at h
    refine ⟨(draws r S p N.toNat).sum, ?_, rfl, h⟩
    rw [hw N S hS, wrap_of_range _ (by unfold INT_MIN; omega) (by omega)]
  · intro S ds h
    exact draws_surjective S p ds h
  · have h : run r "1d1".toList p
        = .ok ([wrap (0 + (1 + ((r p % 1 : Nat) : Int)))], p + 1) := rfl
    rw [h, Nat.mod_one]
    rfl

theorem C4_dice_sum_range_witness :
    (2 : Int) * 6 ≤ INT_MAX ∧
    ∃ v : Int, do_binary_op (fun i => i) .dice 2 6 0 = .ok (v, 0 + (2 : Int).toNat) ∧
        v = (draws (fun i => i) 6 0 (2 : Int).toNat).sum ∧ 2 ≤ v ∧ v ≤ 2 * 6 :=
  ⟨by decide, (C4_dice_sum_range (fun i => i) 0).1 2 6 (by decide) (by decide) (by decide)⟩

/-- C6: choosing all dice equals summing all dice: with `sides ≥ 1`, `roll_choose` with a keep
count equal to the roll count returns, from the same generator state, the result of the dice
operation of `do_binary_op`, the sum of all drawn values as an `int`; and `4d6:4` evaluates to
the value of `4d6` on the same rolls. -/
theorem C6_choose_all_eq_sum (r : Nat → Nat) (p : Nat) :
    (∀ count sides : Int, 1 ≤ sides →
      roll_choose r count sides count p = do_binary_op r .dice count sides p ∧
      roll_choose r count sides count p
        = .ok (wrap (draws r sides p count.toNat).sum, p + count.toNat)) ∧
    run r "4d6:4".toList p = run r "4d6".toList p := by
  have main : ∀ count sides : Int, 1 ≤ sides →
      roll_choose r count sides count p = do_binary_op r .dice count sides p ∧
      roll_choose r count sides count p
        = .ok (wrap (draws r sides p count.toNat).sum, p + count.toNat) := by
    intro count sides hs
    obtain ⟨sorted, h1, _, h3⟩ := roll_choose_ok r count sides count p hs (le_refl _)
    have hlen : sorted.length = count.toNat := by
      rw [h1.length_eq, draws_length]
    have h4 : (sorted.take count.toNat).sum = (draws r sides p count.toNat).sum := by
      rw [List.take_of_length_le (by omega)]
      exact h1.sum_eq
    rw [h3, h4]
    refine ⟨?_, rfl⟩
    simp only [do_binary_op]
    rw [if_neg (by omega), sum_rolls_eq]
  refine ⟨main, ?_⟩
  have h1 : run r "4d6:4".toList p
      = (match roll_choose r 4 6 4 p with
        | .error e => .error e
        | .ok (v, p1) => .ok ([v], p1)) := rfl
  have h2 : run r "4d6".toList p
      = (match do_binary_op r .dice 4 6 p with
        | .error e => .error e
        | .ok (v, p1) => .ok ([v], p1)) := rfl
  rw [h1, h2, (main 4 6 (by decide)).1]

theorem C6_choose_all_eq_sum_witness :
    roll_choose (fun i => i) 4 6 4 0 = do_binary_op (fun i => i) .dice 4 6 0 ∧
    roll_choose (fun i => i) 4 6 4 0
      = .ok (wrap (draws (fun i => i) 6 0 (4 : Int).toNat).sum, 0 + (4 : Int).toNat) :=
  (C6_choose_all_eq_sum (fun i => i) 0).1 4 6 (by decide)

/-- C8: `roll_choose` throws exactly when `sides < 1` or `keep > count`, and what it throws is
a `std::runtime_error`; for every other triple of arguments it returns a value.  The input
`5d6:6` fails with a recoverable error. -/
theorem C8_roll_choose_fails_iff (r : Nat → Nat) (count sides keep : Int) (p : Nat) :
    ((∃ e, roll_choose r count sides keep p = .error e) ↔ (sides < 1 ∨ keep > count)) ∧
    ((∃ v, roll_choose r count sides keep p = .ok v) ↔ ¬ (sides < 1 ∨ keep > count)) ∧
    (∀ e, roll_choose r count sides keep p = .error e → e.recoverable = true) ∧
    (∃ e, run r "5d6:6".toList p = .error e ∧ e.recoverable = true) := by
  by_cases hs : sides < 1
  · have h : roll_choose r count sides keep p = .error .dice_number_at_least_1 := by
      simp [roll_choose, hs]
    refine ⟨?_, ?_, ?_, ⟨.cannot_choose_more, rfl, rfl⟩⟩
    · simp [h, hs]
    · simp [h, hs]
    · intro e he
      rw [h] at he
      cases he
      rfl
  · by_cases hk : keep > count
    · have h : roll_choose r count sides keep p = .error .cannot_choose_more := by
        simp [roll_choose, hs, hk]
      refine ⟨?_, ?_, ?_, ⟨.cannot_choose_more, rfl, rfl⟩⟩
      · simp [h, hk]
      · simp [h, hk]
      · intro e he
        rw [h] at he
        cases he
        rfl
    · obtain ⟨sorted, _, _, h⟩ := roll_choose_ok r count sides keep p (by omega) (by omega)
      refine ⟨?_, ?_, ?_, ⟨.cannot_choose_more, rfl, rfl⟩⟩
      · simp [h, hs, hk]
      · simp [h, hs, hk]
      · intro e he
        rw [h] at he
        cases he

theorem C8_roll_choose_fails_iff_witness :
    ∀ e, roll_choose (fun i => i) 5 6 6 0 = .error e → e.recoverable = true :=
  (C8_roll_choose_fails_iff (fun i => i) 5 6 6 0).2.2.1

/-- C9 fails on the input `(0-2147483647-1)/(0-1)`, and so with `%`: the divisor `-1` is not
zero, and the division of `INT_MIN` by `-1` raises SIGFPE, which is no `std::runtime_error`
and ends the process.  Apart from that pair of operands the claim holds: divide and modulo
throw exactly when `b = 0`, what they throw is a `std::runtime_error`, and otherwise they
return the truncated quotient and its remainder; multiply, add and subtract never fail and
return the result reduced to 32 bits.  The inputs `1/0` and `1%0` fail with a recoverable
error. -/
theorem C9_division_trap (r : Nat → Nat) (a b : Int) (p : Nat) :
    run r "(0-2147483647-1)/(0-1)".toList p = .error .division_trap ∧
    run r "(0-2147483647-1)%(0-1)".toList p = .error .division_trap ∧
    do_binary_op r .div INT_MIN (-1) p = .error .division_trap ∧
    do_binary_op r .mod INT_MIN (-1) p = .error .division_trap ∧
    Err.recoverable .division_trap = false ∧
    ((∃ e, do_binary_op r .div a b p = .error e) ↔ (b = 0 ∨ (a = INT_MIN ∧ b = -1))) ∧
    ((∃ e, do_binary_op r .mod a b p = .error e) ↔ (b = 0 ∨ (a = INT_MIN ∧ b = -1))) ∧
    (∀ e, do_binary_op r .div a b p = .error e ∨ do_binary_op r .mod a b p = .error e →
      (e.recoverable = true ↔ b = 0)) ∧
    (b ≠ 0 → ¬ (a = INT_MIN ∧ b = -1) →
      do_binary_op r .div a b p = .ok (Int.tdiv a b, p) ∧
      do_binary_op r .mod a b p = .ok (Int.tmod a b, p)) ∧
    do_binary_op r .mul a b p = .ok (wrap (a * b), p) ∧
    do_binary_op r .add a b p = .ok (wrap (a + b), p) ∧
    do_binary_op r .sub a b p = .ok (wrap (a - b), p) ∧
    (∃ e, run r "1/0".toList p = .error e ∧ e.recoverable = true) ∧
    (∃ e, run r "1%0".toList p = .error e ∧ e.recoverable = true) := by
  refine ⟨rfl, rfl, rfl, rfl, rfl, ?_, ?_, ?_, ?_, rfl, rfl, rfl,
    ⟨.cannot_divide_by_zero, rfl, rfl⟩, ⟨.cannot_mod_by_zero, rfl, rfl⟩⟩
  · by_cases hb : b = 0
    · simp [do_binary_op, hb]
    · by_cases ht : a = INT_MIN ∧ b = -1 <;> simp [do_binary_op, hb, ht]
  · by_cases hb : b = 0
    · simp [do_binary_op, hb]
    · by_cases ht : a = INT_MIN ∧ b = -1 <;> simp [do_binary_op, hb, ht]
  · intro e he
    by_cases hb : b = 0
    · simp only [do_binary_op, hb, if_true] at he
      rcases he with he | he
      · rw [← Except.error.inj he]; simp [Err.recoverable, hb]
      · rw [← Except.error.inj he]; simp [Err.recoverable, hb]
    · by_cases ht : a = INT_MIN ∧ b = -1
      · simp only [do_binary_op, hb, ht, and_self, if_true, if_false] at he
        rcases he with he | he
        · rw [← Except.error.inj he]; simp [Err.recoverable, hb]
        · rw [← Except.error.inj he]; simp [Err.recoverable, hb]
      · simp only [do_binary_op, hb, ht, if_false] at he
        rcases he with he | he <;> cases he
  · intro hb ht
    simp [do_binary_op, hb, ht]

/-- C10 fails as stated: the input `0d6`, whose dice count is below one, returns the result
`0` and no error. -/
theorem C10_counterexample :
    run (fun _ => 0) "0d6".toList 0 = .ok ([0], 0) ∧
    ¬ ∃ e, run (fun _ => 0) "0d6".toList 0 = .error e ∧ e.recoverable = true := by
  have h : run (fun _ => 0) "0d6".toList 0 = .ok ([0], 0) := rfl
  refine ⟨h, ?_⟩
  rintro ⟨e, he, _⟩
  rw [h] at he
  cases he

/-- C10, amended: a die with fewer than one side makes the dice operation and `roll_choose`
throw the `std::runtime_error` "dice number must be at least 1", whatever the count; a count
below one is no error: with at least one side the dice operation then returns `0`. -/
theorem C10_sides_below_one_fails (r : Nat → Nat) (count sides keep : Int) (p : Nat) :
    (sides < 1 →
      do_binary_op r .dice count sides p = .error .dice_number_at_least_1 ∧
      roll_choose r count sides keep p = .error .dice_number_at_least_1 ∧
      Err.recoverable .dice_number_at_least_1 = true) ∧
    (count < 1 → 1 ≤ sides → do_binary_op r .dice count sides p = .ok (0, p)) := by
  constructor
  · intro hs
    simp [do_binary_op, roll_choose, hs, Err.recoverable]
  · intro hc hs
    have h : count.toNat = 0 := by omega
    simp only [do_binary_op]
    rw [if_neg (by omega), h]
    rfl

theorem C10_sides_below_one_fails_witness :
    (do_binary_op (fun i => i) .dice 1 0 0 = .error .dice_number_at_least_1 ∧
      roll_choose (fun i => i) 1 0 1 0 = .error .dice_number_at_least_1 ∧
      Err.recoverable .dice_number_at_least_1 = true) ∧
    do_binary_op (fun i => i) .dice (-1) 6 0 = .ok (0, 0) ∧
    do_binary_op (fun i => i) .dice 0 6 0 = .ok (0, 0) :=
  ⟨(C10_sides_below_one_fails (fun i => i) 1 0 1 0).1 (by decide),
    (C10_sides_below_one_fails (fun i => i) (-1) 6 1 0).2 (by decide) (by decide),
    (C10_sides_below_one_fails (fun i => i) 0 6 0 0).2 (by decide) (by decide)⟩

/-! ## The parenthesis and marker pass -/

theorem nesting_depth_nil : nesting_depth [] = 0 := rfl

theorem nesting_depth_cons (t : token) (ts : List token) :
    nesting_depth (t :: ts) = depth_step t + nesting_depth ts := by
  simp [nesting_depth]

theorem nesting_depth_append (ts us : List token) :
    nesting_depth (ts ++ us) = nesting_depth ts + nesting_depth us := by
  simp [nesting_depth]

theorem count_x_cons (t : token) (ts : List token) :
    count_x (t :: ts) = (if t.type = .x then 1 else 0) + count_x ts := by
  unfold count_x
  rw [List.countP_cons]
  by_cases h : t.type = .x
  · simp [h]
    omega
  · simp [h]

theorem balanced_loop_cons (t : token) (rest : List token) (d : Int) (f : Bool) :
    balanced_loop (t :: rest) d f =
      if d + depth_step t < 0 then false
      else if t.type = .x then
        if !f && decide (d + depth_step t = 0) then balanced_loop rest (d + depth_step t) true
        else false
      else balanced_loop rest (d + depth_step t) f := by
  have h : (if t.type = .rparen then (if t.type = .lparen then d + 1 else d) - 1
      else (if t.type = .lparen then d + 1 else d)) = d + depth_step t := by
    unfold depth_step
    by_cases h1 : t.type = .lparen
    · simp [h1]
    · by_cases h2 : t.type = .rparen
      · simp [h2]; omega
      · simp [h1, h2]
  simp only [balanced_loop, h]

theorem balanced_from_cons (t : token) (rest : List token) (d : Int) (f : Bool) (hd : 0 ≤ d) :
    BalancedFrom (t :: rest) d f ↔
      (0 ≤ d + depth_step t ∧ (t.type = .x → f = false ∧ d = 0) ∧
        BalancedFrom rest (d + depth_step t) (f || decide (t.type = .x))) := by
  have hstep : t.type = .x → depth_step t = 0 := by
    intro h
    simp [depth_step, h]
  constructor
  · rintro ⟨h1, h2, h3, h4⟩
    have h0 : 0 ≤ d + depth_step t := by
      have := h1 [t] rest rfl
      simpa [nesting_depth_cons, nesting_depth_nil] using this
    have hx : t.type = .x → f = false ∧ d = 0 := by
      intro hx
      have hd0 := h4 [] t rest rfl hx
      rw [nesting_depth_nil] at hd0
      rw [count_x_cons, if_pos hx] at h3
      refine ⟨?_, by omega⟩
      cases f
      · rfl
      · simp at h3
    refine ⟨h0, hx, ?_, ?_, ?_, ?_⟩
    · intro pre post hpre
      have := h1 (t :: pre) post (by rw [hpre]; rfl)
      rw [nesting_depth_cons] at this
      omega
    · rw [nesting_depth_cons] at h2
      omega
    · rw [count_x_cons] at h3
      by_cases hx1 : t.type = .x
      · have := (hx hx1).1
        subst this
        simp [hx1] at h3 ⊢
        omega
      · simp [hx1] at h3 ⊢
        exact h3
    · intro pre m post hpre hm
      have := h4 (t :: pre) m post (by rw [hpre]; rfl) hm
      rw [nesting_depth_cons] at this
      omega
  · rintro ⟨h0, hx, h1, h2, h3, h4⟩
    refine ⟨?_, ?_, ?_, ?_⟩
    · intro pre post hpre
      cases pre with
      | nil => rw [nesting_depth_nil]; omega
      | cons u pre =>
        simp only [List.cons_append, List.cons.injEq] at hpre
        obtain ⟨rfl, hrest⟩ := hpre
        have := h1 pre post hrest
        rw [nesting_depth_cons]
        omega
    · rw [nesting_depth_cons]
      omega
    · rw [count_x_cons]
      by_cases hx1 : t.type = .x
      · have := (hx hx1).1
        subst this
        simp [hx1] at h3 ⊢
        omega
      · simp [hx1] at h3 ⊢
        exact h3
    · intro pre m post hpre hm
      cases pre with
      | nil =>
        simp only [List.nil_append, List.cons.injEq] at hpre
        obtain ⟨rfl, _⟩ := hpre
        rw [nesting_depth_nil]
        have := (hx hm).2
        omega
      | cons u pre =>
        simp only [List.cons_append, List.cons.injEq] at hpre
        obtain ⟨rfl, hrest⟩ := hpre
        have := h4 pre m post hrest hm
        rw [nesting_depth_cons]
        omega

theorem balanced_loop_iff : ∀ (toks : List token) (d : Int) (f : Bool), 0 ≤ d →
    (balanced_loop toks d f = true ↔ BalancedFrom toks d f) := by
  intro toks
  induction toks with
  | nil =>
    intro d f hd
    simp only [balanced_loop, decide_eq_true_eq, BalancedFrom, nesting_depth_nil, add_zero]
    constructor
    · intro h0
      subst h0
      refine ⟨?_, rfl, ?_, ?_⟩
      · intro pre post hpre
        have : pre = [] := by
          cases pre with
          | nil => rfl
          | cons a l => simp at hpre
        rw [this, nesting_depth_nil]
        simp
      · cases f <;> simp [count_x]
      · intro pre m post hpre
        simp at hpre
    · rintro ⟨_, h, _, _⟩
      exact h
  | cons t rest ih =>
    intro d f hd
    rw [balanced_loop_cons, balanced_from_cons t rest d f hd]
    by_cases h0 : d + depth_step t < 0
    · simp only [h0, if_true]
      constructor
      · intro h; cases h
      · rintro ⟨h1, _⟩; omega
    · rw [if_neg h0]
      have h0' : 0 ≤ d + depth_step t := by omega
      by_cases hx : t.type = .x
      · have hs : depth_step t = 0 := by simp [depth_step, hx]
        rw [if_pos hx]
        by_cases hc : (!f && decide (d + depth_step t = 0)) = true
        · rw [if_pos hc, ih _ _ h0']
          simp only [Bool.and_eq_true, Bool.not_eq_true', decide_eq_true_eq] at hc
          obtain ⟨hf, hd0⟩ := hc
          simp only [hx, decide_True, Bool.or_true]
          constructor
          · intro h
            exact ⟨h0', fun _ => ⟨hf, by omega⟩, h⟩
          · rintro ⟨_, _, h⟩
            exact h
        · rw [if_neg hc]
          simp only [Bool.and_eq_true, Bool.not_eq_true', decide_eq_true_eq, not_and] at hc
          constructor
          · intro h; cases h
          · rintro ⟨_, h, _⟩
            have := h hx
            exact absurd (by omega) (hc this.1)
      · rw [if_neg hx, ih _ _ h0']
        simp only [hx, decide_False, Bool.or_false]
        constructor
        · intro h
          exact ⟨h0', fun h => False.elim h, h⟩
        · rintro ⟨_, _, h⟩
          exact h

/-- C11: `balanced_parens` returns true exactly when the nesting depth is never negative
behind a prefix of the sequence, the depth behind the whole sequence is 0, there is at most one
repeat-marker token, and the nesting depth in front of a repeat-marker is 0; every sequence
accepted by `valid_ops` has these properties, and the input `(1+2` is rejected. -/
theorem C11_balanced_parens_iff (toks : List token) :
    (balanced_parens toks = true ↔
      ((∀ pre post : List token, toks = pre ++ post → 0 ≤ nesting_depth pre) ∧
        nesting_depth toks = 0 ∧
        count_x toks ≤ 1 ∧
        ∀ (pre : List token) (m : token) (post : List token),
          toks = pre ++ m :: post → m.type = .x → nesting_depth pre = 0)) ∧
    (valid_ops toks = true →
      ((∀ pre post : List token, toks = pre ++ post → 0 ≤ nesting_depth pre) ∧
        nesting_depth toks = 0 ∧
        count_x toks ≤ 1 ∧
        ∀ (pre : List token) (m : token) (post : List token),
          toks = pre ++ m :: post → m.type = .x → nesting_depth pre = 0)) ∧
    tokenize "(1+2".toList
      = .ok [⟨.lparen, 0⟩, ⟨.number, 1⟩, ⟨.add, 0⟩, ⟨.number, 2⟩] ∧
    balanced_parens [⟨.lparen, 0⟩, ⟨.number, 1⟩, ⟨.add, 0⟩, ⟨.number, 2⟩] = false ∧
    construct "(1+2".toList = .error .bad_expression_string := by
  have h := balanced_loop_iff toks 0 false (le_refl _)
  simp only [BalancedFrom, zero_add, Bool.false_eq_true, if_false, add_zero] at h
  refine ⟨h, ?_, rfl, rfl, rfl⟩
  intro hv
  apply h.1
  unfold valid_ops at hv
  split at hv
  · cases hv
  · rename_i hb
    simpa [balanced_parens] using hb

theorem C11_balanced_parens_iff_witness :
    (∀ pre post : List token, sample_tokens = pre ++ post → 0 ≤ nesting_depth pre) ∧
      nesting_depth sample_tokens = 0 ∧
      count_x sample_tokens ≤ 1 ∧
      ∀ (pre : List token) (m : token) (post : List token),
        sample_tokens = pre ++ m :: post → m.type = .x → nesting_depth pre = 0 :=
  (C11_balanced_parens_iff sample_tokens).2.1 (by decide)

/-! ## The alternation pass -/

/-- One accepted step of the second loop of `valid_ops`: the loop goes on expecting a value
exactly behind a token that is neither a number nor a right parenthesis. -/
theorem ops_loop_step (t : token) (rest : List token) (e : Bool)
    (h : ops_loop (t :: rest) e = true) :
    ops_loop rest (decide (t.type ≠ .number ∧ t.type ≠ .rparen)) = true ∧
    (t.type = .lparen → e = true) ∧ (t.type = .rparen → e = false) ∧
    (t.type = .number → e = true) ∧
    (t.type ≠ .number → t.type ≠ .lparen → e = false) := by
  cases e
  · simp only [ops_loop, Bool.false_eq_true, if_false] at h
    by_cases h1 : t.type = .number ∨ t.type = .lparen
    · simp [h1] at h
    · rw [if_neg h1] at h
      push_neg at h1
      by_cases h2 : t.type = .rparen
      · rw [if_pos h2] at h
        simp [h2, h]
      · rw [if_neg h2] at h
        simp [h1.1, h1.2, h2, h]
  · simp only [ops_loop, if_true] at h
    by_cases h1 : t.type = .number
    · rw [if_pos h1] at h
      simp [h1, h]
    · rw [if_neg h1] at h
      by_cases h2 : t.type = .lparen
      · rw [if_pos h2] at h
        simp [h2, h]
      · simp [h2] at h

theorem strip_parens_cons (t : token) (rest : List token) :
    strip_parens (t :: rest) =
      if t.type ≠ .lparen ∧ t.type ≠ .rparen then t :: strip_parens rest
      else strip_parens rest := by
  unfold strip_parens
  rw [List.filter_cons]
  simp

/-- The sequence without its parentheses alternates, from a number when a value is expected
and from an operator otherwise, and ends with a number. -/
theorem ops_loop_alternates : ∀ (toks : List token) (e : Bool), ops_loop toks e = true →
    (strip_parens toks).length % 2 = (if e then 1 else 0) ∧
    ∀ (i : Nat) (h : i < (strip_parens toks).length),
      ((strip_parens toks)[i].type = .number ↔ i % 2 = (if e then 0 else 1)) := by
  intro toks
  induction toks with
  | nil =>
    intro e h
    cases e
    · simp [strip_parens]
    · simp [ops_loop] at h
  | cons t rest ih =>
    intro e h
    obtain ⟨h1, h2, h3, h4, h5⟩ := ops_loop_step t rest e h
    have i1 := ih _ h1
    rw [strip_parens_cons]
    by_cases hp : t.type ≠ .lparen ∧ t.type ≠ .rparen
    · rw [if_pos hp]
      by_cases hn : t.type = .number
      · have he := h4 hn
        subst he
        have hd : decide (t.type ≠ .number ∧ t.type ≠ .rparen) = false := by simp [hn]
        rw [hd] at i1
        simp only [Bool.false_eq_true, if_false] at i1
        simp only [List.length_cons, if_true]
        refine ⟨by omega, ?_⟩
        intro i hi
        cases i with
        | zero => simp [hn]
        | succ j =>
          simp only [List.getElem_cons_succ]
          rw [i1.2 j (by simpa using hi)]
          omega
      · have he := h5 hn hp.1
        subst he
        have hd : decide (t.type ≠ .number ∧ t.type ≠ .rparen) = true := by simp [hn, hp.2]
        rw [hd] at i1
        simp only [if_true] at i1
        simp only [List.length_cons, Bool.false_eq_true, if_false]
        refine ⟨by omega, ?_⟩
        intro i hi
        cases i with
        | zero => simp [hn]
        | succ j =>
          simp only [List.getElem_cons_succ]
          rw [i1.2 j (by simpa using hi)]
          omega
    · rw [if_neg hp]
      have hpar : t.type = .lparen ∨ t.type = .rparen := by
        by_contra hc
        push_neg at hc
        exact hp hc
      rcases hpar with hl | hr
      · have he := h2 hl
        subst he
        have hd : decide (t.type ≠ .number ∧ t.type ≠ .rparen) = true := by simp [hl]
        rw [hd] at i1
        exact i1
      · have he := h3 hr
        subst he
        have hd : decide (t.type ≠ .number ∧ t.type ≠ .rparen) = false := by simp [hr]
        rw [hd] at i1
        exact i1

/-- In an accepted sequence a left parenthesis follows no number and no right parenthesis, and
a right parenthesis follows a number or a right parenthesis. -/
theorem ops_loop_neighbours : ∀ (toks : List token) (e : Bool), ops_loop toks e = true →
    ∀ (pre : List token) (u l : token) (post : List token), toks = pre ++ u :: l :: post →
      (l.type = .lparen → u.type ≠ .number ∧ u.type ≠ .rparen) ∧
      (l.type = .rparen → u.type = .number ∨ u.type = .rparen) := by
  intro toks
  induction toks with
  | nil => intro e _ pre u l post hpre; simp at hpre
  | cons t rest ih =>
    intro e h pre u l post hpre
    obtain ⟨h1, _, _, _, _⟩ := ops_loop_step t rest e h
    cases pre with
    | nil =>
      simp only [List.nil_append, List.cons.injEq] at hpre
      obtain ⟨rfl, hrest⟩ := hpre
      subst hrest
      obtain ⟨_, k2, k3, _, _⟩ := ops_loop_step l post _ h1
      constructor
      · intro hl
        simpa using k2 hl
      · intro hr
        have := k3 hr
        simp only [ne_eq, decide_eq_false_iff_not, not_and, not_not] at this
        by_cases hn : t.type = .number
        · exact Or.inl hn
        · exact Or.inr (this hn)
    | cons a pre =>
      simp only [List.cons_append, List.cons.injEq] at hpre
      exact ih _ h1 pre u l post hpre.2

theorem ops_loop_last : ∀ (ts : List token) (o : token) (e : Bool),
    ops_loop (ts ++ [o]) e = true → o.type = .number ∨ o.type = .rparen := by
  intro ts
  induction ts with
  | nil =>
    intro o e h
    obtain ⟨h1, _, _, _, _⟩ := ops_loop_step o [] e h
    by_contra hc
    push_neg at hc
    simp [hc.1, hc.2, ops_loop] at h1
  | cons t rest ih =>
    intro o e h
    obtain ⟨h1, _, _, _, _⟩ := ops_loop_step t (rest ++ [o]) e h
    exact ih o _ h1

theorem valid_ops_ops_loop (toks : List token) (hv : valid_ops toks = true) :
    balanced_parens toks = true ∧ ops_loop toks true = true := by
  unfold valid_ops at hv
  split at hv
  · cases hv
  · rename_i hb
    exact ⟨by simpa using hb, hv⟩

/-- C12: in a sequence accepted by `valid_ops`, the tokens other than parentheses are odd in
number and alternate number, operator, number, and so on, from a number to a number; a left
parenthesis is the first token or follows a token that is neither a number nor a right
parenthesis, and a right parenthesis follows a number or a right parenthesis.  The empty
sequence, every sequence that ends in an operator or a left parenthesis, the input `1+` and the
input `()` are rejected. -/
theorem C12_valid_ops_alternates (toks : List token) (hv : valid_ops toks = true) :
    strip_parens toks ≠ [] ∧
    (strip_parens toks).length % 2 = 1 ∧
    (∀ (i : Nat) (h : i < (strip_parens toks).length),
      ((strip_parens toks)[i].type = .number ↔ i % 2 = 0)) ∧
    (∃ t ∈ (strip_parens toks).head?, t.type = .number) ∧
    (∃ t ∈ (strip_parens toks).getLast?, t.type = .number) ∧
    (∀ (pre : List token) (l : token) (post : List token), toks = pre ++ l :: post →
      l.type = .lparen → ∀ u ∈ pre.getLast?, u.type ≠ .number ∧ u.type ≠ .rparen) ∧
    (∀ (pre : List token) (c : token) (post : List token), toks = pre ++ c :: post →
      c.type = .rparen → ∃ u ∈ pre.getLast?, u.type = .number ∨ u.type = .rparen) ∧
    valid_ops [] = false ∧
    (∀ (ts : List token) (o : token), o.type ≠ .number → o.type ≠ .rparen →
      valid_ops (ts ++ [o]) = false) ∧
    construct "1+".toList = .error .bad_expression_string ∧
    construct "()".toList = .error .bad_expression_string := by
  obtain ⟨_, ho⟩ := valid_ops_ops_loop toks hv
  obtain ⟨hlen, halt⟩ := ops_loop_alternates toks true ho
  simp only [if_true] at hlen halt
  have hpos : 0 < (strip_parens toks).length := by omega
  have hne : strip_parens toks ≠ [] := List.length_pos.1 hpos
  refine ⟨hne, hlen, halt, ?_, ?_, ?_, ?_, rfl, ?_, rfl, rfl⟩
  · refine ⟨(strip_parens toks)[0], ?_, (halt 0 hpos).2 rfl⟩
    rw [List.head?_eq_getElem?]
    simp [List.getElem?_eq_getElem hpos]
  · refine ⟨(strip_parens toks)[(strip_parens toks).length - 1], ?_,
      (halt _ (by omega)).2 (by omega)⟩
    rw [List.getLast?_eq_getElem?]
    simp [List.getElem?_eq_getElem (show (strip_parens toks).length - 1
      < (strip_parens toks).length by omega)]
  · intro pre l post hpre hl u hu
    obtain ⟨pre1, rfl⟩ : ∃ pre1, pre = pre1 ++ [u] := by
      rcases List.eq_nil_or_concat pre with h | ⟨pre1, b, h⟩
      · subst h; simp at hu
      · subst h
        have hb : b = u := by simpa using hu
        exact ⟨pre1, by rw [hb]; simp⟩
    exact (ops_loop_neighbours toks true ho pre1 u l post (by rw [hpre]; simp)).1 hl
  · intro pre c post hpre hc
    rcases List.eq_nil_or_concat pre with h | ⟨pre1, u, h⟩
    · subst h
      rw [hpre] at ho
      have := (ops_loop_step c post true ho).2.2.1 hc
      cases this
    · subst h
      refine ⟨u, by simp, ?_⟩
      exact (ops_loop_neighbours toks true ho pre1 u c post (by rw [hpre]; simp)).2 hc
  · intro ts o h1 h2
    cases hvo : valid_ops (ts ++ [o]) with
    | false => rfl
    | true =>
      have := ops_loop_last ts o true (valid_ops_ops_loop _ hvo).2
      rcases this with h | h
      · exact absurd h h1
      · exact absurd h h2

theorem C12_valid_ops_alternates_witness :
    strip_parens sample_tokens ≠ [] ∧ (strip_parens sample_tokens).length % 2 = 1 :=
  ⟨(C12_valid_ops_alternates sample_tokens (by decide)).1,
    (C12_valid_ops_alternates sample_tokens (by decide)).2.1⟩

/-! ## The tokenizer -/

theorem tokenize_eq (input : List Char) :
    tokenize input = tokenize_from tokenize_init input := by
  unfold tokenize tokenize_from tokenize_init
  cases tokenize_loop input { on_digit := true, tok := [], toks := [] } with
  | error e => rfl
  | ok s => rfl

theorem tokenize_loop_append : ∀ (a b : List Char) (s : tokenize_state),
    tokenize_loop (a ++ b) s =
      match tokenize_loop a s with
      | .error e => .error e
      | .ok s1 => tokenize_loop b s1 := by
  intro a
  induction a with
  | nil => intro b s; rfl
  | cons c cs ih =>
    intro b s
    simp only [List.cons_append, tokenize_loop]
    cases tokenize_step s c with
    | error e => rfl
    | ok s1 => exact ih b s1

theorem tokenize_from_append (a b : List Char) (s : tokenize_state) :
    tokenize_from s (a ++ b) =
      match tokenize_loop a s with
      | .error e => .error e
      | .ok s1 => tokenize_from s1 b := by
  unfold tokenize_from
  rw [tokenize_loop_append]
  cases tokenize_loop a s with
  | error e => rfl
  | ok s1 => rfl

theorem tokenize_from_cons (c : Char) (cs : List Char) (s : tokenize_state) :
    tokenize_from s (c :: cs) =
      match tokenize_step s c with
      | .error e => .error e
      | .ok s1 => tokenize_from s1 cs := by
  unfold tokenize_from
  simp only [tokenize_loop]
  cases tokenize_step s c with
  | error e => rfl
  | ok s1 => rfl

theorem tokenize_from_nil (s : tokenize_state) : tokenize_from s [] = tokenize_finish s := rfl

/-- The body of the loop on a digit. -/
theorem tokenize_step_digit (s : tokenize_state) (c : Char) (h : is_digit c = true) :
    tokenize_step s c =
      .ok { on_digit := true, tok := (if s.on_digit then s.tok else []) ++ [c],
            toks := s.toks } := by
  unfold tokenize_step
  rw [if_pos h]
  cases hs : s.on_digit <;> simp [hs]

/-- The body of the loop on a character that is no digit. -/
theorem tokenize_step_other (s : tokenize_state) (c : Char) (h : is_digit c = false) :
    tokenize_step s c =
      match flush s with
      | .error e => .error e
      | .ok toks1 => push_char c (if s.on_digit then [] else s.tok) toks1 := by
  obtain ⟨od, tok, toks⟩ := s
  unfold tokenize_step flush push_char with_implicit_one
  rw [if_neg (by simp [h])]
  cases od <;> cases tok <;> rfl

theorem tok_inv_init : TokInv tokenize_init := by
  simp [TokInv, tokenize_init]

/-- The body of the loop keeps the invariant, and the new state tells whether the character
was a digit. -/
theorem tokenize_step_inv (s s1 : tokenize_state) (c : Char) (hs : TokInv s)
    (h : tokenize_step s c = .ok s1) :
    TokInv s1 ∧ (is_digit c = true → s1.on_digit = true ∧ s1.tok ≠ []) ∧
      (is_digit c = false → s1.on_digit = false ∧ s1.tok = []) := by
  cases hd : is_digit c with
  | true =>
    rw [tokenize_step_digit s c hd] at h
    cases h
    simp [TokInv]
  | false =>
    rw [tokenize_step_other s c hd] at h
    have htok : (if s.on_digit then [] else s.tok) = ([] : List Char) := by
      cases ho : s.on_digit
      · simp [hs.1 ho]
      · simp
    cases hf : flush s with
    | error e => rw [hf] at h; cases h
    | ok toks1 =>
      rw [hf] at h
      simp only [push_char] at h
      split at h
      · cases hc : c_to_op c with
        | error e => rw [hc] at h; cases h
        | ok op =>
          rw [hc] at h
          cases h
          simp [TokInv, htok]
      · cases h
        simp [TokInv, htok]

theorem tokenize_loop_inv : ∀ (cs : List Char) (s s1 : tokenize_state), TokInv s →
    tokenize_loop cs s = .ok s1 → TokInv s1 := by
  intro cs
  induction cs with
  | nil =>
    intro s s1 hs h
    simp only [tokenize_loop, Except.ok.injEq] at h
    rw [← h]
    exact hs
  | cons c cs ih =>
    intro s s1 hs h
    simp only [tokenize_loop] at h
    cases hst : tokenize_step s c with
    | error e => rw [hst] at h; cases h
    | ok s2 =>
      rw [hst] at h
      exact ih s2 s1 (tokenize_step_inv s s2 c hs hst).1 h

/-- The state of the loop behind the characters `p` tells whether `p` ends in a digit. -/
theorem tokenize_loop_last (p : List Char) (s : tokenize_state)
    (h : tokenize_loop p tokenize_init = .ok s) :
    TokInv s ∧ ((∃ c ∈ p.getLast?, is_digit c = true) ↔ (s.on_digit = true ∧ s.tok ≠ [])) := by
  refine ⟨tokenize_loop_inv p _ s tok_inv_init h, ?_⟩
  rcases List.eq_nil_or_concat p with hp | ⟨p1, c, hp⟩
  · subst hp
    simp only [tokenize_loop, Except.ok.injEq] at h
    rw [← h]
    simp [tokenize_init]
  · subst hp
    rw [List.concat_eq_append, tokenize_loop_append] at h
    cases h1 : tokenize_loop p1 tokenize_init with
    | error e => rw [h1] at h; cases h
    | ok s2 =>
      rw [h1] at h
      simp only [tokenize_loop] at h
      cases hst : tokenize_step s2 c with
      | error e => rw [hst] at h; cases h
      | ok s3 =>
        rw [hst] at h
        simp only [Except.ok.injEq] at h
        subst h
        have hinv := tokenize_step_inv s2 s3 c (tokenize_loop_inv p1 _ s2 tok_inv_init h1) hst
        simp only [List.concat_eq_append, List.getLast?_append, List.getLast?_singleton,
          Option.mem_def]
        cases hd : is_digit c with
        | true =>
          have := hinv.2.1 hd
          simp [this.1, this.2, hd]
        | false =>
          have := hinv.2.2 hd
          simp [this.1, this.2, hd]

theorem flush_empty (od : Bool) (toks : List token) :
    flush { on_digit := od, tok := [], toks := toks } = .ok toks := by
  simp [flush]

theorem c_to_op_error (c : Char) (e : Err) (h : c_to_op c = .error e) :
    e = .not_a_valid_operation ∧ ¬ (c = '*' ∨ c = '/' ∨ c = '%' ∨ c = '+' ∨ c = '-' ∨ c = 'd' ∨ c = ':' ∨ c = 'x' ∨ c = '(' ∨ c = ')') := by
  by_cases h0 : c = '*'
  · rw [c_to_op, if_pos h0] at h; cases h
  by_cases h1 : c = '/'
  · rw [c_to_op, if_neg h0, if_pos h1] at h; cases h
  by_cases h2 : c = '%'
  · rw [c_to_op, if_neg h0, if_neg h1, if_pos h2] at h; cases h
  by_cases h3 : c = '+'
  · rw [c_to_op, if_neg h0, if_neg h1, if_neg h2, if_pos h3] at h; cases h
  by_cases h4 : c = '-'
  · rw [c_to_op, if_neg h0, if_neg h1, if_neg h2, if_neg h3, if_pos h4] at h; cases h
  by_cases h5 : c = 'd'
  · rw [c_to_op, if_neg h0, if_neg h1, if_neg h2, if_neg h3, if_neg h4, if_pos h5] at h; cases h
  by_cases h6 : c = ':'
  · rw [c_to_op, if_neg h0, if_neg h1, if_neg h2, if_neg h3, if_neg h4, if_neg h5, if_pos h6] at h; cases h
  by_cases h7 : c = 'x'
  · rw [c_to_op, if_neg h0, if_neg h1, if_neg h2, if_neg h3, if_neg h4, if_neg h5, if_neg h6, if_pos h7] at h; cases h
  by_cases h8 : c = '('
  · rw [c_to_op, if_neg h0, if_neg h1, if_neg h2, if_neg h3, if_neg h4, if_neg h5, if_neg h6, if_neg h7, if_pos h8] at h; cases h
  by_cases h9 : c = ')'
  · rw [c_to_op, if_neg h0, if_neg h1, if_neg h2, if_neg h3, if_neg h4, if_neg h5, if_neg h6, if_neg h7, if_neg h8, if_pos h9] at h; cases h
  rw [c_to_op, if_neg h0, if_neg h1, if_neg h2, if_neg h3, if_neg h4, if_neg h5, if_neg h6, if_neg h7, if_neg h8, if_neg h9] at h
  cases h
  refine ⟨rfl, ?_⟩
  intro hc
  rcases hc with hc | hc | hc | hc | hc | hc | hc | hc | hc | hc <;> contradiction

theorem c_to_op_invalid (c : Char)
    (h : ¬ (c = '*' ∨ c = '/' ∨ c = '%' ∨ c = '+' ∨ c = '-' ∨ c = 'd' ∨ c = ':' ∨ c = 'x' ∨ c = '(' ∨ c = ')')) :
    c_to_op c = .error .not_a_valid_operation := by
  simp only [not_or] at h
  obtain ⟨h0, h1, h2, h3, h4, h5, h6, h7, h8, h9⟩ := h
  rw [c_to_op, if_neg h0, if_neg h1, if_neg h2, if_neg h3, if_neg h4, if_neg h5, if_neg h6, if_neg h7, if_neg h8, if_neg h9]

theorem c_to_op_not_number (c : Char) (op : token_t) (h : c_to_op c = .ok op) :
    op ≠ .number := by
  by_cases h0 : c = '*'
  · rw [c_to_op, if_pos h0] at h; cases h; decide
  by_cases h1 : c = '/'
  · rw [c_to_op, if_neg h0, if_pos h1] at h; cases h; decide
  by_cases h2 : c = '%'
  · rw [c_to_op, if_neg h0, if_neg h1, if_pos h2] at h; cases h; decide
  by_cases h3 : c = '+'
  · rw [c_to_op, if_neg h0, if_neg h1, if_neg h2, if_pos h3] at h; cases h; decide
  by_cases h4 : c = '-'
  · rw [c_to_op, if_neg h0, if_neg h1, if_neg h2, if_neg h3, if_pos h4] at h; cases h; decide
  by_cases h5 : c = 'd'
  · rw [c_to_op, if_neg h0, if_neg h1, if_neg h2, if_neg h3, if_neg h4, if_pos h5] at h; cases h; decide
  by_cases h6 : c = ':'
  · rw [c_to_op, if_neg h0, if_neg h1, if_neg h2, if_neg h3, if_neg h4, if_neg h5, if_pos h6] at h; cases h; decide
  by_cases h7 : c = 'x'
  · rw [c_to_op, if_neg h0, if_neg h1, if_neg h2, if_neg h3, if_neg h4, if_neg h5, if_neg h6, if_pos h7] at h; cases h; decide
  by_cases h8 : c = '('
  · rw [c_to_op, if_neg h0, if_neg h1, if_neg h2, if_neg h3, if_neg h4, if_neg h5, if_neg h6, if_neg h7, if_pos h8] at h; cases h; decide
  by_cases h9 : c = ')'
  · rw [c_to_op, if_neg h0, if_neg h1, if_neg h2, if_neg h3, if_neg h4, if_neg h5, if_neg h6, if_neg h7, if_neg h8, if_pos h9] at h; cases h; decide
  rw [c_to_op, if_neg h0, if_neg h1, if_neg h2, if_neg h3, if_neg h4, if_neg h5, if_neg h6, if_neg h7, if_neg h8, if_neg h9] at h
  cases h

theorem stoi_error (tok : List Char) (e : Err) (h : stoi tok = .error e) :
    e = .stoi_out_of_range := by
  unfold stoi at h
  dsimp only at h
  split at h
  · cases h
  · cases h
    rfl

theorem flush_error (s : tokenize_state) (e : Err) (h : flush s = .error e) :
    e = .stoi_out_of_range := by
  unfold flush at h
  split at h
  · cases hst : stoi s.tok with
    | error e1 =>
      rw [hst] at h
      cases h
      exact stoi_error _ _ hst
    | ok v => rw [hst] at h; cases h
  · cases h

theorem valid_char_iff (c : Char) :
    valid_char c ↔ (is_digit c = true ∨ c = ' ' ∨ (c = '*' ∨ c = '/' ∨ c = '%' ∨ c = '+' ∨ c = '-' ∨ c = 'd' ∨ c = ':' ∨ c = 'x' ∨ c = '(' ∨ c = ')')) := by
  unfold valid_char
  rfl

theorem c_to_op_dice (c : Char) (h : c_to_op c = .ok .dice) : c = 'd' := by
  by_cases h0 : c = '*'
  · rw [c_to_op, if_pos h0] at h; cases h
  by_cases h1 : c = '/'
  · rw [c_to_op, if_neg h0, if_pos h1] at h; cases h
  by_cases h2 : c = '%'
  · rw [c_to_op, if_neg h0, if_neg h1, if_pos h2] at h; cases h
  by_cases h3 : c = '+'
  · rw [c_to_op, if_neg h0, if_neg h1, if_neg h2, if_pos h3] at h; cases h
  by_cases h4 : c = '-'
  · rw [c_to_op, if_neg h0, if_neg h1, if_neg h2, if_neg h3, if_pos h4] at h; cases h
  by_cases h5 : c = 'd'
  · exact h5
  by_cases h6 : c = ':'
  · rw [c_to_op, if_neg h0, if_neg h1, if_neg h2, if_neg h3, if_neg h4, if_neg h5, if_pos h6] at h; cases h
  by_cases h7 : c = 'x'
  · rw [c_to_op, if_neg h0, if_neg h1, if_neg h2, if_neg h3, if_neg h4, if_neg h5, if_neg h6, if_pos h7] at h; cases h
  by_cases h8 : c = '('
  · rw [c_to_op, if_neg h0, if_neg h1, if_neg h2, if_neg h3, if_neg h4, if_neg h5, if_neg h6, if_neg h7, if_pos h8] at h; cases h
  by_cases h9 : c = ')'
  · rw [c_to_op, if_neg h0, if_neg h1, if_neg h2, if_neg h3, if_neg h4, if_neg h5, if_neg h6, if_neg h7, if_neg h8, if_pos h9] at h; cases h
  rw [c_to_op, if_neg h0, if_neg h1, if_neg h2, if_neg h3, if_neg h4, if_neg h5, if_neg h6, if_neg h7, if_neg h8, if_neg h9] at h
  cases h

/-- The loop body on `d` where the implicit `1` is added. -/
theorem tokenize_step_d_implicit (od : Bool) (toks : List token)
    (h : toks = [] ∨ ∃ t ∈ toks.getLast?, t.type ≠ .number ∧ t.type ≠ .rparen) :
    tokenize_step { on_digit := od, tok := [], toks := toks } 'd'
      = .ok { on_digit := false, tok := [],
              toks := toks ++ [{ type := .number, value := 1 }] ++ [{ type := .dice, value := 0 }] } := by
  rw [tokenize_step_other _ 'd' (by decide), flush_empty]
  have h1 : with_implicit_one 'd' toks = toks ++ [{ type := .number, value := 1 }] := by
    unfold with_implicit_one
    rw [if_pos ⟨rfl, h⟩]
  have h2 : c_to_op 'd' = .ok .dice := rfl
  simp only [push_char, h1, h2]
  cases od <;> rfl

/-- The loop body on an explicit `1` and the `d` behind it. -/
theorem tokenize_step_one_d (od : Bool) (toks : List token) :
    tokenize_step { on_digit := od, tok := [], toks := toks } '1'
      = .ok { on_digit := true, tok := ['1'], toks := toks } ∧
    tokenize_step { on_digit := true, tok := ['1'], toks := toks } 'd'
      = .ok { on_digit := false, tok := [],
              toks := toks ++ [{ type := .number, value := 1 }] ++ [{ type := .dice, value := 0 }] } := by
  constructor
  · rw [tokenize_step_digit _ '1' (by decide)]
    cases od <;> rfl
  · rw [tokenize_step_other _ 'd' (by decide)]
    have h0 : flush { on_digit := true, tok := ['1'], toks := toks }
        = .ok (toks ++ [{ type := .number, value := 1 }]) := rfl
    have h1 : with_implicit_one 'd' (toks ++ [{ type := .number, value := 1 }])
        = toks ++ [{ type := .number, value := 1 }] := by
      unfold with_implicit_one
      rw [if_neg]
      simp
    have h2 : c_to_op 'd' = .ok .dice := rfl
    simp only [h0, push_char, h1, h2]
    rfl

theorem dice_preceded_nil : DicePreceded [] := by
  intro pre m post h
  simp at h

theorem dice_preceded_snoc (toks : List token) (t : token) (h : DicePreceded toks)
    (ht : t.type = .dice → ∃ u ∈ toks.getLast?, u.type = .number ∨ u.type = .rparen) :
    DicePreceded (toks ++ [t]) := by
  intro pre m post hpre hm
  rcases List.eq_nil_or_concat post with hp | ⟨post1, z, hp⟩
  · subst hp
    have h1 := List.append_inj' hpre rfl
    obtain ⟨h2, h3⟩ := h1
    simp only [List.cons.injEq, and_true] at h3
    subst h2
    subst h3
    exact ht hm
  · subst hp
    have h0 : pre ++ m :: post1.concat z = (pre ++ m :: post1) ++ [z] := by simp
    rw [h0] at hpre
    have h1 := List.append_inj' hpre rfl
    exact h pre m post1 h1.1 hm

theorem dice_preceded_flush (s : tokenize_state) (toks1 : List token) (h : DicePreceded s.toks)
    (hf : flush s = .ok toks1) : DicePreceded toks1 := by
  unfold flush at hf
  split at hf
  · cases hst : stoi s.tok with
    | error e => rw [hst] at hf; cases hf
    | ok v =>
      rw [hst] at hf
      cases hf
      exact dice_preceded_snoc _ _ h (fun hc => by cases hc)
  · cases hf
    exact h

theorem with_implicit_one_spec (c : Char) (toks1 : List token) (h : DicePreceded toks1) :
    DicePreceded (with_implicit_one c toks1) ∧
    (c = 'd' → ∃ u ∈ (with_implicit_one c toks1).getLast?,
      u.type = .number ∨ u.type = .rparen) := by
  unfold with_implicit_one
  split
  · refine ⟨dice_preceded_snoc _ _ h (fun hc => by cases hc), fun _ => ?_⟩
    exact ⟨⟨.number, 1⟩, by simp, Or.inl rfl⟩
  · rename_i hc
    refine ⟨h, fun hd => ?_⟩
    have h1 : ¬ (toks1 = [] ∨ ∃ t ∈ toks1.getLast?, t.type ≠ .number ∧ t.type ≠ .rparen) :=
      fun h2 => hc ⟨hd, h2⟩
    push_neg at h1
    obtain ⟨hne, hl⟩ := h1
    obtain ⟨u, hu⟩ : ∃ u, toks1.getLast? = some u := by
      cases hg : toks1.getLast? with
      | none => exact absurd (List.getLast?_eq_none_iff.1 hg) hne
      | some u => exact ⟨u, rfl⟩
    refine ⟨u, hu, ?_⟩
    by_cases hn : u.type = .number
    · exact Or.inl hn
    · exact Or.inr (hl u hu hn)

theorem dice_preceded_step (s s1 : tokenize_state) (c : Char) (h : DicePreceded s.toks)
    (hst : tokenize_step s c = .ok s1) : DicePreceded s1.toks := by
  cases hd : is_digit c with
  | true =>
    rw [tokenize_step_digit s c hd] at hst
    cases hst
    exact h
  | false =>
    rw [tokenize_step_other s c hd] at hst
    cases hf : flush s with
    | error e => rw [hf] at hst; cases hst
    | ok toks1 =>
      rw [hf] at hst
      simp only [push_char] at hst
      obtain ⟨k1, k2⟩ := with_implicit_one_spec c toks1 (dice_preceded_flush s toks1 h hf)
      split at hst
      · cases hc : c_to_op c with
        | error e => rw [hc] at hst; cases hst
        | ok op =>
          rw [hc] at hst
          cases hst
          refine dice_preceded_snoc _ _ k1 ?_
          intro hop
          simp only at hop
          subst hop
          exact k2 (c_to_op_dice c hc)
      · cases hst
        exact k1

theorem dice_preceded_loop : ∀ (cs : List Char) (s s1 : tokenize_state), DicePreceded s.toks →
    tokenize_loop cs s = .ok s1 → DicePreceded s1.toks := by
  intro cs
  induction cs with
  | nil =>
    intro s s1 hs h
    simp only [tokenize_loop, Except.ok.injEq] at h
    rw [← h]
    exact hs
  | cons c cs ih =>
    intro s s1 hs h
    simp only [tokenize_loop] at h
    cases hst : tokenize_step s c with
    | error e => rw [hst] at h; cases h
    | ok s2 =>
      rw [hst] at h
      exact ih s2 s1 (dice_preceded_step s s2 c hs hst) h

theorem tokenize_dice_preceded (input : List Char) (toks : List token)
    (h : tokenize input = .ok toks) : DicePreceded toks := by
  rw [tokenize_eq] at h
  unfold tokenize_from at h
  cases hl : tokenize_loop input tokenize_init with
  | error e => rw [hl] at h; cases h
  | ok s =>
    rw [hl] at h
    have h1 := dice_preceded_loop input _ s dice_preceded_nil hl
    exact dice_preceded_flush s toks h1 h

/-- The function `tokenize` on a string that does not end in a digit returns the tokens in the
final state of its loop. -/
theorem tokenize_no_digit_end (p : List Char) (tp : List token) (hp : tokenize p = .ok tp)
    (hlast : ∀ c ∈ p.getLast?, is_digit c = false) :
    ∃ od : Bool, tokenize_loop p tokenize_init = .ok { on_digit := od, tok := [], toks := tp } := by
  rw [tokenize_eq] at hp
  unfold tokenize_from at hp
  cases hl : tokenize_loop p tokenize_init with
  | error e => rw [hl] at hp; cases hp
  | ok s =>
    rw [hl] at hp
    obtain ⟨hinv, hiff⟩ := tokenize_loop_last p s hl
    have hnd : ¬ (s.on_digit = true ∧ s.tok ≠ []) := by
      intro hc
      obtain ⟨c, hc1, hc2⟩ := hiff.2 hc
      rw [hlast c hc1] at hc2
      cases hc2
    have htok : s.tok = [] := by
      cases ho : s.on_digit
      · exact hinv.1 ho
      · by_contra hne
        exact hnd ⟨ho, hne⟩
    obtain ⟨od, tok, toks⟩ := s
    simp only at htok
    subst htok
    simp only [tokenize_finish, ne_eq, not_true_eq_false, and_false, if_false,
      Except.ok.injEq] at hp
    subst hp
    exact ⟨od, rfl⟩

/-- C13: behind a prefix `p` that tokenizes, does not end in a digit, and whose token sequence
is empty or ends in a token that is neither a number nor a right parenthesis, a `d` and a `1d`
are tokenized alike, whatever follows; in every output of `tokenize` a dice token stands
directly behind a number or a right parenthesis; `d6` and `1d6` both give the tokens
number 1, dice, number 6. -/
theorem C13_implicit_one :
    (∀ (p s : List Char) (tp : List token), tokenize p = .ok tp →
      (∀ c ∈ p.getLast?, is_digit c = false) →
      (tp = [] ∨ ∃ t ∈ tp.getLast?, t.type ≠ .number ∧ t.type ≠ .rparen) →
      tokenize (p ++ 'd' :: s) = tokenize (p ++ '1' :: 'd' :: s)) ∧
    (∀ (input : List Char) (toks : List token), tokenize input = .ok toks →
      ∀ (pre : List token) (m : token) (post : List token), toks = pre ++ m :: post →
        m.type = .dice → ∃ u ∈ pre.getLast?, u.type = .number ∨ u.type = .rparen) ∧
    tokenize "d6".toList = .ok [⟨.number, 1⟩, ⟨.dice, 0⟩, ⟨.number, 6⟩] ∧
    tokenize "1d6".toList = .ok [⟨.number, 1⟩, ⟨.dice, 0⟩, ⟨.number, 6⟩] := by
  refine ⟨?_, tokenize_dice_preceded, rfl, rfl⟩
  intro p s tp hp hlast htp
  obtain ⟨od, hl⟩ := tokenize_no_digit_end p tp hp hlast
  rw [tokenize_eq, tokenize_eq, tokenize_from_append, tokenize_from_append, hl]
  simp only []
  rw [tokenize_from_cons 'd' s, tokenize_step_d_implicit od tp htp,
    tokenize_from_cons '1' ('d' :: s), (tokenize_step_one_d od tp).1]
  simp only []
  rw [tokenize_from_cons 'd' s, (tokenize_step_one_d od tp).2]

theorem C13_implicit_one_witness :
    tokenize ("2*(".toList ++ 'd' :: "6)".toList)
      = tokenize ("2*(".toList ++ '1' :: 'd' :: "6)".toList) :=
  C13_implicit_one.1 "2*(".toList "6)".toList [⟨.number, 2⟩, ⟨.mul, 0⟩, ⟨.lparen, 0⟩] rfl
    (by decide) (Or.inr ⟨⟨.lparen, 0⟩, rfl, by decide⟩)

theorem tokenize_step_error (s : tokenize_state) (c : Char) (e : Err)
    (h : tokenize_step s c = .error e) :
    e = .stoi_out_of_range ∨ (e = .not_a_valid_operation ∧ ¬ valid_char c) := by
  cases hd : is_digit c with
  | true =>
    rw [tokenize_step_digit s c hd] at h
    cases h
  | false =>
    rw [tokenize_step_other s c hd] at h
    cases hf : flush s with
    | error e1 =>
      rw [hf] at h
      cases h
      exact Or.inl (flush_error s _ hf)
    | ok toks1 =>
      rw [hf] at h
      simp only [push_char] at h
      split at h
      · rename_i hsp
        cases hc : c_to_op c with
        | error e1 =>
          rw [hc] at h
          cases h
          obtain ⟨h1, h2⟩ := c_to_op_error c _ hc
          refine Or.inr ⟨h1, ?_⟩
          rw [valid_char_iff]
          rintro (h3 | h3 | h3)
          · rw [hd] at h3; cases h3
          · exact hsp h3
          · exact h2 h3
        | ok op => rw [hc] at h; cases h
      · cases h

theorem tokenize_step_invalid (s : tokenize_state) (c : Char) (h : ¬ valid_char c) :
    ∃ e, tokenize_step s c = .error e := by
  rw [valid_char_iff] at h
  simp only [not_or] at h
  obtain ⟨h1, h2, h3⟩ := h
  have hd : is_digit c = false := by
    cases hdc : is_digit c
    · rfl
    · exact absurd hdc h1
  rw [tokenize_step_other s c hd]
  cases hf : flush s with
  | error e1 => exact ⟨e1, rfl⟩
  | ok toks1 =>
    simp only [push_char]
    rw [if_pos h2, c_to_op_invalid c (by simpa only [not_or] using h3)]
    exact ⟨_, rfl⟩

theorem tokenize_loop_error : ∀ (cs : List Char) (s : tokenize_state) (e : Err),
    tokenize_loop cs s = .error e →
    e = .stoi_out_of_range ∨ (e = .not_a_valid_operation ∧ ∃ c ∈ cs, ¬ valid_char c) := by
  intro cs
  induction cs with
  | nil => intro s e h; cases h
  | cons c cs ih =>
    intro s e h
    simp only [tokenize_loop] at h
    cases hst : tokenize_step s c with
    | error e1 =>
      rw [hst] at h
      cases h
      rcases tokenize_step_error s c _ hst with h1 | ⟨h1, h2⟩
      · exact Or.inl h1
      · exact Or.inr ⟨h1, c, List.mem_cons_self _ _, h2⟩
    | ok s1 =>
      rw [hst] at h
      rcases ih s1 e h with h1 | ⟨h1, c1, h2, h3⟩
      · exact Or.inl h1
      · exact Or.inr ⟨h1, c1, List.mem_cons_of_mem _ h2, h3⟩

theorem tokenize_loop_invalid : ∀ (cs : List Char) (s : tokenize_state),
    (∃ c ∈ cs, ¬ valid_char c) → ∃ e, tokenize_loop cs s = .error e := by
  intro cs
  induction cs with
  | nil => intro s h; simp at h
  | cons c cs ih =>
    intro s h
    simp only [tokenize_loop]
    cases hst : tokenize_step s c with
    | error e1 => exact ⟨e1, rfl⟩
    | ok s1 =>
      obtain ⟨c1, h1, h2⟩ := h
      rcases List.mem_cons.1 h1 with h3 | h3
      · subst h3
        obtain ⟨e, he⟩ := tokenize_step_invalid s c1 h2
        rw [he] at hst
        cases hst
      · exact ih s1 ⟨c1, h3, h2⟩

theorem operator_kinds_append (a b : List token) :
    operator_kinds (a ++ b) = operator_kinds a ++ operator_kinds b := by
  simp [operator_kinds]

theorem operator_kinds_number (v : Int) : operator_kinds [{ type := .number, value := v }] = [] := by
  simp [operator_kinds]

theorem operator_kinds_op (op : token_t) (v : Int) (h : op ≠ .number) :
    operator_kinds [{ type := op, value := v }] = [op] := by
  simp [operator_kinds, h]

theorem operator_chars_cons (c : Char) (cs : List Char) :
    operator_chars (c :: cs) = operator_chars [c] ++ operator_chars cs := by
  unfold operator_chars
  rw [← List.filterMap_append]
  rfl

theorem operator_kinds_flush (s : tokenize_state) (toks1 : List token)
    (hf : flush s = .ok toks1) : operator_kinds toks1 = operator_kinds s.toks := by
  unfold flush at hf
  split at hf
  · cases hst : stoi s.tok with
    | error e => rw [hst] at hf; cases hf
    | ok v =>
      rw [hst] at hf
      cases hf
      rw [operator_kinds_append, operator_kinds_number, List.append_nil]
  · cases hf
    rfl

theorem operator_kinds_implicit (c : Char) (toks1 : List token) :
    operator_kinds (with_implicit_one c toks1) = operator_kinds toks1 := by
  unfold with_implicit_one
  split
  · rw [operator_kinds_append, operator_kinds_number, List.append_nil]
  · rfl

theorem operator_kinds_step (s s1 : tokenize_state) (c : Char)
    (h : tokenize_step s c = .ok s1) :
    operator_kinds s1.toks = operator_kinds s.toks ++ operator_chars [c] := by
  cases hd : is_digit c with
  | true =>
    rw [tokenize_step_digit s c hd] at h
    cases h
    simp [operator_chars, hd]
  | false =>
    rw [tokenize_step_other s c hd] at h
    cases hf : flush s with
    | error e1 => rw [hf] at h; cases h
    | ok toks1 =>
      rw [hf] at h
      simp only [push_char] at h
      have k1 := operator_kinds_flush s toks1 hf
      split at h
      · rename_i hsp
        cases hc : c_to_op c with
        | error e1 => rw [hc] at h; cases h
        | ok op =>
          rw [hc] at h
          cases h
          simp only
          rw [operator_kinds_append, operator_kinds_implicit, k1,
            operator_kinds_op op 0 (c_to_op_not_number c op hc)]
          simp [operator_chars, hd, hsp, hc]
      · rename_i hsp
        cases h
        simp only
        rw [operator_kinds_implicit, k1]
        simp only [ne_eq, not_not] at hsp
        simp [operator_chars, hsp]

theorem operator_kinds_loop : ∀ (cs : List Char) (s s1 : tokenize_state),
    tokenize_loop cs s = .ok s1 →
    operator_kinds s1.toks = operator_kinds s.toks ++ operator_chars cs := by
  intro cs
  induction cs with
  | nil =>
    intro s s1 h
    simp only [tokenize_loop, Except.ok.injEq] at h
    rw [← h]
    simp [operator_chars]
  | cons c cs ih =>
    intro s s1 h
    simp only [tokenize_loop] at h
    cases hst : tokenize_step s c with
    | error e => rw [hst] at h; cases h
    | ok s2 =>
      rw [hst] at h
      rw [ih s2 s1 h, operator_kinds_step s s2 c hst, operator_chars_cons c cs,
        List.append_assoc]

/-- C14 fails on the input `2147483648`, which consists of digits only: `std::stoi` throws
`std::out_of_range`, which is no `std::runtime_error`.  Apart from that exception the claim
holds: `tokenize` throws nothing else than "not a valid operation", it throws that only on a
string with a character other than a digit, a space and the ten operator characters, every
string with such a character makes it throw, and in every output the tokens that are no
numbers are, in order, the images under `c_to_op` of the characters that are neither digits
nor spaces. -/
theorem C14_tokenize_fails_on_long_number :
    tokenize "2147483648".toList = .error .stoi_out_of_range ∧
    (∀ c ∈ "2147483648".toList, is_digit c = true) ∧
    Err.recoverable .stoi_out_of_range = false ∧
    (∀ (input : List Char) (e : Err), tokenize input = .error e →
      e = .stoi_out_of_range ∨
        (e = .not_a_valid_operation ∧ e.recoverable = true ∧ ∃ c ∈ input, ¬ valid_char c)) ∧
    (∀ input : List Char, (∃ c ∈ input, ¬ valid_char c) → ∃ e, tokenize input = .error e) ∧
    (∀ (input : List Char) (toks : List token), tokenize input = .ok toks →
      operator_kinds toks = operator_chars input) ∧
    (c_to_op '*' = .ok .mul ∧ c_to_op '/' = .ok .div ∧ c_to_op '%' = .ok .mod ∧
      c_to_op '+' = .ok .add ∧ c_to_op '-' = .ok .sub ∧ c_to_op 'd' = .ok .dice ∧
      c_to_op ':' = .ok .choose ∧ c_to_op 'x' = .ok .x ∧ c_to_op '(' = .ok .lparen ∧
      c_to_op ')' = .ok .rparen) := by
  refine ⟨rfl, by decide, rfl, ?_, ?_, ?_, ⟨rfl, rfl, rfl, rfl, rfl, rfl, rfl, rfl, rfl, rfl⟩⟩
  · intro input e h
    rw [tokenize_eq] at h
    unfold tokenize_from at h
    cases hl : tokenize_loop input tokenize_init with
    | error e1 =>
      rw [hl] at h
      cases h
      rcases tokenize_loop_error input _ _ hl with h1 | ⟨h1, h2⟩
      · exact Or.inl h1
      · exact Or.inr ⟨h1, by rw [h1]; rfl, h2⟩
    | ok s =>
      rw [hl] at h
      exact Or.inl (flush_error s e h)
  · intro input h
    rw [tokenize_eq]
    unfold tokenize_from
    obtain ⟨e, he⟩ := tokenize_loop_invalid input tokenize_init h
    rw [he]
    exact ⟨e, rfl⟩
  · intro input toks h
    rw [tokenize_eq] at h
    unfold tokenize_from at h
    cases hl : tokenize_loop input tokenize_init with
    | error e1 => rw [hl] at h; cases h
    | ok s =>
      rw [hl] at h
      rw [operator_kinds_flush s toks h, operator_kinds_loop input _ s hl]
      rfl

theorem with_implicit_one_space (toks1 : List token) : with_implicit_one ' ' toks1 = toks1 := by
  unfold with_implicit_one
  rw [if_neg]
  rintro ⟨h, _⟩
  exact absurd h (by decide)

/-- The loop body on a space closes a pending digit run and adds no other token. -/
theorem tokenize_step_space (s : tokenize_state) :
    tokenize_step s ' ' =
      match flush s with
      | .error e => .error e
      | .ok toks1 =>
        .ok { on_digit := false, tok := (if s.on_digit then [] else s.tok), toks := toks1 } := by
  rw [tokenize_step_other s ' ' (by decide)]
  cases flush s with
  | error e => rfl
  | ok toks1 =>
    show push_char ' ' _ toks1 = _
    unfold push_char
    rw [if_neg (by simp), with_implicit_one_space]

/-- Outside a digit run the loop body does not depend on the flag `on_digit`. -/
theorem tokenize_step_flag (c : Char) (toks : List token) :
    tokenize_step { on_digit := true, tok := [], toks := toks } c
      = tokenize_step { on_digit := false, tok := [], toks := toks } c := by
  cases hd : is_digit c with
  | true => rw [tokenize_step_digit _ c hd, tokenize_step_digit _ c hd]; rfl
  | false =>
    rw [tokenize_step_other _ c hd, tokenize_step_other _ c hd, flush_empty, flush_empty]
    rfl

theorem tokenize_from_flag (q : List Char) (toks : List token) :
    tokenize_from { on_digit := true, tok := [], toks := toks } q
      = tokenize_from { on_digit := false, tok := [], toks := toks } q := by
  cases q with
  | nil => rfl
  | cons c cs => rw [tokenize_from_cons, tokenize_from_cons, tokenize_step_flag]

/-- Behind a closed digit run the loop body on a character that is no digit is the loop body
from the state with the run closed. -/
theorem tokenize_step_closed (s : tokenize_state) (c : Char) (hd : is_digit c = false)
    (hs : TokInv s) :
    tokenize_step s c =
      match flush s with
      | .error e => .error e
      | .ok toks1 => tokenize_step { on_digit := false, tok := [], toks := toks1 } c := by
  have htok : (if s.on_digit then [] else s.tok) = ([] : List Char) := by
    cases ho : s.on_digit
    · simp [hs.1 ho]
    · simp
  rw [tokenize_step_other s c hd, htok]
  cases flush s with
  | error e => rfl
  | ok toks1 =>
    show _ = tokenize_step { on_digit := false, tok := [], toks := toks1 } c
    rw [tokenize_step_other _ c hd, flush_empty]
    rfl

/-- A space in front of the unread characters `q` changes nothing, unless it splits a digit
run. -/
theorem tokenize_from_space (s : tokenize_state) (q : List Char) (hs : TokInv s)
    (h : ¬ ((s.on_digit = true ∧ s.tok ≠ []) ∧ ∃ c ∈ q.head?, is_digit c = true)) :
    tokenize_from s (' ' :: q) = tokenize_from s q := by
  rw [tokenize_from_cons, tokenize_step_space]
  have htok : (if s.on_digit then [] else s.tok) = ([] : List Char) := by
    cases ho : s.on_digit
    · simp [hs.1 ho]
    · simp
  rw [htok]
  by_cases hrun : s.on_digit = true ∧ s.tok ≠ []
  · have hq : ∀ c ∈ q.head?, is_digit c = false := by
      intro c hc
      cases hd : is_digit c
      · rfl
      · exact absurd ⟨hrun, c, hc, hd⟩ h
    cases q with
    | nil =>
      show _ = flush s
      cases flush s with
      | error e => rfl
      | ok toks1 => rfl
    | cons c cs =>
      rw [tokenize_from_cons c cs s, tokenize_step_closed s c (hq c (by simp)) hs]
      cases flush s with
      | error e => rfl
      | ok toks1 =>
        show tokenize_from _ (c :: cs) = _
        rw [tokenize_from_cons]
  · have hempty : s.tok = [] := by
      cases ho : s.on_digit
      · exact hs.1 ho
      · by_contra hne
        exact hrun ⟨ho, hne⟩
    obtain ⟨od, tok, toks⟩ := s
    simp only at hempty
    subst hempty
    rw [flush_empty]
    show tokenize_from _ q = _
    cases od
    · rfl
    · exact (tokenize_from_flag q toks).symm

/-- C15: a space between `p` and `q` does not change what `tokenize` returns or throws, unless
`p` ends in a digit and `q` starts with a digit; in particular a space at either end of the
input changes nothing. -/
theorem C15_space_ignored (p q : List Char)
    (h : ¬ ((∃ c ∈ p.getLast?, is_digit c = true) ∧ ∃ c ∈ q.head?, is_digit c = true)) :
    tokenize (p ++ ' ' :: q) = tokenize (p ++ q) ∧
    tokenize (' ' :: q) = tokenize q ∧
    tokenize (p ++ [' ']) = tokenize p := by
  have main : ∀ p q : List Char,
      ¬ ((∃ c ∈ p.getLast?, is_digit c = true) ∧ ∃ c ∈ q.head?, is_digit c = true) →
      tokenize (p ++ ' ' :: q) = tokenize (p ++ q) := by
    intro p q h
    rw [tokenize_eq, tokenize_eq, tokenize_from_append, tokenize_from_append]
    cases hl : tokenize_loop p tokenize_init with
    | error e => rfl
    | ok s =>
      obtain ⟨hinv, hiff⟩ := tokenize_loop_last p s hl
      exact tokenize_from_space s q hinv (fun hc => h ⟨hiff.2 hc.1, hc.2⟩)
  refine ⟨main p q h, ?_, ?_⟩
  · exact main [] q (by simp)
  · have := main p [] (by simp)
    rw [List.append_nil] at this
    exact this

theorem C15_space_ignored_witness :
    tokenize ("2".toList ++ ' ' :: "d6".toList) = tokenize ("2".toList ++ "d6".toList) ∧
    tokenize (' ' :: "d6".toList) = tokenize "d6".toList ∧
    tokenize ("2".toList ++ [' ']) = tokenize "2".toList :=
  C15_space_ignored "2".toList "d6".toList (by decide)

theorem tokenize_loop_digits : ∀ (d tok : List Char) (toks : List token),
    (∀ c ∈ d, is_digit c = true) →
    tokenize_loop d { on_digit := true, tok := tok, toks := toks }
      = .ok { on_digit := true, tok := tok ++ d, toks := toks } := by
  intro d
  induction d with
  | nil => intro tok toks _; simp [tokenize_loop]
  | cons c cs ih =>
    intro tok toks h
    simp only [tokenize_loop]
    rw [tokenize_step_digit _ c (h c (List.mem_cons_self _ _))]
    simp only [if_true]
    rw [ih _ _ (fun x hx => h x (List.mem_cons_of_mem _ hx))]
    simp

/-- C16: for digit runs `a` and `b` that are not empty and that `std::stoi` converts to `va`
and `vb`, the string `a`, space, `b` is tokenized to the two number tokens `va` and `vb`, and
the constructor throws the `std::runtime_error` "bad expression string"; so it is for the
input `1 2`. -/
theorem C16_two_numbers (a b : List Char) (va vb : Int)
    (ha : ∀ c ∈ a, is_digit c = true) (hb : ∀ c ∈ b, is_digit c = true)
    (hane : a ≠ []) (hbne : b ≠ []) (hva : stoi a = .ok va) (hvb : stoi b = .ok vb) :
    tokenize (a ++ ' ' :: b) = .ok [⟨.number, va⟩, ⟨.number, vb⟩] ∧
    valid_ops [⟨.number, va⟩, ⟨.number, vb⟩] = false ∧
    construct (a ++ ' ' :: b) = .error .bad_expression_string ∧
    Err.recoverable .bad_expression_string = true ∧
    tokenize "1 2".toList = .ok [⟨.number, 1⟩, ⟨.number, 2⟩] ∧
    construct "1 2".toList = .error .bad_expression_string := by
  have htok : tokenize (a ++ ' ' :: b) = .ok [⟨.number, va⟩, ⟨.number, vb⟩] := by
    rw [tokenize_eq, tokenize_from_append]
    unfold tokenize_init
    rw [tokenize_loop_digits a [] [] ha]
    simp only [List.nil_append]
    rw [tokenize_from_cons, tokenize_step_space]
    have hf : flush { on_digit := true, tok := a, toks := [] }
        = .ok [⟨.number, va⟩] := by
      unfold flush
      rw [if_pos ⟨rfl, hane⟩, hva]
      rfl
    rw [hf]
    simp only [if_true]
    obtain ⟨c, cs, rfl⟩ : ∃ c cs, b = c :: cs := by
      cases b with
      | nil => exact absurd rfl hbne
      | cons c cs => exact ⟨c, cs, rfl⟩
    unfold tokenize_from
    simp only [tokenize_loop]
    rw [tokenize_step_digit _ c (hb c (List.mem_cons_self _ _))]
    simp only [Bool.false_eq_true, if_false, List.nil_append]
    rw [tokenize_loop_digits cs [c] _ (fun x hx => hb x (List.mem_cons_of_mem _ hx))]
    show tokenize_finish { on_digit := true, tok := c :: cs, toks := _ } = _
    unfold tokenize_finish
    rw [if_pos ⟨rfl, by simp⟩, hvb]
    rfl
  refine ⟨htok, rfl, ?_, rfl, rfl, rfl⟩
  unfold construct
  rw [htok]
  rfl

theorem C16_two_numbers_witness :
    tokenize ("12".toList ++ ' ' :: "034".toList) = .ok [⟨.number, 12⟩, ⟨.number, 34⟩] ∧
    construct ("12".toList ++ ' ' :: "034".toList) = .error .bad_expression_string :=
  ⟨(C16_two_numbers "12".toList "034".toList 12 34 (by decide) (by decide) (by decide)
      (by decide) rfl rfl).1,
    (C16_two_numbers "12".toList "034".toList 12 34 (by decide) (by decide) (by decide)
      (by decide) rfl rfl).2.2.1⟩

/-! ## The input grammar -/

theorem ops_loop_operator (o : token) (rest : List token)
    (h : o.type ≠ .number ∧ o.type ≠ .lparen ∧ o.type ≠ .rparen) :
    ops_loop (o :: rest) false = ops_loop rest true := by
  simp [ops_loop, h.1, h.2.1, h.2.2]

theorem balanced_loop_plain (o : token) (rest : List token) (d : Int) (f : Bool) (hd : 0 ≤ d)
    (h : o.type ≠ .lparen ∧ o.type ≠ .rparen ∧ o.type ≠ .x) :
    balanced_loop (o :: rest) d f = balanced_loop rest d f := by
  have hs : depth_step o = 0 := by simp [depth_step, h.1, h.2.1]
  rw [balanced_loop_cons, hs, add_zero, if_neg (by omega), if_neg h.2.2]

theorem passes_number (t : token) (ht : t.type = .number) : PassesAsValue [t] := by
  constructor
  · intro rest
    simp [ops_loop, ht]
  · intro rest d f hd
    exact balanced_loop_plain t rest d f hd (by rw [ht]; exact ⟨by decide, by decide, by decide⟩)

theorem passes_paren (l c : token) (b : List token) (hl : l.type = .lparen)
    (hc : c.type = .rparen) (hb : PassesAsValue b) : PassesAsValue (l :: (b ++ [c])) := by
  have happ : ∀ rest : List token, l :: (b ++ [c]) ++ rest = l :: (b ++ (c :: rest)) := by
    intro rest; simp
  constructor
  · intro rest
    rw [happ]
    have h1 : ops_loop (l :: (b ++ c :: rest)) true = ops_loop (b ++ c :: rest) true := by
      simp [ops_loop, hl]
    rw [h1, hb.1]
    simp [ops_loop, hc]
  · intro rest d f hd
    rw [happ]
    have hs1 : depth_step l = 1 := by simp [depth_step, hl]
    have hs2 : depth_step c = -1 := by simp [depth_step, hc]
    have hx1 : l.type ≠ .x := by rw [hl]; decide
    have hx2 : c.type ≠ .x := by rw [hc]; decide
    rw [balanced_loop_cons, hs1, if_neg (by omega), if_neg hx1, hb.2 _ _ _ (by omega),
      balanced_loop_cons, hs2, if_neg (by omega), if_neg hx2]
    congr 1
    omega

theorem passes_binary (o : token) (a b : List token) (ho : plain_operator o)
    (ha : PassesAsValue a) (hb : PassesAsValue b) : PassesAsValue (a ++ o :: b) := by
  have happ : ∀ rest : List token, a ++ o :: b ++ rest = a ++ (o :: (b ++ rest)) := by
    intro rest; simp
  constructor
  · intro rest
    rw [happ, ha.1, ops_loop_operator o _ ⟨ho.1, ho.2.1, ho.2.2.1⟩, hb.1]
  · intro rest d f hd
    rw [happ, ha.2 _ _ _ hd, balanced_loop_plain o _ d f hd ⟨ho.2.1, ho.2.2.1, ho.2.2.2⟩,
      hb.2 _ _ _ hd]

theorem plain_of_type {o : token} {k : token_t} (h : o.type = k)
    (hk : k ≠ .number ∧ k ≠ .lparen ∧ k ≠ .rparen ∧ k ≠ .x) : plain_operator o := by
  unfold plain_operator
  rw [h]
  exact hk

theorem plain_of_mul {o : token} (h : is_mul o.type = true) : plain_operator o := by
  rcases is_mul_cases h with h | h | h <;>
    exact plain_of_type h ⟨by decide, by decide, by decide, by decide⟩

theorem plain_of_add {o : token} (h : is_add o.type = true) : plain_operator o := by
  rcases is_add_cases h with h | h <;>
    exact plain_of_type h ⟨by decide, by decide, by decide, by decide⟩

/-- Every sequence derived as an atom, a factor, a term or a body passes as one value. -/
theorem gram_passes {k : Nat} {ts : List token} (h : Gram k ts) (hk : k ≤ 3) :
    PassesAsValue ts := by
  induction h with
  | num t ht => exact passes_number t ht
  | paren l c b hl hc _ ih => exact passes_paren l c b hl hc (ih (by omega))
  | factor_of_atom a _ ih => exact ih (by omega)
  | dice d a b hd _ _ ih1 ih2 =>
    exact passes_binary d a b
      (plain_of_type hd ⟨by decide, by decide, by decide, by decide⟩) (ih1 (by omega))
      (ih2 (by omega))
  | dice_choose d c a b k hd hc _ _ _ ih1 ih2 ih3 =>
    exact passes_binary d a (b ++ c :: k)
      (plain_of_type hd ⟨by decide, by decide, by decide, by decide⟩) (ih1 (by omega))
      (passes_binary c b k (plain_of_type hc ⟨by decide, by decide, by decide, by decide⟩)
        (ih2 (by omega)) (ih3 (by omega)))
  | term_of_factor f _ ih => exact ih (by omega)
  | mul o t f ho _ _ ih1 ih2 =>
    exact passes_binary o t f (plain_of_mul ho) (ih1 (by omega)) (ih2 (by omega))
  | body_of_term t _ ih => exact ih (by omega)
  | add o b t ho _ _ ih1 ih2 =>
    exact passes_binary o b t (plain_of_add ho) (ih1 (by omega)) (ih2 (by omega))
  | expr_of_body b _ _ => omega
  | rep m count b _ _ _ _ _ => omega

theorem valid_ops_of_loops (toks : List token) (h1 : balanced_loop toks 0 false = true)
    (h2 : ops_loop toks true = true) : valid_ops toks = true := by
  unfold valid_ops balanced_parens
  rw [h1]
  simpa using h2

/-- C17: every token sequence derived from the input grammar, with the count in front of the
repeat-marker read as a body and the left operand of a dice operator written out, is accepted
by `valid_ops`; so the constructor succeeds on every input that `tokenize` turns into such a
sequence, for instance on `2xd6`. -/
theorem C17_grammar_accepted (toks : List token) (h : Gram 4 toks) :
    valid_ops toks = true ∧
    (∀ arg : List Char, tokenize arg = .ok toks → construct arg = .ok toks) ∧
    construct "2xd6".toList
      = .ok [⟨.number, 2⟩, ⟨.x, 0⟩, ⟨.number, 1⟩, ⟨.dice, 0⟩, ⟨.number, 6⟩] := by
  have hv : valid_ops toks = true := by
    cases h with
    | expr_of_body b hb =>
      have hp := gram_passes hb (le_refl _)
      apply valid_ops_of_loops
      · have := hp.2 [] 0 false (le_refl _)
        rw [List.append_nil] at this
        rw [this]
        rfl
      · have := hp.1 []
        rw [List.append_nil] at this
        rw [this]
        rfl
    | rep m count b hm hc hb =>
      have hpc := gram_passes hc (le_refl _)
      have hpb := gram_passes hb (le_refl _)
      have hb1 := hpb.2 [] 0 true (le_refl _)
      have hb2 := hpb.1 []
      rw [List.append_nil] at hb1 hb2
      apply valid_ops_of_loops
      · have hs : depth_step m = 0 := by simp [depth_step, hm]
        rw [hpc.2 _ 0 false (le_refl _), balanced_loop_cons, hs, if_neg (by omega), if_pos hm]
        simp only [add_zero, Bool.not_false, decide_True, Bool.and_self, if_true]
        rw [hb1]
        rfl
      · rw [hpc.1, ops_loop_operator m b (by rw [hm]; exact ⟨by decide, by decide, by decide⟩),
          hb2]
        rfl
  refine ⟨hv, ?_, rfl⟩
  intro arg harg
  unfold construct
  rw [harg]
  simp [hv]

theorem C17_grammar_accepted_witness :
    valid_ops [⟨.number, 2⟩, ⟨.x, 0⟩, ⟨.number, 1⟩, ⟨.dice, 0⟩, ⟨.number, 6⟩] = true :=
  (C17_grammar_accepted ([⟨.number, 2⟩] ++ ⟨.x, 0⟩ :: ([⟨.number, 1⟩] ++ ⟨.dice, 0⟩ :: [⟨.number, 6⟩]))
    (Gram.rep ⟨.x, 0⟩ [⟨.number, 2⟩] _ rfl
      (Gram.body_of_term _ (Gram.term_of_factor _ (Gram.factor_of_atom _
        (Gram.num ⟨.number, 2⟩ rfl))))
      (Gram.body_of_term _ (Gram.term_of_factor _
        (Gram.dice ⟨.dice, 0⟩ [⟨.number, 1⟩] [⟨.number, 6⟩] rfl (Gram.num ⟨.number, 1⟩ rfl)
          (Gram.num ⟨.number, 6⟩ rfl)))))).1

/-! ## The evaluation of a validated sequence -/

theorem ops_loop_cons_iff (t : token) (l : List token) (e : Bool) :
    ops_loop (t :: l) e = true ↔ (ops_ok t e ∧ ops_loop l (ops_next t) = true) := by
  unfold ops_ok ops_next
  cases e
  · simp only [ops_loop, Bool.false_eq_true, if_false]
    by_cases h1 : t.type = .number
    · simp [h1]
    · by_cases h2 : t.type = .lparen
      · simp [h2]
      · by_cases h3 : t.type = .rparen
        · simp [h3]
        · simp [h1, h2, h3]
  · simp only [ops_loop, if_true]
    by_cases h1 : t.type = .number
    · simp [h1]
    · by_cases h2 : t.type = .lparen
      · simp [h2]
      · simp [h1, h2]

theorem state_after_nil (e : Bool) : state_after [] e = e := rfl

theorem state_after_cons (t : token) (X : List token) (e : Bool) :
    state_after (t :: X) e = state_after X (ops_next t) := by
  cases X with
  | nil => rfl
  | cons u X =>
    unfold state_after
    rw [List.getLast?_cons_cons, List.getLast?_eq_getLast _ (List.cons_ne_nil u X)]

theorem state_after_snoc (X : List token) (a : token) (e : Bool) :
    state_after (X ++ [a]) e = ops_next a := by
  simp [state_after]

/-- The loop accepts the rest of an accepted sequence from the flag behind its front part. -/
theorem ops_loop_rest : ∀ (X Y : List token) (e : Bool), ops_loop (X ++ Y) e = true →
    ops_loop Y (state_after X e) = true := by
  intro X
  induction X with
  | nil => intro Y e h; exact h
  | cons t X ih =>
    intro Y e h
    rw [state_after_cons]
    exact ih Y _ ((ops_loop_cons_iff t _ e).1 h).2

/-- The rest of an accepted sequence can be replaced by any sequence accepted from the same
flag. -/
theorem ops_loop_replace : ∀ (X Y Z : List token) (e : Bool), ops_loop (X ++ Y) e = true →
    ops_loop Z (state_after X e) = true → ops_loop (X ++ Z) e = true := by
  intro X
  induction X with
  | nil => intro Y Z e _ h; exact h
  | cons t X ih =>
    intro Y Z e h hz
    rw [state_after_cons] at hz
    obtain ⟨h1, h2⟩ := (ops_loop_cons_iff t _ e).1 h
    exact (ops_loop_cons_iff t _ e).2 ⟨h1, ih Y Z _ h2 hz⟩

/-- The front part of an accepted sequence is accepted by itself when a value stands at its
end. -/
theorem ops_loop_front (X Y : List token) (e : Bool) (h : ops_loop (X ++ Y) e = true)
    (hs : state_after X e = false) : ops_loop X e = true := by
  have := ops_loop_replace X Y [] e h (by rw [hs]; rfl)
  rwa [List.append_nil] at this

theorem ops_next_number {t : token} (h : t.type = .number) : ops_next t = false := by
  simp [ops_next, h]

theorem ops_next_operator {t : token} (h1 : t.type ≠ .number) (h2 : t.type ≠ .rparen) :
    ops_next t = true := by
  simp [ops_next, h1, h2]

/-- In front of an operator of an accepted sequence without parentheses stands a number. -/
theorem ops_loop_before_operator (X : List token) (o : token) (Y : List token)
    (h : ops_loop (X ++ o :: Y) true = true) (ho : o.type ≠ .number ∧ o.type ≠ .lparen ∧
      o.type ≠ .rparen)
    (hX : ∀ t ∈ X, t.type ≠ .rparen) :
    (∃ (X1 : List token) (a : token), X = X1 ++ [a] ∧ a.type = .number) ∧
      ops_loop Y true = true := by
  have h1 := ops_loop_rest X (o :: Y) true h
  obtain ⟨k1, k2⟩ := (ops_loop_cons_iff o Y _).1 h1
  rw [ops_next_operator ho.1 ho.2.2] at k2
  refine ⟨?_, k2⟩
  rcases List.eq_nil_or_concat X with hx | ⟨X1, a, hx⟩
  · subst hx
    rw [state_after_nil] at k1
    simp only [ops_ok, if_true] at k1
    rcases k1 with k1 | k1
    · exact absurd k1 ho.1
    · exact absurd k1 ho.2.1
  · subst hx
    rw [List.concat_eq_append] at k1 hX ⊢
    rw [state_after_snoc] at k1
    refine ⟨X1, a, rfl, ?_⟩
    have ha : a.type ≠ .rparen := hX a (by simp)
    by_contra hn
    rw [ops_next_operator hn ha] at k1
    simp only [ops_ok, if_true] at k1
    rcases k1 with k1 | k1
    · exact absurd k1 ho.1
    · exact absurd k1 ho.2.1

/-- Behind an operator of an accepted sequence without parentheses stands a number. -/
theorem ops_loop_value (Y : List token) (h : ops_loop Y true = true)
    (hY : ∀ t ∈ Y, t.type ≠ .lparen) :
    ∃ (n : token) (Y1 : List token), Y = n :: Y1 ∧ n.type = .number ∧
      ops_loop Y1 false = true := by
  cases Y with
  | nil => simp [ops_loop] at h
  | cons n Y1 =>
    obtain ⟨k1, k2⟩ := (ops_loop_cons_iff n Y1 true).1 h
    simp only [ops_ok, if_true] at k1
    rcases k1 with k1 | k1
    · rw [ops_next_number k1] at k2
      exact ⟨n, Y1, rfl, k1, k2⟩
    · exact absurd k1 (hY n (List.mem_cons_self _ _))

/-- Behind a value of an accepted sequence without parentheses the sequence ends or an
operator stands. -/
theorem ops_loop_operator_next (Y : List token) (h : ops_loop Y false = true)
    (hY : ∀ t ∈ Y, t.type ≠ .rparen) :
    Y = [] ∨ ∃ (o : token) (Y1 : List token), Y = o :: Y1 ∧
      (o.type ≠ .number ∧ o.type ≠ .lparen ∧ o.type ≠ .rparen) ∧ ops_loop Y1 true = true := by
  cases Y with
  | nil => exact Or.inl rfl
  | cons o Y1 =>
    obtain ⟨k1, k2⟩ := (ops_loop_cons_iff o Y1 false).1 h
    simp only [ops_ok, Bool.false_eq_true, if_false] at k1
    have hr := hY o (List.mem_cons_self _ _)
    rw [ops_next_operator k1.1 hr] at k2
    exact Or.inr ⟨o, Y1, rfl, ⟨k1.1, k1.2, hr⟩, k2⟩

theorem depth_step_rparen {t : token} (h : t.type = .rparen) : depth_step t = -1 := by
  simp [depth_step, h]

theorem depth_step_lparen {t : token} (h : t.type = .lparen) : depth_step t = 1 := by
  simp [depth_step, h]

theorem depth_step_other {t : token} (h1 : t.type ≠ .lparen) (h2 : t.type ≠ .rparen) :
    depth_step t = 0 := by
  simp [depth_step, h1, h2]

theorem depth_step_ge {t : token} (h : t.type ≠ .rparen) : 0 ≤ depth_step t := by
  by_cases h1 : t.type = .lparen
  · rw [depth_step_lparen h1]; decide
  · rw [depth_step_other h1 h]

/-- One step of the search for the matching closing parenthesis, by the depth behind the
token. -/
theorem find_pair_step (k : Int) (t : token) (rest : List token) :
    find_pair k (t :: rest) =
      if t.type = .rparen ∧ k + depth_step t = 0 then some ([], rest)
      else (find_pair (k + depth_step t) rest).map fun q => (t :: q.1, q.2) := by
  rw [find_pair_cons]
  by_cases hr : t.type = .rparen
  · have hl : t.type ≠ .lparen := by rw [hr]; decide
    rw [if_pos hr, if_neg hl, depth_step_rparen hr]
    have e : k - 1 = k + -1 := by omega
    rw [e]
    by_cases h0 : k + -1 = 0
    · rw [if_pos h0, if_pos ⟨hr, h0⟩]
    · rw [if_neg h0, if_neg (fun h => h0 h.2)]
      cases find_pair (k + -1) rest with
      | none => rfl
      | some q => rfl
  · have hn : ¬(t.type = .rparen ∧ k + depth_step t = 0) := fun h => hr h.1
    rw [if_neg hr, if_neg hn]
    by_cases hl : t.type = .lparen
    · rw [if_pos hl, depth_step_lparen hl]
      cases find_pair (k + 1) rest with
      | none => rfl
      | some q => rfl
    · rw [if_neg hl, depth_step_other hl hr, Int.add_zero]
      cases find_pair k rest with
      | none => rfl
      | some q => rfl

/-- One step of the depth loop of `balanced_parens` on an accepted sequence. -/
theorem balanced_loop_step (t : token) (rest : List token) (d : Int) (f : Bool)
    (h : balanced_loop (t :: rest) d f = true) :
    0 ≤ d + depth_step t ∧ (t.type = .x → f = false ∧ d + depth_step t = 0) ∧
      balanced_loop rest (d + depth_step t) (f || decide (t.type = .x)) = true := by
  rw [balanced_loop_cons] at h
  by_cases h0 : d + depth_step t < 0
  · rw [if_pos h0] at h; cases h
  · rw [if_neg h0] at h
    by_cases hx : t.type = .x
    · rw [if_pos hx] at h
      cases f
      · by_cases hd : d + depth_step t = 0
        · simp only [hd, Bool.not_false, decide_True, Bool.and_self, if_true] at h
          refine ⟨by omega, fun _ => ⟨rfl, hd⟩, ?_⟩
          simp [hx, hd, h]
        · simp [hd] at h
      · simp at h
    · rw [if_neg hx] at h
      refine ⟨by omega, fun h1 => absurd h1 hx, ?_⟩
      simp [hx, h]

/-- The depth loop accepts a token that is no repeat marker and keeps the depth at least
zero, when it accepts the rest. -/
theorem balanced_loop_push (t : token) (rest : List token) (d : Int) (f : Bool)
    (h0 : 0 ≤ d + depth_step t) (hx : t.type ≠ .x)
    (h : balanced_loop rest (d + depth_step t) f = true) :
    balanced_loop (t :: rest) d f = true := by
  rw [balanced_loop_cons, if_neg (by omega), if_neg hx]
  exact h

/-- In a sequence that the validator accepts, the search started behind an opening
parenthesis finds the matching closing one: the tokens in between are accepted on their own
and so are the tokens behind it. -/
theorem find_pair_match : ∀ (rest : List token) (k D : Int) (e f : Bool), 1 ≤ k → 0 ≤ D →
    balanced_loop rest (D + k) f = true → ops_loop rest e = true →
    ∃ (inner : List token) (c : token) (after : List token),
      find_pair k rest = some (inner, after) ∧ rest = inner ++ c :: after ∧
      c.type = .rparen ∧ balanced_loop inner (k - 1) true = true ∧
      ops_loop inner e = true ∧ balanced_loop after D f = true ∧
      ops_loop after false = true := by
  intro rest
  induction rest with
  | nil =>
    intro k D e f hk hD hb _
    simp only [balanced_loop, decide_eq_true_eq] at hb
    omega
  | cons t rest ih =>
    intro k D e f hk hD hb ho
    obtain ⟨b1, b2, b3⟩ := balanced_loop_step t rest _ f hb
    obtain ⟨o1, o2⟩ := (ops_loop_cons_iff t rest e).1 ho
    have hx : t.type ≠ .x := by
      intro hx
      have := (b2 hx).2
      have : depth_step t = 0 := depth_step_other (by rw [hx]; decide) (by rw [hx]; decide)
      omega
    have hf : (f || decide (t.type = .x)) = f := by simp [hx]
    rw [hf] at b3
    rw [find_pair_step]
    by_cases hc : t.type = .rparen ∧ k + depth_step t = 0
    · rw [if_pos hc]
      have e0 : e = false := by
        cases e
        · rfl
        · simp only [ops_ok, if_true] at o1
          rcases o1 with o1 | o1
          · rw [hc.1] at o1; cases o1
          · rw [hc.1] at o1; cases o1
      have hn : ops_next t = false := by simp [ops_next, hc.1]
      have hk1 : k - 1 = 0 := by
        have := hc.2
        rw [depth_step_rparen hc.1] at this
        omega
      refine ⟨[], t, rest, rfl, rfl, hc.1, ?_, ?_, ?_, ?_⟩
      · rw [hk1]; rfl
      · rw [e0]; rfl
      · have e1 : D + k + depth_step t = D := by have := hc.2; omega
        rw [e1] at b3
        exact b3
      · rw [hn] at o2
        exact o2
    · rw [if_neg hc]
      have hk2 : 1 ≤ k + depth_step t := by
        by_cases hr : t.type = .rparen
        · have h1 : k + depth_step t ≠ 0 := fun h => hc ⟨hr, h⟩
          rw [depth_step_rparen hr] at h1 ⊢
          omega
        · have := depth_step_ge hr
          omega
      have e1 : D + k + depth_step t = D + (k + depth_step t) := by omega
      rw [e1] at b3
      obtain ⟨inner, c, after, h1, h2, h3, h4, h5, h6, h7⟩ :=
        ih (k + depth_step t) D (ops_next t) f hk2 hD b3 o2
      refine ⟨t :: inner, c, after, ?_, ?_, h3, ?_, ?_, h6, h7⟩
      · rw [h1]; rfl
      · rw [h2]; rfl
      · apply balanced_loop_push _ _ _ _ (by omega) hx
        have e2 : k - 1 + depth_step t = k + depth_step t - 1 := by omega
        rw [e2]
        exact h4
      · exact (ops_loop_cons_iff t inner e).2 ⟨o1, h5⟩

/-- The call `apply_operator` on two number operands, when the token behind the second one is
not the choose of a dice operator: the operator with its operands is replaced by the result
of `do_binary_op`. -/
theorem apply_operator_plain (r : Nat → Nat) (a1 it n : token) (pre0 Y1 : List token) (p : Nat)
    (h1 : a1.type = .number) (h2 : n.type = .number)
    (h3 : ∀ c ∈ Y1.head?, ¬(it.type = .dice ∧ c.type = .choose)) :
    apply_operator r (a1 :: pre0) (it :: n :: Y1) p =
      (do_binary_op r it.type a1.value n.value p).map
        fun q => ({ type := .number, value := q.1 } :: pre0, Y1, q.2) := by
  obtain ⟨ty, val⟩ := a1
  simp only at h1
  subst h1
  cases Y1 with
  | nil =>
    simp only [apply_operator, ne_eq, not_true_eq_false, if_false, h2]
    cases do_binary_op r it.type val n.value p with
    | error e => rfl
    | ok q => rfl
  | cons c Y2 =>
    have h4 : ¬(it.type = .dice ∧ c.type = .choose) := h3 c (by simp)
    simp only [apply_operator, ne_eq, not_true_eq_false, if_false, h2, h4]
    cases do_binary_op r it.type val n.value p with
    | error e => rfl
    | ok q => rfl

/-- The call `apply_operator` on a dice operator followed by a choose: the five tokens are
replaced by the result of `roll_choose`. -/
theorem apply_operator_choose (r : Nat → Nat) (a1 it n c k : token) (pre0 Y3 : List token)
    (p : Nat) (h1 : a1.type = .number) (h2 : n.type = .number) (h3 : it.type = .dice)
    (h4 : c.type = .choose) :
    apply_operator r (a1 :: pre0) (it :: n :: c :: k :: Y3) p =
      (roll_choose r a1.value n.value k.value p).map
        fun q => ({ type := .number, value := q.1 } :: pre0, Y3, q.2) := by
  obtain ⟨ty, val⟩ := a1
  simp only at h1
  subst h1
  simp only [apply_operator, ne_eq, not_true_eq_false, if_false, h2, h3, h4, and_self, if_true]
  cases roll_choose r val n.value k.value p with
  | error e => rfl
  | ok q => rfl

theorem throws_map {α β : Type} (E : Err → Bool) (res : Except Err α) (f : α → β)
    (h : Throws E res) : Throws E (res.map f) := by
  intro e he
  cases res with
  | error e1 =>
    have : e1 = e := by
      simp only [Except.map] at he
      exact Except.error.inj he
    exact h e (by rw [this])
  | ok a => simp [Except.map] at he

theorem map_ok_inv {α β : Type} (res : Except Err α) (f : α → β) (b : β)
    (h : res.map f = .ok b) : ∃ a, res = .ok a ∧ f a = b := by
  cases res with
  | error e => simp [Except.map] at h
  | ok a =>
    simp only [Except.map] at h
    exact ⟨a, rfl, Except.ok.inj h⟩

/-- The call `apply_operator` at an operator of an accepted sequence without parentheses:
both operands are numbers, the only exceptions are those of the operation, and the shorter
sequence that results is accepted again. -/
theorem apply_operator_good (r : Nat → Nat) (E : Err → Bool) (pre : List token) (it : token)
    (rest : List token) (p : Nat)
    (hop : it.type ≠ .number ∧ it.type ≠ .lparen ∧ it.type ≠ .rparen)
    (hbin : ∀ a b q, Throws E (do_binary_op r it.type a b q))
    (hch : it.type = .dice → ∀ a b c q, Throws E (roll_choose r a b c q))
    (hv : ops_loop (pre.reverse ++ it :: rest) true = true)
    (hp : ∀ t ∈ pre.reverse ++ it :: rest, t.type ≠ .lparen ∧ t.type ≠ .rparen) :
    Throws E (apply_operator r pre (it :: rest) p) ∧
      ∀ pre1 suf1 p1, apply_operator r pre (it :: rest) p = .ok (pre1, suf1, p1) →
        ∃ (a1 a2 : token) (pre0 mid : List token), pre = a1 :: pre0 ∧ pre1 = a2 :: pre0 ∧
          a2.type = .number ∧ rest = mid ++ suf1 ∧ mid ≠ [] ∧
          ops_loop (pre1.reverse ++ suf1) true = true := by
  obtain ⟨⟨X1, a1, hX, ha1⟩, hr⟩ := ops_loop_before_operator pre.reverse it rest hv hop
    (fun t ht => (hp t (List.mem_append_left _ ht)).2)
  have hpre : pre = a1 :: X1.reverse := by
    have := congrArg List.reverse hX
    simpa using this
  obtain ⟨n, Y1, hY, hn, hY1⟩ := ops_loop_value rest hr
    (fun t ht => (hp t (List.mem_append_right _ (List.mem_cons_of_mem _ ht))).1)
  subst hY
  have hY1p : ∀ t ∈ Y1, t.type ≠ .lparen ∧ t.type ≠ .rparen := fun t ht =>
    hp t (List.mem_append_right _ (List.mem_cons_of_mem _ (List.mem_cons_of_mem _ ht)))
  -- the sequence in front of the first operand ends where a value is expected
  have hv1 : ops_loop (X1 ++ a1 :: it :: n :: Y1) true = true := by
    rw [hX, List.append_assoc] at hv
    exact hv
  have hst : state_after X1 true = true := by
    have h1 := ops_loop_rest X1 _ true hv1
    have h2 := ((ops_loop_cons_iff a1 _ _).1 h1).1
    cases hs : state_after X1 true with
    | true => rfl
    | false =>
      rw [hs] at h2
      simp only [ops_ok, Bool.false_eq_true, if_false] at h2
      exact absurd ha1 h2.1
  have hnew : ∀ (v : Int) (suf1 : List token), ops_loop suf1 false = true →
      ops_loop (({ type := .number, value := v } :: X1.reverse : List token).reverse ++ suf1)
        true = true := by
    intro v suf1 hs
    rw [List.reverse_cons, List.reverse_reverse, List.append_assoc]
    apply ops_loop_replace X1 _ _ true hv1
    rw [hst]
    exact (ops_loop_cons_iff _ _ _).2 ⟨by simp [ops_ok], by rw [ops_next_number rfl]; exact hs⟩
  rw [hpre]
  by_cases hc : ∃ c Y2, Y1 = c :: Y2 ∧ it.type = .dice ∧ c.type = .choose
  · obtain ⟨c, Y2, hY, hd, hcc⟩ := hc
    subst hY
    have hY2 : ops_loop Y2 true = true := by
      have := ((ops_loop_cons_iff c Y2 false).1 hY1).2
      rwa [ops_next_operator (by rw [hcc]; decide) (by rw [hcc]; decide)] at this
    obtain ⟨k, Y3, hY, _, hY3⟩ := ops_loop_value Y2 hY2
      (fun t ht => (hY1p t (List.mem_cons_of_mem _ ht)).1)
    subst hY
    rw [apply_operator_choose r a1 it n c k _ Y3 p ha1 hn hd hcc]
    refine ⟨throws_map E _ _ (hch hd _ _ _ _), ?_⟩
    intro pre1 suf1 p1 h
    obtain ⟨q, _, hq⟩ := map_ok_inv _ _ _ h
    simp only [Prod.mk.injEq] at hq
    obtain ⟨q1, q2, _⟩ := hq
    subst q1 q2
    exact ⟨a1, _, X1.reverse, [n, c, k], rfl, rfl, rfl, rfl, by simp, hnew _ _ hY3⟩
  · have h3 : ∀ c ∈ Y1.head?, ¬(it.type = .dice ∧ c.type = .choose) := by
      intro c hcm hcc
      cases Y1 with
      | nil => simp at hcm
      | cons c1 Y2 =>
        simp only [List.head?_cons, Option.mem_def, Option.some.injEq] at hcm
        subst hcm
        exact hc ⟨c1, Y2, rfl, hcc⟩
    rw [apply_operator_plain r a1 it n _ Y1 p ha1 hn h3]
    refine ⟨throws_map E _ _ (hbin _ _ _), ?_⟩
    intro pre1 suf1 p1 h
    obtain ⟨q, _, hq⟩ := map_ok_inv _ _ _ h
    simp only [Prod.mk.injEq] at hq
    obtain ⟨q1, q2, _⟩ := hq
    subst q1 q2
    exact ⟨a1, _, X1.reverse, [n], rfl, rfl, rfl, rfl, by simp, hnew _ _ hY1⟩

/-- One operator loop of `evaluate_subtok` on an accepted sequence without parentheses: the
only exceptions are those of the operations of the loop, and the result is an accepted
sequence made of numbers and of the tokens that the loop passes over. -/
theorem tier_good (r : Nat → Nat) (E : Err → Bool) (sel thr : token_t → Bool)
    (hsel : ∀ k, sel k = true → k ≠ .number ∧ k ≠ .lparen ∧ k ≠ .rparen)
    (hbin : ∀ k a b q, sel k = true → Throws E (do_binary_op r k a b q))
    (hch : sel .dice = true → ∀ a b c q, Throws E (roll_choose r a b c q))
    (hthr : ∀ k, thr k = true → E .choose_without_dice = true) :
    ∀ (n : Nat) (pre suf : List token) (p : Nat), suf.length ≤ n →
      ops_loop (pre.reverse ++ suf) true = true →
      (∀ t ∈ pre.reverse ++ suf, t.type ≠ .lparen ∧ t.type ≠ .rparen) →
      Throws E (tier r sel thr pre suf p) ∧
        ∀ out p1, tier r sel thr pre suf p = .ok (out, p1) →
          ops_loop out true = true ∧
            ∀ t ∈ out, t.type = .number ∨ t ∈ pre ∨
              (t ∈ suf ∧ sel t.type = false ∧ thr t.type = false) := by
  intro n
  induction n with
  | zero =>
    intro pre suf p hl hv _
    have : suf = [] := List.length_eq_zero.1 (by omega)
    subst this
    rw [tier_nil]
    refine ⟨fun e he => (by cases he), ?_⟩
    intro out p1 h
    have h1 := Except.ok.inj h
    simp only [Prod.mk.injEq] at h1
    rw [← h1.1]
    rw [List.append_nil] at hv
    exact ⟨hv, fun t ht => Or.inr (Or.inl (List.mem_reverse.1 ht))⟩
  | succ n ih =>
    intro pre suf p hl hv hp
    cases suf with
    | nil =>
      rw [tier_nil]
      refine ⟨fun e he => (by cases he), ?_⟩
      intro out p1 h
      have h1 := Except.ok.inj h
      simp only [Prod.mk.injEq] at h1
      rw [← h1.1]
      rw [List.append_nil] at hv
      exact ⟨hv, fun t ht => Or.inr (Or.inl (List.mem_reverse.1 ht))⟩
    | cons it rest =>
      simp only [List.length_cons] at hl
      cases hs : sel it.type with
      | true =>
        obtain ⟨g1, g2⟩ := apply_operator_good r E pre it rest p (hsel _ hs)
          (fun a b q => hbin _ a b q hs) (fun hd => hch (by rw [← hd]; exact hs)) hv hp
        rw [tier_apply r sel thr pre it rest p hs]
        cases hap : apply_operator r pre (it :: rest) p with
        | error e =>
          refine ⟨?_, fun out p1 h => by cases h⟩
          intro e1 he1
          have : e = e1 := Except.error.inj he1
          exact g1 e1 (by rw [hap, this])
        | ok res =>
          obtain ⟨pre1, suf1, p1⟩ := res
          obtain ⟨a1, a2, pre0, mid, e1, e2, e3, e4, e5, e6⟩ := g2 pre1 suf1 p1 hap
          have hl1 : suf1.length ≤ n := by
            have := congrArg List.length e4
            rw [List.length_append] at this
            have : 0 < mid.length := List.length_pos.2 e5
            omega
          have hp1 : ∀ t ∈ pre1.reverse ++ suf1, t.type ≠ .lparen ∧ t.type ≠ .rparen := by
            intro t ht
            rcases List.mem_append.1 ht with ht | ht
            · rw [e2] at ht
              rcases List.mem_cons.1 (List.mem_reverse.1 ht) with ht | ht
              · rw [ht, e3]; exact ⟨by decide, by decide⟩
              · exact hp t (List.mem_append_left _ (List.mem_reverse.2 (by
                  rw [e1]; exact List.mem_cons_of_mem _ ht)))
            · exact hp t (List.mem_append_right _ (List.mem_cons_of_mem _ (by
                rw [e4]; exact List.mem_append_right _ ht)))
          obtain ⟨i1, i2⟩ := ih pre1 suf1 p1 hl1 e6 hp1
          refine ⟨i1, ?_⟩
          intro out p2 h
          obtain ⟨j1, j2⟩ := i2 out p2 h
          refine ⟨j1, ?_⟩
          intro t ht
          rcases j2 t ht with h1 | h1 | h1
          · exact Or.inl h1
          · rw [e2] at h1
            rcases List.mem_cons.1 h1 with h1 | h1
            · exact Or.inl (by rw [h1, e3])
            · exact Or.inr (Or.inl (by rw [e1]; exact List.mem_cons_of_mem _ h1))
          · exact Or.inr (Or.inr ⟨List.mem_cons_of_mem _ (by
              rw [e4]; exact List.mem_append_right _ h1.1), h1.2⟩)
      | false =>
        cases ht : thr it.type with
        | true =>
          rw [tier_throw r sel thr pre it rest p hs ht]
          refine ⟨?_, fun out p1 h => by cases h⟩
          intro e he
          have : Err.choose_without_dice = e := Except.error.inj he
          rw [← this]
          exact hthr _ ht
        | false =>
          rw [tier_skip r sel thr pre it rest p hs ht]
          have hv1 : ops_loop ((it :: pre).reverse ++ rest) true = true := by
            rw [List.reverse_cons, List.append_assoc]
            exact hv
          have hp1 : ∀ t ∈ (it :: pre).reverse ++ rest, t.type ≠ .lparen ∧ t.type ≠ .rparen := by
            rw [List.reverse_cons, List.append_assoc]
            exact hp
          obtain ⟨i1, i2⟩ := ih (it :: pre) rest p (by omega) hv1 hp1
          refine ⟨i1, ?_⟩
          intro out p2 h
          obtain ⟨j1, j2⟩ := i2 out p2 h
          refine ⟨j1, ?_⟩
          intro t htm
          rcases j2 t htm with h1 | h1 | h1
          · exact Or.inl h1
          · rcases List.mem_cons.1 h1 with h1 | h1
            · exact Or.inr (Or.inr ⟨by rw [h1]; exact List.mem_cons_self _ _, by rw [h1]; exact hs,
                by rw [h1]; exact ht⟩)
            · exact Or.inr (Or.inl h1)
          · exact Or.inr (Or.inr ⟨List.mem_cons_of_mem _ h1.1, h1.2⟩)

theorem balanced_loop_no_x : ∀ (s : List token) (d : Int), balanced_loop s d true = true →
    ∀ t ∈ s, t.type ≠ .x := by
  intro s
  induction s with
  | nil => intro d _ t ht; cases ht
  | cons u s ih =>
    intro d h t ht
    obtain ⟨_, b2, b3⟩ := balanced_loop_step u s d true h
    rw [Bool.true_or] at b3
    rcases List.mem_cons.1 ht with ht | ht
    · rw [ht]
      intro hx
      have := (b2 hx).1
      cases this
    · exact ih _ b3 t ht

/-- The first loop of `evaluate_subtok` on an accepted sequence, when the recursive calls on
the shorter accepted sequences throw operand exceptions only: it finds the partner of every
opening parenthesis, throws operand exceptions only, and leaves an accepted sequence without
parentheses. -/
theorem parens_good (r : Nat → Nat) (N : Nat)
    (hN : ∀ inner : List token, inner.length < N → Handed inner →
      ∀ p, Throws operand_failure (evaluate_subtok r inner p)) :
    ∀ (n : Nat) (s : List token) (e : Bool) (p : Nat), s.length ≤ n → s.length ≤ N →
      balanced_loop s 0 true = true → ops_loop s e = true →
      Throws operand_failure (parens r s p) ∧
        ∀ out p1, parens r s p = .ok (out, p1) → ops_loop out e = true ∧ plain out := by
  intro n
  induction n with
  | zero =>
    intro s e p hl _ _ ho
    have : s = [] := List.length_eq_zero.1 (by omega)
    subst this
    rw [parens_nil]
    refine ⟨fun e he => (by cases he), ?_⟩
    intro out p1 h
    have h1 := Except.ok.inj h
    simp only [Prod.mk.injEq] at h1
    rw [← h1.1]
    exact ⟨ho, fun t ht => (by cases ht)⟩
  | succ n ih =>
    intro s e p hl hlN hb ho
    cases s with
    | nil =>
      rw [parens_nil]
      refine ⟨fun e he => (by cases he), ?_⟩
      intro out p1 h
      have h1 := Except.ok.inj h
      simp only [Prod.mk.injEq] at h1
      rw [← h1.1]
      exact ⟨ho, fun t ht => (by cases ht)⟩
    | cons t rest =>
      simp only [List.length_cons] at hl hlN
      obtain ⟨b1, b2, b3⟩ := balanced_loop_step t rest 0 true hb
      rw [Bool.true_or, Int.zero_add] at b3
      rw [Int.zero_add] at b1
      obtain ⟨o1, o2⟩ := (ops_loop_cons_iff t rest e).1 ho
      have hx : t.type ≠ .x := fun hx => by
        have := (b2 hx).1
        cases this
      by_cases hlp : t.type = .lparen
      · rw [depth_step_lparen hlp] at b3
        have hnx : ops_next t = true := ops_next_operator (by rw [hlp]; decide)
          (by rw [hlp]; decide)
        rw [hnx] at o2
        have b3a : balanced_loop rest (0 + 1) true = true := by rw [Int.zero_add]; exact b3
        obtain ⟨inner, c, after, f1, f2, _, f4, f5, f6, f7⟩ :=
          find_pair_match rest 1 0 true true (le_refl _) (le_refl _) b3a o2
        have hfp : find_pair 0 (t :: rest) = some (t :: inner, after) := by
          have hn : ¬(t.type = .rparen ∧ (0 : Int) + depth_step t = 0) := fun h => by
            rw [hlp] at h
            exact absurd h.1 (by decide)
          rw [find_pair_step, if_neg hn, depth_step_lparen hlp, Int.zero_add, f1]
          rfl
        have hlen : rest.length = inner.length + (after.length + 1) := by
          rw [f2, List.length_append, List.length_cons]
        have hin := hN inner (by omega) ⟨f4, f5⟩ p
        rw [parens_group r t rest p t inner after hlp hfp]
        cases he : evaluate_subtok r inner p with
        | error e1 =>
          dsimp only
          refine ⟨?_, fun out p1 h => (by cases h)⟩
          intro e2 he2
          have : e1 = e2 := Except.error.inj he2
          exact hin e2 (by rw [he, this])
        | ok res =>
          obtain ⟨v, p1⟩ := res
          dsimp only
          obtain ⟨i1, i2⟩ := ih after false p1 (by omega) (by omega) f6 f7
          cases hpa : parens r after p1 with
          | error e1 =>
            dsimp only
            refine ⟨?_, fun out p2 h => (by cases h)⟩
            intro e2 he2
            have : e1 = e2 := Except.error.inj he2
            exact i1 e2 (by rw [hpa, this])
          | ok res2 =>
            obtain ⟨out1, p2⟩ := res2
            dsimp only
            obtain ⟨j1, j2⟩ := i2 out1 p2 hpa
            refine ⟨fun e2 he2 => (by cases he2), ?_⟩
            intro out p3 h
            have h1 := Except.ok.inj h
            simp only [Prod.mk.injEq] at h1
            rw [← h1.1]
            have e1 : e = true := by
              cases e
              · simp only [ops_ok, Bool.false_eq_true, if_false] at o1
                exact absurd hlp o1.2
              · rfl
            refine ⟨?_, ?_⟩
            · rw [e1]
              exact (ops_loop_cons_iff _ _ _).2 ⟨by simp [ops_ok],
                by rw [ops_next_number rfl]; exact j1⟩
            · intro u hu
              rcases List.mem_cons.1 hu with hu | hu
              · rw [hu]; exact ⟨by simp, by simp, by simp⟩
              · exact j2 u hu
      · have hrp : t.type ≠ .rparen := fun h => by
          rw [depth_step_rparen h] at b1
          omega
        rw [depth_step_other hlp hrp] at b3
        obtain ⟨i1, i2⟩ := ih rest (ops_next t) p (by omega) (by omega) b3 o2
        rw [parens_skip r t rest p hlp]
        cases hpa : parens r rest p with
        | error e1 =>
          dsimp only
          refine ⟨?_, fun out p2 h => (by cases h)⟩
          intro e2 he2
          have : e1 = e2 := Except.error.inj he2
          exact i1 e2 (by rw [hpa, this])
        | ok res2 =>
          obtain ⟨out1, p2⟩ := res2
          dsimp only
          obtain ⟨j1, j2⟩ := i2 out1 p2 hpa
          refine ⟨fun e2 he2 => (by cases he2), ?_⟩
          intro out p3 h
          have h1 := Except.ok.inj h
          simp only [Prod.mk.injEq] at h1
          rw [← h1.1]
          refine ⟨(ops_loop_cons_iff _ _ _).2 ⟨o1, j1⟩, ?_⟩
          intro u hu
          rcases List.mem_cons.1 hu with hu | hu
          · rw [hu]; exact ⟨hlp, hrp, hx⟩
          · exact j2 u hu

theorem dice_error_operand (e : Err) (h : dice_error e = true) : operand_failure e = true := by
  cases e <;> first | rfl | cases h

theorem throws_mono {α : Type} (E F : Err → Bool) (res : Except Err α)
    (hEF : ∀ e, E e = true → F e = true) (h : Throws E res) : Throws F res :=
  fun e he => hEF e (h e he)

theorem do_binary_op_dice_throws (r : Nat → Nat) (a b : Int) (q : Nat) :
    Throws dice_error (do_binary_op r .dice a b q) := by
  intro e he
  simp only [do_binary_op] at he
  split at he
  · have : Err.dice_number_at_least_1 = e := Except.error.inj he
    rw [← this]; rfl
  · cases he

theorem roll_choose_throws (r : Nat → Nat) (a b c : Int) (q : Nat) :
    Throws dice_error (roll_choose r a b c q) := by
  intro e he
  unfold roll_choose at he
  split at he
  · have : Err.dice_number_at_least_1 = e := Except.error.inj he
    rw [← this]; rfl
  · split at he
    · have : Err.cannot_choose_more = e := Except.error.inj he
      rw [← this]; rfl
    · cases he

theorem do_binary_op_arith_throws (r : Nat → Nat) (k : token_t) (a b : Int) (q : Nat)
    (hk : is_mul k = true ∨ is_add k = true) :
    Throws operand_failure (do_binary_op r k a b q) := by
  intro e he
  cases k
  case div =>
    simp only [do_binary_op] at he
    by_cases hb : b = 0
    · rw [if_pos hb] at he
      rw [← Except.error.inj he]; rfl
    · rw [if_neg hb] at he
      by_cases ht : a = INT_MIN ∧ b = -1
      · rw [if_pos ht] at he
        rw [← Except.error.inj he]; rfl
      · rw [if_neg ht] at he
        cases he
  case mod =>
    simp only [do_binary_op] at he
    by_cases hb : b = 0
    · rw [if_pos hb] at he
      rw [← Except.error.inj he]; rfl
    · rw [if_neg hb] at he
      by_cases ht : a = INT_MIN ∧ b = -1
      · rw [if_pos ht] at he
        rw [← Except.error.inj he]; rfl
      · rw [if_neg ht] at he
        cases he
  case mul => cases he
  case add => cases he
  case sub => cases he
  all_goals
    rcases hk with hk | hk
    · simp [is_mul] at hk
    · simp [is_add] at hk

theorem is_dice_eq {k : token_t} (h : is_dice k = true) : k = .dice := by
  simpa [is_dice] using h

/-- A sequence of number tokens that the alternation loop accepts is a single token. -/
theorem ops_loop_numbers (s : List token) (h : ops_loop s true = true)
    (hn : ∀ t ∈ s, t.type = .number) : ∃ t, s = [t] ∧ t.type = .number := by
  obtain ⟨n, Y1, e1, e2, e3⟩ := ops_loop_value s h (fun t ht => by rw [hn t ht]; decide)
  subst e1
  rcases ops_loop_operator_next Y1 e3 (fun t ht => by
      rw [hn t (List.mem_cons_of_mem _ ht)]; decide) with e4 | ⟨o, Y2, e4, e5, _⟩
  · subst e4
    exact ⟨n, rfl, e2⟩
  · subst e4
    exact absurd (hn o (by simp)) e5.1

/-- The three operator loops of `evaluate_subtok` on an accepted sequence without parentheses
and repeat marker: they leave one number token, or one of them throws an operand
exception. -/
theorem after_parens_good (r : Nat → Nat) (s1 : List token) (p1 : Nat)
    (h : ops_loop s1 true = true) (hp : plain s1) :
    ReducesFlat r s1 p1 ∨ ∃ e, after_parens r s1 p1 = .error e ∧ operand_failure e = true := by
  have g1 := tier_good r operand_failure is_dice is_choose
    (fun k hk => by rw [is_dice_eq hk]; exact ⟨by decide, by decide, by decide⟩)
    (fun k a b q hk => by
      rw [is_dice_eq hk]
      exact throws_mono _ _ _ dice_error_operand (do_binary_op_dice_throws r a b q))
    (fun _ a b c q => throws_mono _ _ _ dice_error_operand (roll_choose_throws r a b c q))
    (fun _ _ => rfl) s1.length [] s1 p1 (le_refl _) h (fun t ht => ⟨(hp t ht).1, (hp t ht).2.1⟩)
  unfold ReducesFlat after_parens
  cases h1 : tier r is_dice is_choose [] s1 p1 with
  | error e => exact Or.inr ⟨e, rfl, g1.1 e h1⟩
  | ok res1 =>
    obtain ⟨s2, p2⟩ := res1
    obtain ⟨a1, a2⟩ := g1.2 s2 p2 h1
    have hp2 : ∀ t ∈ ([] : List token).reverse ++ s2, t.type ≠ .lparen ∧ t.type ≠ .rparen := by
      intro t ht
      rcases a2 t ht with k | k | k
      · rw [k]; exact ⟨by decide, by decide⟩
      · cases k
      · exact ⟨(hp t k.1).1, (hp t k.1).2.1⟩
    have g2 := tier_good r operand_failure is_mul no_throw
      (fun k hk => by
        rcases is_mul_cases hk with e | e | e <;> rw [e] <;>
          exact ⟨by decide, by decide, by decide⟩)
      (fun k a b q hk => do_binary_op_arith_throws r k a b q (Or.inl hk))
      (fun hd => by cases hd)
      (fun _ hk => by cases hk) s2.length [] s2 p2 (le_refl _) a1 hp2
    dsimp only
    cases h2 : tier r is_mul no_throw [] s2 p2 with
    | error e => exact Or.inr ⟨e, rfl, g2.1 e h2⟩
    | ok res2 =>
      obtain ⟨s3, p3⟩ := res2
      obtain ⟨b1, b2⟩ := g2.2 s3 p3 h2
      have hp3 : ∀ t ∈ ([] : List token).reverse ++ s3, t.type ≠ .lparen ∧ t.type ≠ .rparen := by
        intro t ht
        rcases b2 t ht with k | k | k
        · rw [k]; exact ⟨by decide, by decide⟩
        · cases k
        · exact hp2 t k.1
      have g3 := tier_good r operand_failure is_add no_throw
        (fun k hk => by
          rcases is_add_cases hk with e | e <;> rw [e] <;>
            exact ⟨by decide, by decide, by decide⟩)
        (fun k a b q hk => do_binary_op_arith_throws r k a b q (Or.inr hk))
        (fun hd => by cases hd)
        (fun _ hk => by cases hk) s3.length [] s3 p3 (le_refl _) b1 hp3
      dsimp only
      cases h3 : tier r is_add no_throw [] s3 p3 with
      | error e => exact Or.inr ⟨e, rfl, g3.1 e h3⟩
      | ok res3 =>
        obtain ⟨s4, p4⟩ := res3
        obtain ⟨c1, c2⟩ := g3.2 s4 p4 h3
        have hnum : ∀ t ∈ s4, t.type = .number := by
          intro t ht
          rcases c2 t ht with k | k | ⟨k3, k4, _⟩
          · exact k
          · cases k
          · rcases b2 t k3 with k | k | ⟨k5, k6, _⟩
            · exact k
            · cases k
            · rcases a2 t k5 with k | k | ⟨k7, k8, k9⟩
              · exact k
              · cases k
              · obtain ⟨q1, q2, q3⟩ := hp t k7
                revert k4 k6 k8 k9 q1 q2 q3
                cases t.type <;> simp [is_dice, is_choose, is_mul, is_add]
        obtain ⟨t, e1, e2⟩ := ops_loop_numbers s4 c1 hnum
        subst e1
        refine Or.inl ⟨s2, p2, s3, p3, t, p4, rfl, h2, h3, e2, ?_⟩
        dsimp only
        simp [front_value, e2]

theorem reduces_ok (r : Nat → Nat) (sub : List token) (p : Nat) (h : Reduces r sub p) :
    ∃ v q, evaluate_subtok r sub p = .ok (v, q) := by
  obtain ⟨_, _, _, _, _, _, t, p4, _, _, _, _, _, h6⟩ := h
  exact ⟨t.value, p4, h6⟩

/-- The call `evaluate_subtok` on an accepted sequence without repeat marker is left with one
number token and returns its value, or throws an operand exception. -/
theorem evaluate_subtok_good (r : Nat → Nat) : ∀ (N : Nat) (sub : List token),
    sub.length ≤ N → Handed sub → ∀ p,
    Reduces r sub p ∨ ∃ e, evaluate_subtok r sub p = .error e ∧ operand_failure e = true := by
  intro N
  induction N with
  | zero =>
    intro sub hl hs
    have : sub = [] := List.length_eq_zero.1 (by omega)
    subst this
    have := hs.2
    simp [ops_loop] at this
  | succ N ih =>
    intro sub hl hs p
    have hN : ∀ inner : List token, inner.length < N + 1 → Handed inner →
        ∀ q, Throws operand_failure (evaluate_subtok r inner q) := by
      intro inner hi hh q e he
      rcases ih inner (by omega) hh q with h | ⟨e1, h1, h2⟩
      · obtain ⟨v, q1, h⟩ := reduces_ok r inner q h
        rw [h] at he
        cases he
      · rw [h1] at he
        have : e1 = e := Except.error.inj he
        rw [← this]
        exact h2
    obtain ⟨g1, g2⟩ := parens_good r (N + 1) hN sub.length sub true p (le_refl _) hl hs.1 hs.2
    have heq := evaluate_subtok_eq r sub p
    cases hpa : parens r sub p with
    | error e =>
      rw [hpa] at heq
      exact Or.inr ⟨e, heq, g1 e hpa⟩
    | ok res =>
      obtain ⟨s1, p1⟩ := res
      rw [hpa] at heq
      dsimp only at heq
      obtain ⟨k1, k2⟩ := g2 s1 p1 hpa
      rcases after_parens_good r s1 p1 k1 k2 with h | ⟨e, h1, h2⟩
      · obtain ⟨s2, p2, s3, p3, t, p4, f1, f2, f3, f4, f5⟩ := h
        exact Or.inl ⟨s1, p1, s2, p2, s3, p3, t, p4, hpa, f1, f2, f3, f4, by rw [heq, f5]⟩
      · exact Or.inr ⟨e, by rw [heq, h1], h2⟩

/-- The search for the repeat marker returns the tokens in front of the first marker and the
tokens behind it. -/
theorem find_x_spec : ∀ toks : List token,
    (find_x toks = none → ∀ t ∈ toks, t.type ≠ .x) ∧
    (∀ b a, find_x toks = some (b, a) →
      ∃ m, toks = b ++ m :: a ∧ m.type = .x ∧ ∀ t ∈ b, t.type ≠ .x) := by
  intro toks
  induction toks with
  | nil =>
    refine ⟨fun _ t ht => (by cases ht), fun b a h => ?_⟩
    simp [find_x] at h
  | cons u rest ih =>
    by_cases hx : u.type = .x
    · refine ⟨fun h => ?_, fun b a h => ?_⟩
      · simp [find_x, hx] at h
      · simp only [find_x, hx, if_true, Option.some.injEq, Prod.mk.injEq] at h
        obtain ⟨h1, h2⟩ := h
        subst h1 h2
        exact ⟨u, rfl, hx, fun t ht => (by cases ht)⟩
    · cases hf : find_x rest with
      | none =>
        refine ⟨fun _ t ht => ?_, fun b a h => ?_⟩
        · rcases List.mem_cons.1 ht with ht | ht
          · rw [ht]; exact hx
          · exact ih.1 hf t ht
        · simp [find_x, hx, hf] at h
      | some q =>
        obtain ⟨b1, a1⟩ := q
        refine ⟨fun h => ?_, fun b a h => ?_⟩
        · simp [find_x, hx, hf] at h
        · simp only [find_x, hx, if_false, hf, Option.some.injEq, Prod.mk.injEq] at h
          obtain ⟨h1, h2⟩ := h
          subst h1 h2
          obtain ⟨m, e1, e2, e3⟩ := ih.2 b1 a1 hf
          refine ⟨m, by rw [e1]; rfl, e2, ?_⟩
          intro t ht
          rcases List.mem_cons.1 ht with ht | ht
          · rw [ht]; exact hx
          · exact e3 t ht

theorem balanced_loop_flag : ∀ (s : List token) (d : Int) (f : Bool),
    (∀ t ∈ s, t.type ≠ .x) → balanced_loop s d f = true → balanced_loop s d true = true := by
  intro s
  induction s with
  | nil => intro d f _ h; exact h
  | cons u s ih =>
    intro d f hx h
    obtain ⟨b1, _, b3⟩ := balanced_loop_step u s d f h
    exact balanced_loop_push u s d true b1 (hx u (List.mem_cons_self _ _))
      (ih _ _ (fun t ht => hx t (List.mem_cons_of_mem _ ht)) b3)

theorem balanced_loop_split (m : token) (a : List token) (hm : m.type = .x) :
    ∀ (b : List token) (d : Int), (∀ t ∈ b, t.type ≠ .x) →
    balanced_loop (b ++ m :: a) d false = true →
    balanced_loop b d true = true ∧ balanced_loop a 0 true = true := by
  intro b
  induction b with
  | nil =>
    intro d _ h
    obtain ⟨_, b2, b3⟩ := balanced_loop_step m a d false h
    obtain ⟨_, h0⟩ := b2 hm
    have hs : depth_step m = 0 := depth_step_other (by rw [hm]; decide) (by rw [hm]; decide)
    rw [h0] at b3
    simp only [hm, decide_True, Bool.or_true] at b3
    refine ⟨?_, b3⟩
    simp only [balanced_loop, decide_eq_true_eq]
    omega
  | cons u b ih =>
    intro d hx h
    obtain ⟨b1, _, b3⟩ := balanced_loop_step u (b ++ m :: a) d false h
    have hu := hx u (List.mem_cons_self _ _)
    simp only [hu, decide_False, Bool.or_false] at b3
    obtain ⟨i1, i2⟩ := ih _ (fun t ht => hx t (List.mem_cons_of_mem _ ht)) b3
    exact ⟨balanced_loop_push u b d true b1 hu i1, i2⟩

/-- The sequences that `operator()` hands to `evaluate_subtok` are accepted on their own. -/
theorem handed_of_valid (toks : List token) (hv : valid_ops toks = true) :
    (find_x toks = none → Handed toks) ∧
    (∀ b a, find_x toks = some (b, a) → Handed b ∧ Handed a) := by
  obtain ⟨hb, ho⟩ := valid_ops_ops_loop toks hv
  unfold balanced_parens at hb
  refine ⟨fun h => ⟨balanced_loop_flag toks 0 false ((find_x_spec toks).1 h) hb, ho⟩, ?_⟩
  intro b a h
  obtain ⟨m, e1, e2, e3⟩ := (find_x_spec toks).2 b a h
  subst e1
  obtain ⟨k1, k2⟩ := balanced_loop_split m a e2 b 0 e3 hb
  have h1 := ops_loop_rest b (m :: a) true ho
  obtain ⟨o1, o2⟩ := (ops_loop_cons_iff m a _).1 h1
  rw [ops_next_operator (by rw [e2]; decide) (by rw [e2]; decide)] at o2
  have hst : state_after b true = false := by
    cases hs : state_after b true with
    | false => rfl
    | true =>
      rw [hs] at o1
      simp only [ops_ok, if_true] at o1
      rw [e2] at o1
      rcases o1 with o1 | o1 <;> cases o1
  exact ⟨⟨k1, ops_loop_front b (m :: a) true ho hst⟩, ⟨k2, o2⟩⟩

theorem rep_loop_throws (r : Nat → Nat) (E : Err → Bool) (body : List token)
    (h : ∀ p, Throws E (evaluate_subtok r body p)) :
    ∀ (n : Nat) (ret : List Int) (p : Nat), Throws E (rep_loop r body n ret p) := by
  intro n
  induction n with
  | zero => intro ret p e he; cases he
  | succ n ih =>
    intro ret p e he
    simp only [rep_loop] at he
    cases hev : evaluate_subtok r body p with
    | error e1 =>
      rw [hev] at he
      have : e1 = e := Except.error.inj he
      exact h p e (by rw [hev, this])
    | ok res =>
      obtain ⟨v, p1⟩ := res
      rw [hev] at he
      exact ih _ _ e he

theorem handed_throws (r : Nat → Nat) (sub : List token) (h : Handed sub) (p : Nat) :
    Throws operand_failure (evaluate_subtok r sub p) := by
  intro e he
  rcases evaluate_subtok_good r sub.length sub (le_refl _) h p with h1 | ⟨e1, h1, h2⟩
  · obtain ⟨v, q1, h1⟩ := reduces_ok r sub p h1
    rw [h1] at he
    cases he
  · rw [h1] at he
    have : e1 = e := Except.error.inj he
    rw [← this]
    exact h2

theorem operand_error_recoverable (e : Err) (h : operand_error e = true) :
    e.recoverable = true := by
  cases e <;> first | rfl | cases h

theorem operand_failure_cases (e : Err) (h : operand_failure e = true) :
    (operand_error e = true ∧ e.recoverable = true) ∨ e = .division_trap := by
  cases e <;> first | exact Or.inr rfl | exact Or.inl ⟨rfl, rfl⟩ | cases h

/-- C18 fails on the input `(0-2147483647-1)%(0-1)`, which `valid_ops` accepts and which is
handed to `evaluate_subtok` as a whole: the remainder of `INT_MIN` by `-1` raises SIGFPE, so
the call neither returns a value nor throws an operand exception.  Apart from that signal the
claim holds: each sequence that `operator()` hands to `evaluate_subtok` (the whole sequence
when there is no repeat marker, else the tokens in front of the marker and the tokens behind
it) is reduced by the four loops to exactly one number token whose value is returned, or the
call throws one of the recoverable operand exceptions (die sides below 1, keep count above
roll count, division or remainder by zero, choose without dice), or the division raises the
signal.  The exceptions for operands that are no numbers, for unbalanced parentheses, for a
token that is no binary operation, for an incomplete reduction and the use of an iterator
outside the vector do not occur. -/
theorem C18_validated_evaluation (r : Nat → Nat) (toks : List token)
    (hv : valid_ops toks = true) (sub : List token)
    (hsub : (find_x toks = none ∧ sub = toks) ∨
      ∃ before after, find_x toks = some (before, after) ∧ (sub = before ∨ sub = after))
    (p : Nat) :
    (∃ ts, construct "(0-2147483647-1)%(0-1)".toList = .ok ts ∧ valid_ops ts = true ∧
      find_x ts = none ∧ evaluate_subtok r ts p = .error .division_trap ∧
      operand_error .division_trap = false ∧ Err.recoverable .division_trap = false) ∧
    (Reduces r sub p ∨
      ∃ e, evaluate_subtok r sub p = .error e ∧
        ((operand_error e = true ∧ e.recoverable = true) ∨ e = .division_trap)) ∧
    (∀ e, evaluate_subtok r sub p = .error e →
      e ≠ .arguments_must_be_numbers ∧ e ≠ .unbalanced_parentheses ∧
      e ≠ .not_a_binary_operation ∧ e ≠ .could_not_reduce ∧ e ≠ .iterator_out_of_range ∧
      e ≠ .out_of_fuel) ∧
    (∀ e, call r toks p = .error e →
      (operand_error e = true ∧ e.recoverable = true) ∨ e = .division_trap) := by
  obtain ⟨h1, h2⟩ := handed_of_valid toks hv
  have hs : Handed sub := by
    rcases hsub with ⟨k1, k2⟩ | ⟨b, a, k1, k2 | k2⟩
    · rw [k2]; exact h1 k1
    · rw [k2]; exact (h2 b a k1).1
    · rw [k2]; exact (h2 b a k1).2
  refine ⟨⟨_, rfl, rfl, rfl, rfl, rfl, rfl⟩, ?_, ?_, ?_⟩
  · rcases evaluate_subtok_good r sub.length sub (le_refl _) hs p with h | ⟨e, k1, k2⟩
    · exact Or.inl h
    · exact Or.inr ⟨e, k1, operand_failure_cases e k2⟩
  · intro e he
    have := handed_throws r sub hs p e he
    revert this
    cases e <;> simp [operand_failure, operand_error]
  · intro e he
    apply operand_failure_cases
    unfold call at he
    cases hf : find_x toks with
    | none =>
      rw [hf] at he
      exact rep_loop_throws r operand_failure toks (handed_throws r toks (h1 hf)) _ _ _ e he
    | some q =>
      obtain ⟨b, a⟩ := q
      rw [hf] at he
      dsimp only at he
      obtain ⟨k1, k2⟩ := h2 b a hf
      cases hev : evaluate_subtok r b p with
      | error e1 =>
        rw [hev] at he
        have : e1 = e := Except.error.inj he
        exact handed_throws r b k1 p e (by rw [hev, this])
      | ok res =>
        obtain ⟨v, p1⟩ := res
        rw [hev] at he
        exact rep_loop_throws r operand_failure a (handed_throws r a k2) _ _ _ e he

theorem C18_validated_evaluation_witness :
    valid_ops [⟨.number, 2⟩, ⟨.x, 0⟩, ⟨.number, 1⟩, ⟨.dice, 0⟩, ⟨.number, 0⟩] = true ∧
    (Reduces (fun _ => 0) [⟨.number, 1⟩, ⟨.dice, 0⟩, ⟨.number, 0⟩] 0 ∨
      ∃ e, evaluate_subtok (fun _ => 0) [⟨.number, 1⟩, ⟨.dice, 0⟩, ⟨.number, 0⟩] 0 = .error e ∧
        ((operand_error e = true ∧ e.recoverable = true) ∨ e = .division_trap)) :=
  ⟨by decide,
    (C18_validated_evaluation (fun _ => 0)
      [⟨.number, 2⟩, ⟨.x, 0⟩, ⟨.number, 1⟩, ⟨.dice, 0⟩, ⟨.number, 0⟩] (by decide)
      [⟨.number, 1⟩, ⟨.dice, 0⟩, ⟨.number, 0⟩]
      (Or.inr ⟨[⟨.number, 2⟩], [⟨.number, 1⟩, ⟨.dice, 0⟩, ⟨.number, 0⟩], rfl, Or.inr rfl⟩)
      0).2.1⟩

/-! ## A choose without dice -/

/-- The tokens that a successful call of `apply_operator` removes behind the operator: the
second operand, or the second operand with a choose and the keep count. -/
theorem apply_operator_suffix (r : Nat → Nat) (pre : List token) (it : token)
    (rest : List token) (p : Nat) (pre1 suf1 : List token) (p1 : Nat)
    (h : apply_operator r pre (it :: rest) p = .ok (pre1, suf1, p1)) :
    (∃ n, rest = n :: suf1) ∨ (∃ n c2 k, rest = n :: c2 :: k :: suf1) := by
  unfold apply_operator at h
  split at h
  · cases h
  · cases h
  · rename_i arg1 before it1 rest1 heq
    obtain ⟨_, e1⟩ : it = it1 ∧ rest = rest1 := by simpa using heq
    subst e1
    split at h
    · cases h
    · split at h
      · cases h
      · rename_i arg2 rest2
        split at h
        · cases h
        · split at h
          · split at h
            · cases h
            · cases h
              exact Or.inl ⟨arg2, rfl⟩
          · rename_i c rest3
            split at h
            · split at h
              · cases h
              · rename_i arg3 rest4
                split at h
                · cases h
                · cases h
                  exact Or.inr ⟨arg2, c, arg3, rfl⟩
            · split at h
              · cases h
              · cases h
                exact Or.inl ⟨arg2, rfl⟩

/-- The call `apply_operator` does not depend on the tokens behind the ones it reads. -/
theorem apply_operator_append (r : Nat → Nat) (pre : List token) (it n c2 : token)
    (rest3 X : List token) (p : Nat)
    (h : it.type = .dice ∧ c2.type = .choose → rest3 ≠ []) :
    apply_operator r pre (it :: n :: c2 :: (rest3 ++ X)) p =
      (apply_operator r pre (it :: n :: c2 :: rest3) p).map
        fun q => (q.1, q.2.1 ++ X, q.2.2) := by
  cases pre with
  | nil => rfl
  | cons a1 pre0 =>
    by_cases h1 : a1.type = .number
    · by_cases h2 : n.type = .number
      · by_cases h3 : it.type = .dice ∧ c2.type = .choose
        · cases rest3 with
          | nil => exact absurd rfl (h h3)
          | cons k rest4 =>
            simp only [apply_operator, h1, h2, h3, ne_eq, not_true_eq_false, if_false, and_self,
              if_true, List.cons_append]
            cases roll_choose r a1.value n.value k.value p with
            | error e => rfl
            | ok q => rfl
        · simp only [apply_operator, h1, h2, h3, ne_eq, not_true_eq_false, if_false]
          cases do_binary_op r it.type a1.value n.value p with
          | error e => rfl
          | ok q => rfl
      · simp only [apply_operator, h1, h2, ne_eq, not_true_eq_false, if_false, not_false_eq_true,
          if_true]
        rfl
    · simp only [apply_operator, h1, ne_eq, not_false_eq_true, if_true]
      rfl

/-- The first operator loop of `evaluate_subtok` in front of a choose token whose
second-previous token is no dice operator: an exception thrown in front of the choose is
thrown, and otherwise the loop throws at the choose. -/
theorem tier_stray_choose (r : Nat → Nat) (c : token) (B : List token)
    (hc : c.type = .choose) :
    ∀ (m : Nat) (sA pre : List token) (p : Nat), sA.length ≤ m →
      (∃ e, ops_loop (sA ++ c :: B) e = true) →
      (∀ (A1 : List token) (d u : token), sA = A1 ++ [d, u] → d.type ≠ .dice) →
      (∀ e, tier r is_dice is_choose pre sA p = .error e →
        tier r is_dice is_choose pre (sA ++ c :: B) p = .error e) ∧
      (∀ out p1, tier r is_dice is_choose pre sA p = .ok (out, p1) →
        tier r is_dice is_choose pre (sA ++ c :: B) p = .error .choose_without_dice) := by
  have hcd : is_dice c.type = false := by rw [hc]; rfl
  have hcc : is_choose c.type = true := by rw [hc]; rfl
  have hcv : ∀ Y, ops_loop (c :: Y) true = true → False := by
    intro Y h
    have := ((ops_loop_cons_iff c Y true).1 h).1
    simp only [ops_ok, if_true] at this
    rw [hc] at this
    rcases this with h | h <;> cases h
  intro m
  induction m with
  | zero =>
    intro sA pre p hl _ _
    have : sA = [] := List.length_eq_zero.1 (by omega)
    subst this
    rw [tier_nil, List.nil_append, tier_throw r _ _ pre c B p hcd hcc]
    exact ⟨fun e he => (by cases he), fun _ _ _ => rfl⟩
  | succ m ih =>
    intro sA pre p hl hops hA
    cases sA with
    | nil =>
      rw [tier_nil, List.nil_append, tier_throw r _ _ pre c B p hcd hcc]
      exact ⟨fun e he => (by cases he), fun _ _ _ => rfl⟩
    | cons it rest =>
      simp only [List.length_cons] at hl
      obtain ⟨e0, hops⟩ := hops
      rw [List.cons_append] at hops ⊢
      obtain ⟨_, o2⟩ := (ops_loop_cons_iff it _ e0).1 hops
      cases hs : is_dice it.type with
      | false =>
        cases ht : is_choose it.type with
        | true =>
          rw [tier_throw r _ _ pre it rest p hs ht, tier_throw r _ _ pre it _ p hs ht]
          exact ⟨fun e he => he, fun out p1 h => (by cases h)⟩
        | false =>
          rw [tier_skip r _ _ pre it rest p hs ht, tier_skip r _ _ pre it _ p hs ht]
          exact ih rest (it :: pre) p (by omega) ⟨_, o2⟩
            (fun A1 d u h => hA (it :: A1) d u (by rw [h]; rfl))
      | true =>
        have hd := is_dice_eq hs
        rw [ops_next_operator (by rw [hd]; decide) (by rw [hd]; decide)] at o2
        cases rest with
        | nil => exact absurd o2 (by simpa using hcv B)
        | cons n rest2 =>
          rw [List.cons_append] at o2
          obtain ⟨_, o3⟩ := (ops_loop_cons_iff n _ true).1 o2
          cases rest2 with
          | nil => exact absurd hd (hA [] it n rfl)
          | cons c2 rest3 =>
            rw [List.cons_append] at o3
            obtain ⟨_, o4⟩ := (ops_loop_cons_iff c2 _ _).1 o3
            have hne : it.type = .dice ∧ c2.type = .choose → rest3 ≠ [] := by
              intro hh h0
              subst h0
              rw [ops_next_operator (by rw [hh.2]; decide) (by rw [hh.2]; decide)] at o4
              exact hcv B o4
            rw [tier_apply r _ _ pre it _ p hs, tier_apply r _ _ pre it _ p hs]
            rw [List.cons_append, List.cons_append,
              apply_operator_append r pre it n c2 rest3 (c :: B) p hne]
            cases hap : apply_operator r pre (it :: n :: c2 :: rest3) p with
            | error e => exact ⟨fun e1 he1 => he1, fun out p1 h => (by cases h)⟩
            | ok res =>
              obtain ⟨pre1, suf1, p1⟩ := res
              have hlen := apply_operator_length r pre _ p pre1 suf1 p1 hap
              simp only [List.length_cons] at hlen hl
              have hsuf : (∃ e, ops_loop (suf1 ++ c :: B) e = true) ∧
                  ∃ mid, it :: n :: c2 :: rest3 = mid ++ suf1 := by
                rcases apply_operator_suffix r pre it _ p pre1 suf1 p1 hap with
                  ⟨n1, h1⟩ | ⟨n1, c3, k, h1⟩
                · have h2 := (List.cons.inj h1).2
                  rw [← h2]
                  exact ⟨⟨_, o3⟩, [it, n], rfl⟩
                · have h2 := (List.cons.inj (List.cons.inj h1).2).2
                  cases rest3 with
                  | nil => cases h2
                  | cons k1 rest4 =>
                    have h3 := (List.cons.inj h2).2
                    rw [List.cons_append] at o4
                    rw [← h3]
                    exact ⟨⟨_, ((ops_loop_cons_iff k1 _ _).1 o4).2⟩, [it, n, c2, k1], rfl⟩
              obtain ⟨k1, mid, k2⟩ := hsuf
              exact ih suf1 pre1 p1 (by omega) k1
                (fun A1 d u h => hA (mid ++ A1) d u (by rw [k2, h, List.append_assoc]))

/-- The first loop of `evaluate_subtok` leaves a sequence without opening parenthesis as it
is. -/
theorem parens_flat (r : Nat → Nat) : ∀ (T : List token) (p : Nat),
    (∀ t ∈ T, t.type ≠ .lparen) → parens r T p = .ok (T, p) := by
  intro T
  induction T with
  | nil => intro p _; exact parens_nil r p
  | cons t rest ih =>
    intro p h
    rw [parens_skip r t rest p (h t (List.mem_cons_self _ _)),
      ih p (fun u hu => h u (List.mem_cons_of_mem _ hu))]

/-- The first operator loop at a dice operator that a choose follows: the five tokens are
replaced by the result of `roll_choose` and the loop goes on behind them. -/
theorem tier_roll_choose (r : Nat → Nat) (a1 d n c k : token) (pre rest : List token) (q : Nat)
    (h1 : a1.type = .number) (h2 : n.type = .number) (h3 : d.type = .dice)
    (h4 : c.type = .choose) :
    tier r is_dice is_choose (a1 :: pre) (d :: n :: c :: k :: rest) q =
      (roll_choose r a1.value n.value k.value q).bind fun res =>
        tier r is_dice is_choose ({ type := .number, value := res.1 } :: pre) rest res.2 := by
  rw [tier_apply r _ _ _ d _ q (by rw [h3]; rfl),
    apply_operator_choose r a1 d n c k pre rest q h1 h2 h3 h4]
  cases roll_choose r a1.value n.value k.value q with
  | error e => rfl
  | ok res => rfl

/-- The call `evaluate_subtok` on a count, a dice operator, a number of sides, a choose and a
keep count is the call `roll_choose` on the three numbers. -/
theorem evaluate_subtok_roll_choose (r : Nat → Nat) (count sides keep : Int) (d c : token)
    (q : Nat) (h3 : d.type = .dice) (h4 : c.type = .choose) :
    evaluate_subtok r [⟨.number, count⟩, d, ⟨.number, sides⟩, c, ⟨.number, keep⟩] q =
      roll_choose r count sides keep q := by
  have hd : is_dice d.type = true := by rw [h3]; rfl
  have hp : parens r [⟨.number, count⟩, d, ⟨.number, sides⟩, c, ⟨.number, keep⟩] q =
      .ok ([⟨.number, count⟩, d, ⟨.number, sides⟩, c, ⟨.number, keep⟩], q) := by
    apply parens_flat
    intro t ht
    simp only [List.mem_cons, List.mem_singleton, List.not_mem_nil, or_false] at ht
    rcases ht with h | h | h | h | h <;> rw [h]
    · simp
    · rw [h3]; decide
    · simp
    · rw [h4]; decide
    · simp
  rw [evaluate_subtok_eq, hp]
  dsimp only
  unfold after_parens
  rw [tier_skip r _ _ [] ⟨.number, count⟩ _ q rfl rfl,
    tier_roll_choose r ⟨.number, count⟩ d ⟨.number, sides⟩ c ⟨.number, keep⟩ [] [] q rfl rfl h3 h4]
  cases roll_choose r count sides keep q with
  | error e => rfl
  | ok res =>
    obtain ⟨v, q1⟩ := res
    rfl

/-- C20: in a sequence without parentheses and repeat marker that `valid_ops` accepts, a
choose token whose second-previous token is no dice operator makes `evaluate_subtok` throw a
recoverable exception and return no value: the exception is `choose without dice`, unless
the first operator loop has thrown the operand exception of a dice operation in front of the
choose.  Conversely a count, a dice operator, a number of sides, a choose and a keep count
are replaced by the single number `roll_choose(count, sides, keep)`, and the inputs `1:2`,
`1+2:3` and `3d6:2:1` throw `choose without dice`. -/
theorem C20_choose_without_dice (r : Nat → Nat) (A B : List token) (c : token)
    (hv : valid_ops (A ++ c :: B) = true)
    (hflat : ∀ t ∈ A ++ c :: B, t.type ≠ .lparen ∧ t.type ≠ .rparen ∧ t.type ≠ .x)
    (hc : c.type = .choose)
    (hA : ∀ (A1 : List token) (d u : token), A = A1 ++ [d, u] → d.type ≠ .dice) (p : Nat) :
    (∃ e, evaluate_subtok r (A ++ c :: B) p = .error e ∧ e.recoverable = true ∧
      (e = .choose_without_dice ∨
        ((e = .dice_number_at_least_1 ∨ e = .cannot_choose_more) ∧
          tier r is_dice is_choose [] A p = .error e))) ∧
    (∀ (a1 d n c1 k : token) (pre rest : List token) (q : Nat), a1.type = .number →
      n.type = .number → d.type = .dice → c1.type = .choose →
      tier r is_dice is_choose (a1 :: pre) (d :: n :: c1 :: k :: rest) q =
        (roll_choose r a1.value n.value k.value q).bind fun res =>
          tier r is_dice is_choose ({ type := .number, value := res.1 } :: pre) rest res.2) ∧
    (∀ (count sides keep : Int) (d c1 : token) (q : Nat), d.type = .dice → c1.type = .choose →
      evaluate_subtok r [⟨.number, count⟩, d, ⟨.number, sides⟩, c1, ⟨.number, keep⟩] q =
        roll_choose r count sides keep q) ∧
    run r "1:2".toList p = .error .choose_without_dice ∧
    run r "1+2:3".toList p = .error .choose_without_dice ∧
    run r "3d6:2:1".toList p = .error .choose_without_dice := by
  refine ⟨?_, fun a1 d n c1 k pre rest q h1 h2 h3 h4 =>
      tier_roll_choose r a1 d n c1 k pre rest q h1 h2 h3 h4,
    fun count sides keep d c1 q h3 h4 => evaluate_subtok_roll_choose r count sides keep d c1 q h3 h4,
    rfl, rfl, rfl⟩
  obtain ⟨_, ho⟩ := valid_ops_ops_loop _ hv
  have hst : state_after A true = false := by
    have h1 := ((ops_loop_cons_iff c B _).1 (ops_loop_rest A (c :: B) true ho)).1
    cases hs : state_after A true with
    | false => rfl
    | true =>
      rw [hs] at h1
      simp only [ops_ok, if_true] at h1
      rw [hc] at h1
      rcases h1 with h1 | h1 <;> cases h1
  have hoA : ops_loop A true = true := ops_loop_front A (c :: B) true ho hst
  have g := tier_good r dice_error is_dice is_choose
    (fun k hk => by rw [is_dice_eq hk]; exact ⟨by decide, by decide, by decide⟩)
    (fun k a b q hk => by rw [is_dice_eq hk]; exact do_binary_op_dice_throws r a b q)
    (fun _ a b c q => roll_choose_throws r a b c q)
    (fun _ _ => rfl) A.length [] A p (le_refl _) hoA
    (fun t ht => ⟨(hflat t (List.mem_append_left _ ht)).1,
      (hflat t (List.mem_append_left _ ht)).2.1⟩)
  obtain ⟨s1, s2⟩ := tier_stray_choose r c B hc A.length A [] p (le_refl _) ⟨true, ho⟩ hA
  have hp := parens_flat r (A ++ c :: B) p (fun t ht => (hflat t ht).1)
  have heq : evaluate_subtok r (A ++ c :: B) p =
      after_parens r (A ++ c :: B) p := by
    rw [evaluate_subtok_eq, hp]
  rw [heq]
  unfold after_parens
  cases hA1 : tier r is_dice is_choose [] A p with
  | error e =>
    rw [s1 e hA1]
    refine ⟨e, rfl, ?_⟩
    have he := g.1 e hA1
    revert he
    cases e <;> simp [dice_error, Err.recoverable]
  | ok res =>
    obtain ⟨out, p1⟩ := res
    rw [s2 out p1 hA1]
    exact ⟨_, rfl, rfl, Or.inl rfl⟩

theorem C20_choose_without_dice_witness :
    valid_ops ([⟨.number, 1⟩] ++ ⟨.choose, 0⟩ :: [⟨.number, 2⟩]) = true ∧
    ∃ e, evaluate_subtok (fun _ => 0) ([⟨.number, 1⟩] ++ ⟨.choose, 0⟩ :: [⟨.number, 2⟩]) 0 =
        .error e ∧ e.recoverable = true ∧
      (e = .choose_without_dice ∨
        ((e = .dice_number_at_least_1 ∨ e = .cannot_choose_more) ∧
          tier (fun _ => 0) is_dice is_choose [] [⟨.number, 1⟩] 0 = .error e)) :=
  ⟨by decide,
    (C20_choose_without_dice (fun _ => 0) [⟨.number, 1⟩] [⟨.number, 2⟩] ⟨.choose, 0⟩
      (by decide) (by decide) rfl
      (fun A1 d u h => by
        have := congrArg List.length h
        simp at this) 0).1⟩

/-! ## Precedence and associativity with dice -/

theorem split_last_none (sel : token_t → Bool) : ∀ ts : List token,
    (∀ t ∈ ts, sel t.type = false) → split_last sel ts = none := by
  intro ts
  induction ts with
  | nil => intro _; rfl
  | cons t rest ih =>
    intro h
    simp only [split_last, ih (fun u hu => h u (List.mem_cons_of_mem _ hu)),
      h t (List.mem_cons_self _ _)]
    rfl

theorem split_last_append (sel : token_t → Bool) (o : token) (us : List token)
    (ho : sel o.type = true) (hus : ∀ t ∈ us, sel t.type = false) :
    ∀ ts : List token, split_last sel (ts ++ o :: us) = some (ts, o, us) := by
  intro ts
  induction ts with
  | nil => simp only [List.nil_append, split_last, split_last_none sel us hus, ho, if_true]
  | cons t rest ih =>
    rw [List.cons_append]
    unfold split_last
    rw [ih]

theorem split_last_spec (sel : token_t → Bool) : ∀ T : List token,
    (split_last sel T = none → ∀ t ∈ T, sel t.type = false) ∧
    (∀ L o R, split_last sel T = some (L, o, R) →
      T = L ++ o :: R ∧ sel o.type = true ∧ ∀ t ∈ R, sel t.type = false) := by
  intro T
  induction T with
  | nil =>
    refine ⟨fun _ t ht => (by cases ht), fun L o R h => ?_⟩
    simp [split_last] at h
  | cons u rest ih =>
    cases hr : split_last sel rest with
    | none =>
      cases hs : sel u.type with
      | false =>
        refine ⟨fun _ t ht => ?_, fun L o R h => ?_⟩
        · rcases List.mem_cons.1 ht with ht | ht
          · rw [ht]; exact hs
          · exact ih.1 hr t ht
        · simp [split_last, hr, hs] at h
      | true =>
        refine ⟨fun h => ?_, fun L o R h => ?_⟩
        · simp [split_last, hr, hs] at h
        · simp only [split_last, hr, hs, if_true, Option.some.injEq, Prod.mk.injEq] at h
          obtain ⟨h1, h2, h3⟩ := h
          subst h1 h2 h3
          exact ⟨rfl, hs, ih.1 hr⟩
    | some q =>
      obtain ⟨L1, o1, R1⟩ := q
      refine ⟨fun h => ?_, fun L o R h => ?_⟩
      · simp [split_last, hr] at h
      · simp only [split_last, hr, Option.some.injEq, Prod.mk.injEq] at h
        obtain ⟨h1, h2, h3⟩ := h
        subst h1 h2 h3
        obtain ⟨e1, e2, e3⟩ := ih.2 L1 o1 R1 hr
        exact ⟨by rw [e1]; rfl, e2, e3⟩

/-- The operator applied last in `ts o us`, when no operator of `us` and no operator of a
looser tier in `ts` competes with `o`. -/
theorem split_root_add (o : token) (ts us : List token) (ho : is_add o.type = true)
    (hus : ∀ t ∈ us, is_add t.type = false) :
    split_root (ts ++ o :: us) = some (ts, o, us) := by
  simp only [split_root, split_last_append is_add o us ho hus ts]

theorem split_root_mul (o : token) (ts us : List token) (ho : is_mul o.type = true)
    (hts : ∀ t ∈ ts, is_add t.type = false)
    (hus : ∀ t ∈ us, is_mul t.type = false ∧ is_add t.type = false) :
    split_root (ts ++ o :: us) = some (ts, o, us) := by
  have hoa : is_add o.type = false := by
    rcases is_mul_cases ho with h | h | h <;> rw [h] <;> rfl
  have h1 : split_last is_add (ts ++ o :: us) = none := by
    apply split_last_none
    intro t ht
    rcases List.mem_append.1 ht with ht | ht
    · exact hts t ht
    · rcases List.mem_cons.1 ht with ht | ht
      · rw [ht]; exact hoa
      · exact (hus t ht).2
  simp only [split_root, h1, split_last_append is_mul o us ho (fun t ht => (hus t ht).1) ts]

theorem split_root_dice (o : token) (ts us : List token) (ho : o.type = .dice)
    (hts : ∀ t ∈ ts, is_mul t.type = false ∧ is_add t.type = false)
    (hus : ∀ t ∈ us, t.type = .number) :
    split_root (ts ++ o :: us) = some (ts, o, us) := by
  have hall : ∀ t ∈ ts ++ o :: us, is_mul t.type = false ∧ is_add t.type = false := by
    intro t ht
    rcases List.mem_append.1 ht with ht | ht
    · exact hts t ht
    · rcases List.mem_cons.1 ht with ht | ht
      · rw [ht, ho]; exact ⟨rfl, rfl⟩
      · rw [hus t ht]; exact ⟨rfl, rfl⟩
  have h1 := split_last_none is_add _ (fun t ht => (hall t ht).2)
  have h2 := split_last_none is_mul _ (fun t ht => (hall t ht).1)
  simp only [split_root, h1, h2]
  exact split_last_append is_dice o us (by rw [ho]; rfl)
    (fun t ht => by rw [hus t ht]; rfl) ts

theorem split_root_number (t : token) (ht : t.type = .number) : split_root [t] = none := by
  simp [split_root, split_last, ht, is_add, is_mul, is_dice]

theorem ref_dice_number (r : Nat → Nat) (n : Nat) (t : token) (p : Nat)
    (ht : t.type = .number) : ref_dice_fuel r (n + 1) [t] p = some (t.value, p) := by
  simp only [ref_dice_fuel, split_root_number t ht, ht, if_true]

theorem rolls_types (r : Nat → Nat) {ts : List token} {p : Nat} {res : Option (Int × Nat)}
    (h : Rolls r ts p res) : ∀ t ∈ ts, t.type = .number ∨ t.type = .dice := by
  induction h with
  | num t p ht =>
    intro u hu
    rw [List.mem_singleton] at hu
    rw [hu]; exact Or.inl ht
  | roll o u ts p res ho hu _ ih =>
    intro t ht
    rcases List.mem_append.1 ht with ht | ht
    · exact ih t ht
    · simp only [List.mem_cons, List.mem_singleton, List.not_mem_nil, or_false] at ht
      rcases ht with ht | ht
      · rw [ht]; exact Or.inr ho
      · rw [ht]; exact Or.inl hu

theorem rolls_plain (r : Nat → Nat) {ts : List token} {p : Nat} {res : Option (Int × Nat)}
    (h : Rolls r ts p res) : ∀ t ∈ ts, is_mul t.type = false ∧ is_add t.type = false := by
  intro t ht
  rcases rolls_types r h t ht with h1 | h1 <;> rw [h1] <;> exact ⟨rfl, rfl⟩

theorem rolls_ne_nil (r : Nat → Nat) {ts : List token} {p : Nat} {res : Option (Int × Nat)}
    (h : Rolls r ts p res) : 1 ≤ ts.length := by
  cases h with
  | num t p ht => simp
  | roll o u ts p res ho hu _ => simp

theorem dsem_no_add (r : Nat → Nat) {k : Nat} {ts : List token} {p : Nat}
    {d : Option (List token × Nat × Option Int)} (h : DSem r k ts p d) :
    k = 1 → ∀ t ∈ ts, is_add t.type = false := by
  induction h with
  | rolls ts p res h => intro _ t ht; exact (rolls_plain r h t ht).2
  | mul o ts us p F1 p1 v1 res ho _ h2 ih =>
    intro hk t ht
    rcases List.mem_append.1 ht with ht | ht
    · exact ih hk t ht
    · rcases List.mem_cons.1 ht with ht | ht
      · rw [ht]
        rcases is_mul_cases ho with h | h | h <;> rw [h] <;> rfl
      · exact (rolls_plain r h2 t ht).2
  | mul_fail o ts us p ho _ hus ih =>
    intro hk t ht
    rcases List.mem_append.1 ht with ht | ht
    · exact ih hk t ht
    · rcases List.mem_cons.1 ht with ht | ht
      · rw [ht]
        rcases is_mul_cases ho with h | h | h <;> rw [h] <;> rfl
      · exact (hus t ht).2
  | body ts p d _ _ => intro hk; cases hk
  | add o ts us p F1 p1 v1 d2 _ _ _ _ _ => intro hk; cases hk
  | add_fail o ts us p _ _ _ _ => intro hk; cases hk

theorem dsem_ne_nil (r : Nat → Nat) {k : Nat} {ts : List token} {p : Nat}
    {d : Option (List token × Nat × Option Int)} (h : DSem r k ts p d) : 1 ≤ ts.length := by
  induction h with
  | rolls ts p res h => exact rolls_ne_nil r h
  | mul o ts us p F1 p1 v1 res ho _ h2 ih => simp; omega
  | mul_fail o ts us p ho _ hus ih => simp; omega
  | body ts p d _ ih => exact ih
  | add o ts us p F1 p1 v1 d2 _ _ _ _ _ => simp; omega
  | add_fail o ts us p _ _ _ _ => simp; omega

theorem ref_dice_split (r : Nat → Nat) (n : Nat) (ts us : List token) (o : token) (p : Nat)
    (h : split_root (ts ++ o :: us) = some (ts, o, us)) :
    ref_dice_fuel r (n + 1) (ts ++ o :: us) p =
      (ref_dice_fuel r n ts p).bind fun x =>
        (ref_dice_fuel r n us x.2).bind fun y => ref_binary r o.type x.1 y.1 y.2 := by
  simp only [ref_dice_fuel, h]
  cases ref_dice_fuel r n ts p with
  | none => rfl
  | some x =>
    obtain ⟨a, p1⟩ := x
    simp only [Option.bind]
    cases ref_dice_fuel r n us p1 with
    | none => rfl
    | some y => rfl

/-- The reference evaluator on `number (dice number)*` applies the dice operators from left
to right. -/
theorem rolls_ref (r : Nat → Nat) {ts : List token} {p : Nat} {res : Option (Int × Nat)}
    (h : Rolls r ts p res) : ∀ n, ts.length ≤ n → ref_dice_fuel r n ts p = res := by
  induction h with
  | num t p ht =>
    intro n hn
    obtain ⟨m, rfl⟩ : ∃ m, n = m + 1 := ⟨n - 1, by simp at hn; omega⟩
    exact ref_dice_number r m t p ht
  | roll o u ts p res ho hu h ih =>
    intro n hn
    have h1 := rolls_ne_nil r h
    simp only [List.length_append, List.length_cons, List.length_nil] at hn
    obtain ⟨m, rfl⟩ : ∃ m, n = m + 2 := ⟨n - 2, by omega⟩
    rw [ref_dice_split r (m + 1) ts [u] o p (split_root_dice o ts [u] ho (rolls_plain r h)
      (fun t ht => by rw [List.mem_singleton] at ht; rw [ht]; exact hu))]
    rw [ih (m + 1) (by omega)]
    cases res with
    | none => rfl
    | some x =>
      simp only [Option.bind, ref_dice_number r m u x.2 hu, ref_binary, ho, if_true]

theorem ref_binary_arith (r : Nat → Nat) (o : token_t) (a b : Int) (p : Nat)
    (ho : is_mul o = true ∨ is_add o = true) :
    ref_binary r o a b p = (ref_apply o a b).map fun v => (v, p) := by
  have : o ≠ .dice := by
    intro h
    rw [h] at ho
    rcases ho with ho | ho <;> cases ho
  simp only [ref_binary, this, if_false]

/-- The reference evaluator on a term or body made of dice rolls: its value is the value of
the sequence that the rolls leave. -/
theorem dsem_ref (r : Nat → Nat) {k : Nat} {ts : List token} {p : Nat}
    {d : Option (List token × Nat × Option Int)} (h : DSem r k ts p d) :
    ∀ n, ts.length ≤ n →
      ref_dice_fuel r n ts p = d.bind fun x => x.2.2.map fun a => (a, x.2.1) := by
  induction h with
  | rolls ts p res h =>
    intro n hn
    rw [rolls_ref r h n hn]
    cases res with
    | none => rfl
    | some x => rfl
  | mul o ts us p F1 p1 v1 res ho h1 h2 ih =>
    intro n hn
    have hl := dsem_ne_nil r h1
    simp only [List.length_append, List.length_cons] at hn
    obtain ⟨m, rfl⟩ : ∃ m, n = m + 1 := ⟨n - 1, by omega⟩
    rw [ref_dice_split r m ts us o p (split_root_mul o ts us ho (dsem_no_add r h1 rfl)
      (rolls_plain r h2)), ih m (by omega)]
    cases v1 with
    | none => cases res <;> rfl
    | some a =>
      simp only [Option.bind, Option.map]
      rw [rolls_ref r h2 m (by omega)]
      cases res with
      | none => rfl
      | some y =>
        show ref_binary r o.type a y.1 y.2 = _
        rw [ref_binary_arith r o.type a y.1 y.2 (Or.inl ho)]
        rfl
  | mul_fail o ts us p ho h1 hus ih =>
    intro n hn
    simp only [List.length_append, List.length_cons] at hn
    obtain ⟨m, rfl⟩ : ∃ m, n = m + 1 := ⟨n - 1, by omega⟩
    rw [ref_dice_split r m ts us o p (split_root_mul o ts us ho (dsem_no_add r h1 rfl) hus),
      ih m (by omega)]
    rfl
  | body ts p d _ ih => exact ih
  | add o ts us p F1 p1 v1 d2 ho h1 h2 ih1 ih2 =>
    intro n hn
    simp only [List.length_append, List.length_cons] at hn
    obtain ⟨m, rfl⟩ : ∃ m, n = m + 1 := ⟨n - 1, by omega⟩
    rw [ref_dice_split r m ts us o p (split_root_add o ts us ho (dsem_no_add r h2 rfl)),
      ih1 m (by omega)]
    cases v1 with
    | none => cases d2 <;> rfl
    | some a =>
      simp only [Option.bind, Option.map]
      rw [ih2 m (by omega)]
      cases d2 with
      | none => rfl
      | some y =>
        obtain ⟨F2, p2, v2⟩ := y
        cases v2 with
        | none => rfl
        | some b =>
          show ref_binary r o.type a b p2 = _
          rw [ref_binary_arith r o.type a b p2 (Or.inr ho)]
          rfl
  | add_fail o ts us p ho h1 hus ih =>
    intro n hn
    simp only [List.length_append, List.length_cons] at hn
    obtain ⟨m, rfl⟩ : ∃ m, n = m + 1 := ⟨n - 1, by omega⟩
    rw [ref_dice_split r m ts us o p (split_root_add o ts us ho hus), ih m (by omega)]
    rfl

theorem token_eta (t : token) (ht : t.type = .number) :
    ({ type := .number, value := t.value } : token) = t := by
  obtain ⟨ty, v⟩ := t
  simp only at ht
  subst ht
  rfl

theorem do_binary_op_dice (r : Nat → Nat) (a b : Int) (p : Nat) :
    do_binary_op r .dice a b p =
      if b < 1 then .error .dice_number_at_least_1
      else .ok (wrap (draws r b p a.toNat).sum, p + a.toNat) := by
  simp only [do_binary_op, sum_rolls_eq]

/-- The first operator loop of `evaluate_subtok` on `number (dice number)*`: it replaces the
sequence by the number that the rolls give, from left to right, or throws. -/
theorem rolls_tier (r : Nat → Nat) {ts : List token} {p : Nat} {res : Option (Int × Nat)}
    (h : Rolls r ts p res) : ∀ (pre rest : List token),
    (∀ c ∈ rest.head?, c.type ≠ .choose) →
    Goes (tier r is_dice is_choose pre (ts ++ rest) p) res
      (fun x => tier r is_dice is_choose ({ type := .number, value := x.1 } :: pre) rest x.2) := by
  induction h with
  | num t p ht =>
    intro pre rest _
    show tier r is_dice is_choose pre ([t] ++ rest) p =
      tier r is_dice is_choose ({ type := .number, value := t.value } :: pre) rest p
    rw [List.singleton_append, tier_skip r _ _ pre t rest p (by rw [ht]; rfl) (by rw [ht]; rfl),
      token_eta t ht]
  | roll o u ts p res ho hu h ih =>
    intro pre rest hrest
    have i1 := ih pre (o :: u :: rest) (fun c hc => by
      simp only [List.head?_cons, Option.mem_def, Option.some.injEq] at hc
      rw [← hc, ho]; decide)
    have e1 : ts ++ [o, u] ++ rest = ts ++ o :: u :: rest := by simp
    rw [e1]
    cases res with
    | none => exact i1
    | some x =>
      obtain ⟨a, p1⟩ := x
      have i2 : tier r is_dice is_choose pre (ts ++ o :: u :: rest) p =
          tier r is_dice is_choose ({ type := .number, value := a } :: pre)
            (o :: u :: rest) p1 := i1
      rw [i2, tier_apply r _ _ _ o _ p1 (by rw [ho]; rfl),
        apply_operator_plain r ⟨.number, a⟩ o u pre rest p1 rfl hu
          (fun c hc hcc => hrest c hc hcc.2), ho, do_binary_op_dice]
      simp only [Option.bind, ref_roll]
      by_cases hb : u.value < 1
      · simp only [hb, if_true]
        rfl
      · simp only [hb, if_false]
        rfl

theorem goes_none {α β : Type} (lhs : Except Err α) (k : β → Except Err α)
    (h : lhs = .error .dice_number_at_least_1) : Goes lhs none k := h

theorem goes_some {α β : Type} (lhs : Except Err α) (b : β) (k : β → Except Err α)
    (h : lhs = k b) : Goes lhs (some b) k := h

theorem goes_some_inv {α β : Type} {lhs : Except Err α} {b : β} {k : β → Except Err α}
    (h : Goes lhs (some b) k) : lhs = k b := h

theorem goes_none_inv {α β : Type} {lhs : Except Err α} {k : β → Except Err α}
    (h : Goes lhs none k) : lhs = .error .dice_number_at_least_1 := h

theorem is_mul_plain {k : token_t} (h : is_mul k = true) :
    is_dice k = false ∧ is_choose k = false := by
  rcases is_mul_cases h with e | e | e <;> rw [e] <;> exact ⟨rfl, rfl⟩

theorem is_add_plain {k : token_t} (h : is_add k = true) :
    is_dice k = false ∧ is_choose k = false := by
  rcases is_add_cases h with e | e <;> rw [e] <;> exact ⟨rfl, rfl⟩

/-- The first operator loop of `evaluate_subtok` on a term or body made of dice rolls: it
replaces every roll by its number, from left to right, or throws. -/
theorem dsem_tier (r : Nat → Nat) {k : Nat} {ts : List token} {p : Nat}
    {d : Option (List token × Nat × Option Int)} (h : DSem r k ts p d) :
    ∀ (pre rest : List token), (∀ c ∈ rest.head?, c.type ≠ .choose) →
    Goes (tier r is_dice is_choose pre (ts ++ rest) p) d
      (fun x => tier r is_dice is_choose (x.1.reverse ++ pre) rest x.2.1) := by
  induction h with
  | rolls ts p res h =>
    intro pre rest hrest
    have i1 := rolls_tier r h pre rest hrest
    cases res with
    | none => exact i1
    | some x => exact i1
  | mul o ts us p F1 p1 v1 res ho h1 h2 ih =>
    intro pre rest hrest
    have i1 := goes_some_inv (ih pre (o :: (us ++ rest)) (fun c hc => by
      simp only [List.head?_cons, Option.mem_def, Option.some.injEq] at hc
      rw [← hc]
      rcases is_mul_cases ho with e | e | e <;> rw [e] <;> decide))
    have e1 : ts ++ o :: us ++ rest = ts ++ o :: (us ++ rest) := by simp
    have i2 := rolls_tier r h2 (o :: (F1.reverse ++ pre)) rest hrest
    rw [e1]
    cases res with
    | none =>
      apply goes_none
      rw [i1]
      dsimp only
      rw [tier_skip r _ _ _ o _ p1 (is_mul_plain ho).1 (is_mul_plain ho).2]
      exact goes_none_inv i2
    | some x =>
      apply goes_some
      rw [i1]
      dsimp only
      rw [tier_skip r _ _ _ o _ p1 (is_mul_plain ho).1 (is_mul_plain ho).2,
        goes_some_inv i2]
      simp
  | mul_fail o ts us p ho h1 hus ih =>
    intro pre rest hrest
    have i1 := goes_none_inv (ih pre (o :: (us ++ rest)) (fun c hc => by
      simp only [List.head?_cons, Option.mem_def, Option.some.injEq] at hc
      rw [← hc]
      rcases is_mul_cases ho with e | e | e <;> rw [e] <;> decide))
    have e1 : ts ++ o :: us ++ rest = ts ++ o :: (us ++ rest) := by simp
    rw [e1]
    exact goes_none _ _ i1
  | body ts p d _ ih => exact ih
  | add o ts us p F1 p1 v1 d2 ho h1 h2 ih1 ih2 =>
    intro pre rest hrest
    have i1 := goes_some_inv (ih1 pre (o :: (us ++ rest)) (fun c hc => by
      simp only [List.head?_cons, Option.mem_def, Option.some.injEq] at hc
      rw [← hc]
      rcases is_add_cases ho with e | e <;> rw [e] <;> decide))
    have e1 : ts ++ o :: us ++ rest = ts ++ o :: (us ++ rest) := by simp
    have i2 := ih2 (o :: (F1.reverse ++ pre)) rest hrest
    rw [e1]
    cases d2 with
    | none =>
      apply goes_none
      rw [i1]
      dsimp only
      rw [tier_skip r _ _ _ o _ p1 (is_add_plain ho).1 (is_add_plain ho).2]
      exact goes_none_inv i2
    | some x =>
      apply goes_some
      rw [i1]
      dsimp only
      rw [tier_skip r _ _ _ o _ p1 (is_add_plain ho).1 (is_add_plain ho).2,
        goes_some_inv i2]
      simp
  | add_fail o ts us p ho h1 hus ih =>
    intro pre rest hrest
    have i1 := goes_none_inv (ih pre (o :: (us ++ rest)) (fun c hc => by
      simp only [List.head?_cons, Option.mem_def, Option.some.injEq] at hc
      rw [← hc]
      rcases is_add_cases ho with e | e <;> rw [e] <;> decide))
    have e1 : ts ++ o :: us ++ rest = ts ++ o :: (us ++ rest) := by simp
    rw [e1]
    exact goes_none _ _ i1

/-- The sequence that the rolls of a term or body leave is a term or body of pure
arithmetic, with the value recorded for it. -/
theorem dsem_sem (r : Nat → Nat) {k : Nat} {ts : List token} {p : Nat}
    {d : Option (List token × Nat × Option Int)} (h : DSem r k ts p d) :
    ∀ F p1 v, d = some (F, p1, v) → Sem k F v ∧ flat F := by
  induction h with
  | rolls ts p res h =>
    intro F p1 v hd
    cases res with
    | none => cases hd
    | some x =>
      simp only [Option.map, Option.some.injEq, Prod.mk.injEq] at hd
      obtain ⟨e1, _, e3⟩ := hd
      subst e1 e3
      refine ⟨Sem.term_of_atom _ _ (Sem.num ⟨.number, x.1⟩ rfl), ?_⟩
      intro t ht
      rw [List.mem_singleton] at ht
      rw [ht]; exact ⟨by simp, by simp⟩
  | mul o ts us p F1 p1 v1 res ho h1 h2 ih =>
    intro F p2 v hd
    obtain ⟨s1, f1⟩ := ih F1 p1 v1 rfl
    cases res with
    | none => cases hd
    | some x =>
      simp only [Option.map, Option.some.injEq, Prod.mk.injEq] at hd
      obtain ⟨e1, _, e3⟩ := hd
      subst e1 e3
      refine ⟨Sem.mul o F1 _ v1 _ ho s1 (Sem.num ⟨.number, x.1⟩ rfl), ?_⟩
      intro t ht
      rcases List.mem_append.1 ht with ht | ht
      · exact f1 t ht
      · simp only [List.mem_cons, List.mem_singleton, List.not_mem_nil, or_false] at ht
        rcases ht with ht | ht
        · rw [ht]
          rcases is_mul_cases ho with e | e | e <;> rw [e] <;> exact ⟨by decide, by decide⟩
        · rw [ht]; exact ⟨by simp, by simp⟩
  | mul_fail o ts us p ho h1 hus ih => intro F p1 v hd; cases hd
  | body ts p d _ ih =>
    intro F p1 v hd
    obtain ⟨s1, f1⟩ := ih F p1 v hd
    exact ⟨Sem.body_of_term _ _ s1, f1⟩
  | add o ts us p F1 p1 v1 d2 ho h1 h2 ih1 ih2 =>
    intro F p2 v hd
    obtain ⟨s1, f1⟩ := ih1 F1 p1 v1 rfl
    cases d2 with
    | none => cases hd
    | some x =>
      obtain ⟨F2, q2, v2⟩ := x
      obtain ⟨s2, f2⟩ := ih2 F2 q2 v2 rfl
      simp only [Option.map, Option.some.injEq, Prod.mk.injEq] at hd
      obtain ⟨e1, _, e3⟩ := hd
      subst e1 e3
      refine ⟨Sem.add o F1 F2 v1 v2 ho s1 s2, ?_⟩
      intro t ht
      rcases List.mem_append.1 ht with ht | ht
      · exact f1 t ht
      · rcases List.mem_cons.1 ht with ht | ht
        · rw [ht]
          rcases is_add_cases ho with e | e <;> rw [e] <;> exact ⟨by decide, by decide⟩
        · exact f2 t ht
  | add_fail o ts us p ho h1 hus ih => intro F p1 v hd; cases hd

theorem ops_loop_split (L R : List token) (o : token)
    (ho : o.type ≠ .number ∧ o.type ≠ .lparen ∧ o.type ≠ .rparen)
    (h : ops_loop (L ++ o :: R) true = true) :
    ops_loop L true = true ∧ ops_loop R true = true := by
  have h1 := ops_loop_rest L (o :: R) true h
  obtain ⟨o1, o2⟩ := (ops_loop_cons_iff o R _).1 h1
  rw [ops_next_operator ho.1 ho.2.2] at o2
  have hst : state_after L true = false := by
    cases hs : state_after L true with
    | false => rfl
    | true =>
      rw [hs] at o1
      simp only [ops_ok, if_true] at o1
      rcases o1 with o1 | o1
      · exact absurd o1 ho.1
      · exact absurd o1 ho.2.1
  exact ⟨ops_loop_front L (o :: R) true h hst, o2⟩

/-- An accepted sequence of numbers and dice operators is `number (dice number)*`. -/
theorem rolls_exists (r : Nat → Nat) : ∀ (n : Nat) (T : List token), T.length ≤ n →
    ops_loop T true = true → (∀ t ∈ T, t.type = .number ∨ t.type = .dice) →
    ∀ p, ∃ res, Rolls r T p res := by
  intro n
  induction n with
  | zero =>
    intro T hl ho
    have : T = [] := List.length_eq_zero.1 (by omega)
    subst this
    simp [ops_loop] at ho
  | succ n ih =>
    intro T hl ho hty p
    cases hs : split_last is_dice T with
    | none =>
      have h1 := (split_last_spec is_dice T).1 hs
      obtain ⟨t, e1, e2⟩ := ops_loop_numbers T ho (fun t ht => by
        rcases hty t ht with h | h
        · exact h
        · have := h1 t ht
          rw [h] at this
          cases this)
      subst e1
      exact ⟨_, Rolls.num t p e2⟩
    | some q =>
      obtain ⟨L, o, R⟩ := q
      obtain ⟨e1, e2, e3⟩ := (split_last_spec is_dice T).2 L o R hs
      subst e1
      have hod := is_dice_eq e2
      obtain ⟨o1, o2⟩ := ops_loop_split L R o (by rw [hod]; exact ⟨by decide, by decide,
        by decide⟩) ho
      obtain ⟨u, e4, e5⟩ := ops_loop_numbers R o2 (fun t ht => by
        rcases hty t (List.mem_append_right _ (List.mem_cons_of_mem _ ht)) with h | h
        · exact h
        · have := e3 t ht
          rw [h] at this
          cases this)
      subst e4
      simp only [List.length_append, List.length_cons, List.length_nil] at hl
      obtain ⟨res, hr⟩ := ih L (by omega) o1 (fun t ht => hty t (List.mem_append_left _ ht)) p
      exact ⟨_, Rolls.roll o u L p res hod e5 hr⟩

/-- An accepted sequence of numbers, dice and multiplicative operators is a term of rolls. -/
theorem term_exists (r : Nat → Nat) : ∀ (n : Nat) (T : List token), T.length ≤ n →
    ops_loop T true = true →
    (∀ t ∈ T, t.type = .number ∨ t.type = .dice ∨ is_mul t.type = true) →
    ∀ p, ∃ d, DSem r 1 T p d := by
  intro n
  induction n with
  | zero =>
    intro T hl ho
    have : T = [] := List.length_eq_zero.1 (by omega)
    subst this
    simp [ops_loop] at ho
  | succ n ih =>
    intro T hl ho hty p
    have hrolls : ∀ R : List token, (∀ t ∈ R, t.type = .number ∨ t.type = .dice ∨
        is_mul t.type = true) → (∀ t ∈ R, is_mul t.type = false) →
        ∀ t ∈ R, t.type = .number ∨ t.type = .dice := by
      intro R h1 h2 t ht
      rcases h1 t ht with h | h | h
      · exact Or.inl h
      · exact Or.inr h
      · rw [h2 t ht] at h
        cases h
    cases hs : split_last is_mul T with
    | none =>
      obtain ⟨res, hr⟩ := rolls_exists r T.length T (le_refl _) ho
        (hrolls T hty ((split_last_spec is_mul T).1 hs)) p
      exact ⟨_, DSem.rolls T p res hr⟩
    | some q =>
      obtain ⟨L, o, R⟩ := q
      obtain ⟨e1, e2, e3⟩ := (split_last_spec is_mul T).2 L o R hs
      subst e1
      obtain ⟨o1, o2⟩ := ops_loop_split L R o (by
        rcases is_mul_cases e2 with e | e | e <;> rw [e] <;>
          exact ⟨by decide, by decide, by decide⟩) ho
      simp only [List.length_append, List.length_cons] at hl
      have hR := hrolls R (fun t ht => hty t (List.mem_append_right _
        (List.mem_cons_of_mem _ ht))) e3
      obtain ⟨d1, hd1⟩ := ih L (by omega) o1 (fun t ht => hty t (List.mem_append_left _ ht)) p
      cases d1 with
      | none =>
        refine ⟨_, DSem.mul_fail o L R p e2 hd1 ?_⟩
        intro t ht
        rcases hR t ht with h | h <;> rw [h] <;> exact ⟨rfl, rfl⟩
      | some x =>
        obtain ⟨F1, p1, v1⟩ := x
        obtain ⟨res, hr⟩ := rolls_exists r R.length R (le_refl _) o2 hR p1
        exact ⟨_, DSem.mul o L R p F1 p1 v1 res e2 hd1 hr⟩

/-- An accepted sequence of numbers, dice and arithmetic operators is a body of rolls. -/
theorem body_exists (r : Nat → Nat) : ∀ (n : Nat) (T : List token), T.length ≤ n →
    ops_loop T true = true →
    (∀ t ∈ T, t.type = .number ∨ t.type = .dice ∨ is_mul t.type = true ∨
      is_add t.type = true) →
    ∀ p, ∃ d, DSem r 2 T p d := by
  intro n
  induction n with
  | zero =>
    intro T hl ho
    have : T = [] := List.length_eq_zero.1 (by omega)
    subst this
    simp [ops_loop] at ho
  | succ n ih =>
    intro T hl ho hty p
    have hterm : ∀ R : List token, (∀ t ∈ R, t.type = .number ∨ t.type = .dice ∨
        is_mul t.type = true ∨ is_add t.type = true) → (∀ t ∈ R, is_add t.type = false) →
        ∀ t ∈ R, t.type = .number ∨ t.type = .dice ∨ is_mul t.type = true := by
      intro R h1 h2 t ht
      rcases h1 t ht with h | h | h | h
      · exact Or.inl h
      · exact Or.inr (Or.inl h)
      · exact Or.inr (Or.inr h)
      · rw [h2 t ht] at h
        cases h
    cases hs : split_last is_add T with
    | none =>
      obtain ⟨d, hd⟩ := term_exists r T.length T (le_refl _) ho
        (hterm T hty ((split_last_spec is_add T).1 hs)) p
      exact ⟨_, DSem.body T p d hd⟩
    | some q =>
      obtain ⟨L, o, R⟩ := q
      obtain ⟨e1, e2, e3⟩ := (split_last_spec is_add T).2 L o R hs
      subst e1
      obtain ⟨o1, o2⟩ := ops_loop_split L R o (by
        rcases is_add_cases e2 with e | e <;> rw [e] <;>
          exact ⟨by decide, by decide, by decide⟩) ho
      simp only [List.length_append, List.length_cons] at hl
      have hR := hterm R (fun t ht => hty t (List.mem_append_right _
        (List.mem_cons_of_mem _ ht))) e3
      obtain ⟨d1, hd1⟩ := ih L (by omega) o1 (fun t ht => hty t (List.mem_append_left _ ht)) p
      cases d1 with
      | none => exact ⟨_, DSem.add_fail o L R p e2 hd1 e3⟩
      | some x =>
        obtain ⟨F1, p1, v1⟩ := x
        obtain ⟨d2, hd2⟩ := term_exists r R.length R (le_refl _) o2 hR p1
        exact ⟨_, DSem.add o L R p F1 p1 v1 d2 e2 hd1 hd2⟩

theorem die_one (r : Nat → Nat) (p : Nat) : die r 1 p = 1 := by
  simp [die, Nat.mod_one]

/-- The three operator loops on a sequence whose dice operators the first loop replaces by
the numbers of `F` go on as on `F`. -/
theorem after_parens_of_dice (r : Nat → Nat) (T F : List token) (p p1 : Nat)
    (h1 : tier r is_dice is_choose [] T p = .ok (F, p1))
    (h2 : tier r is_dice is_choose [] F p1 = .ok (F, p1)) :
    after_parens r T p = after_parens r F p1 := by
  unfold after_parens
  rw [h1, h2]

/-- The call `evaluate_subtok` on a body of rolls returns the value of the sequence that the
rolls leave and the position behind the rolls, and throws when a roll or that sequence has no
value. -/
theorem evaluate_subtok_dsem (r : Nat → Nat) {T : List token} {p : Nat}
    {d : Option (List token × Nat × Option Int)} (h : DSem r 2 T p d)
    (hl : ∀ t ∈ T, t.type ≠ .lparen) :
    (∀ a q, evaluate_subtok r T p = .ok (a, q) ↔
      (d.bind fun x => x.2.2.map fun a => (a, x.2.1)) = some (a, q)) ∧
    ((∃ e, evaluate_subtok r T p = .error e) ↔
      (d.bind fun x => x.2.2.map fun a => (a, x.2.1)) = none) := by
  have heq : evaluate_subtok r T p = after_parens r T p := by
    rw [evaluate_subtok_eq, parens_flat r T p hl]
  have g := dsem_tier r h [] [] (fun c hc => by simp at hc)
  rw [List.append_nil] at g
  rw [heq]
  cases d with
  | none =>
    have g1 := goes_none_inv g
    have e1 : after_parens r T p = .error .dice_number_at_least_1 := by
      unfold after_parens
      rw [g1]
    rw [e1]
    refine ⟨fun a q => ⟨fun h => (by cases h), fun h => (by cases h)⟩, ?_⟩
    exact ⟨fun _ => rfl, fun _ => ⟨_, rfl⟩⟩
  | some x =>
    obtain ⟨F, p1, v⟩ := x
    have g1 := goes_some_inv g
    dsimp only at g1
    rw [tier_nil, List.append_nil, List.reverse_reverse] at g1
    obtain ⟨s1, f1⟩ := dsem_sem r h F p1 v rfl
    have hpass : tier r is_dice is_choose [] F p1 = .ok (F, p1) := by
      rw [tier_pass r is_dice is_choose F [] p1]
      · simp
      · intro t ht
        rcases sem_types s1 t ht with h | h | h | h | h
        · rw [h]; exact ⟨rfl, rfl⟩
        · rw [h]; exact ⟨rfl, rfl⟩
        · rw [h]; exact ⟨rfl, rfl⟩
        · exact is_mul_plain h
        · exact is_add_plain h
    rw [after_parens_of_dice r T F p p1 g1 hpass]
    have ha := after_parens_sem r s1 f1 p1
    cases v with
    | none =>
      obtain ⟨e, he⟩ : ∃ e, after_parens r F p1 = .error e := ha
      rw [he]
      refine ⟨fun a q => ⟨fun h => (by cases h), fun h => (by cases h)⟩, ?_⟩
      exact ⟨fun _ => rfl, fun _ => ⟨_, rfl⟩⟩
    | some a =>
      have he : after_parens r F p1 = .ok (a, p1) := ha
      rw [he]
      refine ⟨fun b q => ?_, ?_⟩
      · constructor
        · intro h
          have := Except.ok.inj h
          rw [← this]
          rfl
        · intro h
          have : (a, p1) = (b, q) := Option.some.inj h
          rw [← this]
      · constructor
        · rintro ⟨e, h⟩
          cases h
        · intro h
          cases h

/-- On a validated sequence without parentheses, choose and repeat marker, `evaluate_subtok`
and the reference evaluator `ref_eval_dice` have the same outcome. -/
theorem evaluate_subtok_ref_dice (r : Nat → Nat) (toks : List token) (p : Nat)
    (hv : valid_ops toks = true)
    (hk : ∀ t ∈ toks, t.type ≠ .lparen ∧ t.type ≠ .rparen ∧ t.type ≠ .choose ∧
      t.type ≠ .x) :
    (∀ (a : Int) (q : Nat),
      evaluate_subtok r toks p = .ok (a, q) ↔ ref_eval_dice r toks p = some (a, q)) ∧
    ((∃ e, evaluate_subtok r toks p = .error e) ↔ ref_eval_dice r toks p = none) := by
  obtain ⟨_, ho⟩ := valid_ops_ops_loop toks hv
  have hty : ∀ t ∈ toks, t.type = .number ∨ t.type = .dice ∨ is_mul t.type = true ∨
      is_add t.type = true := by
    intro t ht
    obtain ⟨h1, h2, h3, h4⟩ := hk t ht
    revert h1 h2 h3 h4
    cases t.type <;> simp [is_mul, is_add]
  obtain ⟨d, hd⟩ := body_exists r toks.length toks (le_refl _) ho hty p
  obtain ⟨g1, g2⟩ := evaluate_subtok_dsem r hd (fun t ht => (hk t ht).1)
  have href : ref_eval_dice r toks p = d.bind fun x => x.2.2.map fun a => (a, x.2.1) :=
    dsem_ref r hd toks.length (le_refl _)
  rw [href]
  exact ⟨g1, g2⟩

/-- What `main` computes for an input without repeat marker whose evaluation returns. -/
theorem run_of_value (r : Nat → Nat) (arg : List Char) (toks : List token) (p : Nat)
    (v : Int) (q : Nat) (hc : construct arg = .ok toks) (hx : find_x toks = none)
    (hev : evaluate_subtok r toks p = .ok (v, q)) : run r arg p = .ok ([v], q) := by
  unfold run
  rw [hc]
  simp only [call, hx]
  have h1 : (1 : Int).toNat = 1 := rfl
  rw [h1]
  simp only [rep_loop, hev, List.nil_append]

/-- C19: on every token sequence that `valid_ops` accepts and that has no parenthesis,
choose or repeat-marker token, and for every stream of die values, `evaluate_subtok` returns
the value and the stream position of the reference evaluator `ref_eval_dice`, in which the
dice operator binds tighter than `* / %`, these bind tighter than `+ -`, equal tiers
associate to the left and the rolls are drawn from left to right; it fails exactly when the
reference has no value.  Both compute in the type `int`.  The input `2*1d1+3` gives 5 and the
input `2d1d1` gives 2. -/
theorem C19_dice_precedence (r : Nat → Nat) (toks : List token) (p : Nat)
    (hv : valid_ops toks = true)
    (hk : ∀ t ∈ toks, t.type ≠ .lparen ∧ t.type ≠ .rparen ∧ t.type ≠ .choose ∧
      t.type ≠ .x) :
    (∀ (a : Int) (q : Nat),
      evaluate_subtok r toks p = .ok (a, q) ↔ ref_eval_dice r toks p = some (a, q)) ∧
    ((∃ e, evaluate_subtok r toks p = .error e) ↔ ref_eval_dice r toks p = none) ∧
    run r "2*1d1+3".toList p = .ok ([5], p + 1) ∧
    run r "2d1d1".toList p = .ok ([2], p + 4) ∧
    ref_eval_dice r [⟨.number, 2⟩, ⟨.mul, 0⟩, ⟨.number, 1⟩, ⟨.dice, 0⟩, ⟨.number, 1⟩,
      ⟨.add, 0⟩, ⟨.number, 3⟩] p = some (5, p + 1) ∧
    ref_eval_dice r [⟨.number, 2⟩, ⟨.dice, 0⟩, ⟨.number, 1⟩, ⟨.dice, 0⟩, ⟨.number, 1⟩] p =
      some (2, p + 4) := by
  obtain ⟨g1, g2⟩ := evaluate_subtok_ref_dice r toks p hv hk
  have h2 : ∀ q, (draws r 1 q 2).sum = 2 := by
    intro q
    simp [draws, List.range_succ, die_one]
  have h3 : (wrap 2).toNat = 2 := by decide
  have hr2 : ref_eval_dice r [⟨.number, 2⟩, ⟨.dice, 0⟩, ⟨.number, 1⟩, ⟨.dice, 0⟩,
      ⟨.number, 1⟩] p = some (2, p + 4) := by
    have h : ref_eval_dice r [⟨.number, 2⟩, ⟨.dice, 0⟩, ⟨.number, 1⟩, ⟨.dice, 0⟩,
        ⟨.number, 1⟩] p =
        some (wrap (draws r 1 (p + 2) (wrap (draws r 1 p 2).sum).toNat).sum,
          p + 2 + (wrap (draws r 1 p 2).sum).toNat) := rfl
    rw [h, h2, h3, h2]
    rfl
  refine ⟨g1, g2, ?_, ?_, ?_, hr2⟩
  · have h : run r "2*1d1+3".toList p
        = .ok ([wrap (wrap (2 * wrap (0 + die r 1 p)) + 3)], p + 1) := rfl
    rw [h, die_one]
    rfl
  · exact run_of_value r _ _ p 2 (p + 4) rfl rfl
      (((evaluate_subtok_ref_dice r _ p (by decide) (by decide)).1 2 (p + 4)).2 hr2)
  · have h : ref_eval_dice r [⟨.number, 2⟩, ⟨.mul, 0⟩, ⟨.number, 1⟩, ⟨.dice, 0⟩,
        ⟨.number, 1⟩, ⟨.add, 0⟩, ⟨.number, 3⟩] p =
        some (wrap (wrap (2 * wrap (draws r 1 p 1).sum) + 3), p + 1) := rfl
    have h1 : (draws r 1 p 1).sum = 1 := by
      simp [draws, die_one]
    rw [h, h1]
    rfl

theorem C19_dice_precedence_witness :
    evaluate_subtok (fun i => i) [⟨.number, 2⟩, ⟨.mul, 0⟩, ⟨.number, 1⟩, ⟨.dice, 0⟩,
      ⟨.number, 1⟩, ⟨.add, 0⟩, ⟨.number, 3⟩] 0 = .ok (5, 1) :=
  ((C19_dice_precedence (fun i => i) [⟨.number, 2⟩, ⟨.mul, 0⟩, ⟨.number, 1⟩, ⟨.dice, 0⟩,
      ⟨.number, 1⟩, ⟨.add, 0⟩, ⟨.number, 3⟩] 0 (by decide) (by decide)).1 5 1).2 (by rfl)

end DndDice
